import Mathlib

/-!
# Verification of the cursortab.nvim diff/staging/engine core

Shallow embedding of the Go sources of cursortab.nvim (the `text`, `utils`
and `engine` packages) together with proofs and refutations of the frozen
specification claims C1-C10.

Conventions of the embedding:
* Go strings are lists of characters (`GoStr`); `len` is list length (all
  concrete inputs are ASCII, so byte and char counts agree).
* Go `map[int]T` values are association lists `List (Int × T)`; iteration
  over a map is performed in ascending key order (Go's iteration order is
  unspecified; every map the claims touch is iterated only through
  order-independent folds or after sorting).
* The character-level diff library (`go-diff/diffmatchpatch`) is external
  to the repository.  Functions that consume its output are embedded as
  functions of the produced diff-segment list, quantified over all lists
  that are *valid* diffs of the given pair of strings; similarity scores
  are rationals.
-/

namespace Cursortab

/-- Go strings, embedded as character lists so that every operation the
sources perform on them is computable by the kernel. -/
abbrev GoStr := List Char

/-- A text line.  A line never contains its terminating newline. -/
abbrev Line := GoStr

/-! ## Character-level diff segments (output of the external dmp library) -/

/-- Operation of one character-diff segment (`diffmatchpatch.Operation`). -/
inductive DOp where
  | del
  | ins
  | eq
deriving DecidableEq, Repr

/-- One segment of a character-level diff (`diffmatchpatch.Diff`). -/
structure CDiff where
  op : DOp
  text : GoStr
deriving DecidableEq, Repr

/-- The old-side text a character diff describes: equal and deleted runs. -/
def cdiffOld (ds : List CDiff) : GoStr :=
  ds.foldl (fun acc d => if d.op = DOp.ins then acc else acc ++ d.text) []

/-- The new-side text a character diff describes: equal and inserted runs. -/
def cdiffNew (ds : List CDiff) : GoStr :=
  ds.foldl (fun acc d => if d.op = DOp.del then acc else acc ++ d.text) []

/-- A segment list is a valid character diff of `(oldLine, newLine)` when its
old side spells `oldLine` and its new side spells `newLine`, and no segment
is empty (the dmp library never emits empty segments). -/
def ValidCDiff (oldLine newLine : GoStr) (ds : List CDiff) : Prop :=
  cdiffOld ds = oldLine ∧ cdiffNew ds = newLine ∧ ∀ d ∈ ds, d.text ≠ []

instance (oldLine newLine : GoStr) (ds : List CDiff) :
    Decidable (ValidCDiff oldLine newLine ds) := by
  unfold ValidCDiff
  infer_instance

/-! ## Change types (`text` package)

The Go type `ChangeType` with its constants `ChangeDeletion`,
`ChangeAddition`, `ChangeModification`, `ChangeAppendChars`,
`ChangeDeleteChars`, `ChangeReplaceChars` is declared in a `text`-package
file that is not part of the provided sources; its constructors and the
methods `IsCharacterLevel`, `GroupType` and `RenderHint` are reconstructed
here from their uses in `staging.go` and from §3 of the spec. -/

/-- Modelled from the spec: the kind of a line change (§3 "Change",
kind ∈ deletion, addition, modification, append_chars, delete_chars,
replace_chars). -/
inductive ChangeType where
  | deletion
  | addition
  | modification
  | appendChars
  | deleteChars
  | replaceChars
deriving DecidableEq, Repr

/-- Modelled from the spec: `ChangeType.IsCharacterLevel` — the three
character-level kinds of §3 (append_chars / delete_chars / replace_chars). -/
def ChangeType.IsCharacterLevel : ChangeType → Bool
  | ChangeType.appendChars => true
  | ChangeType.deleteChars => true
  | ChangeType.replaceChars => true
  | _ => false

/-- Modelled from the spec: `ChangeType.GroupType` — the rendering group a
change belongs to (§3 "Group": additions group as "addition", everything
else that renders groups as "modification"). -/
def ChangeType.GroupType : ChangeType → GoStr
  | ChangeType.addition => "addition".data
  | ChangeType.deletion => "deletion".data
  | _ => "modification".data

/-- Modelled from the spec: `ChangeType.RenderHint` — the single-line render
hint of §3 (non-empty exactly for the character-level kinds). -/
def ChangeType.RenderHint : ChangeType → GoStr
  | ChangeType.appendChars => "append_chars".data
  | ChangeType.deleteChars => "delete_chars".data
  | ChangeType.replaceChars => "replace_chars".data
  | _ => []

/-- The Go struct `text.LineChange` (declared in the missing `text` file;
field set reconstructed from every use in `staging.go` and the incremental
builder, matching §3 "Change"). -/
structure LineChange where
  -- Go field `Type` (Lean reserves `Type`, hence `Typ`)
  Typ : ChangeType
  OldLineNum : Int := 0
  NewLineNum : Int := 0
  Content : GoStr := []
  OldContent : GoStr := []
  ColStart : Nat := 0
  ColEnd : Nat := 0
deriving DecidableEq, Repr

/-- The zero value of `LineChange` (Go map reads of absent keys). -/
def zeroChange : LineChange := ⟨ChangeType.deletion, 0, 0, [], [], 0, 0⟩

/-! ## utils package: token trimming (`utils.go`) -/

/-- `types.DiffEntry` as consumed through the `utils.DiffEntry` interface:
an original/updated text pair. -/
structure DiffEntry where
  Original : GoStr
  Updated : GoStr
deriving DecidableEq, Repr

/-- `utils.AvgCharsPerToken`. -/
def AvgCharsPerToken : Int := 4

/-- `utils.EstimateCharsFromTokens`. -/
def EstimateCharsFromTokens (tokens : Int) : Int :=
  tokens * AvgCharsPerToken

/-- Character weight of one diff entry:
`len(GetOriginal()) + len(GetUpdated())`. -/
def entryChars (e : DiffEntry) : Int :=
  (e.Original.length : Int) + (e.Updated.length : Int)

/-- The backwards scan of `utils.TrimDiffEntries`: iterate `i` from
`len(diffs)-1` down to `0`, accumulating `totalChars`; on the first entry
that would exceed `maxChars` (and is not the newest entry) stop and report
`cutoffIndex = i+1`.  `i1` is `i + 1`, so `0` terminates the loop. -/
def trimCutoff (diffs : List DiffEntry) (maxChars : Int) :
    Nat → Int → Nat
  | 0, _ => 0
  | i + 1, totalChars =>
    let ec := entryChars (diffs.getD i ⟨[], []⟩)
    if totalChars + ec > maxChars ∧ i < diffs.length - 1 then i + 1
    else trimCutoff diffs maxChars i (totalChars + ec)

/-- `utils.TrimDiffEntries` (`utils/utils.go`). -/
def TrimDiffEntries (diffs : List DiffEntry) (maxTokens : Int) :
    List DiffEntry :=
  if diffs = [] ∨ maxTokens ≤ 0 then diffs
  else
    let maxChars := EstimateCharsFromTokens maxTokens
    let cutoffIndex := trimCutoff diffs maxChars diffs.length 0
    if cutoffIndex > 0 then diffs.drop cutoffIndex else diffs

/-- The cutoff index never reaches the end of the list: it is either `0` or
`i+1` for some `i < len - 1`. -/
theorem trimCutoff_lt_length (diffs : List DiffEntry) (maxChars : Int) :
    ∀ i1 total, i1 ≤ diffs.length → diffs ≠ [] →
      trimCutoff diffs maxChars i1 total < diffs.length := by
  intro i1
  induction i1 with
  | zero =>
    intro total _ hne
    simpa [trimCutoff] using List.length_pos.mpr hne
  | succ i ih =>
    intro total h hne
    rw [trimCutoff]
    split
    · next hc =>
      have hi : i < diffs.length - 1 := hc.2
      omega
    · exact ih _ (Nat.le_of_succ_le h) hne

/-- Dropping fewer elements than the length preserves the last element. -/
theorem getLast?_drop_of_lt {α : Type} (l : List α) (k : Nat)
    (h : k < l.length) : (l.drop k).getLast? = l.getLast? := by
  induction l generalizing k with
  | nil => simp at h
  | cons a t ih =>
    cases k with
    | zero => rfl
    | succ k =>
      have ht : k < t.length := by simpa using h
      rw [List.drop_succ_cons, ih k ht]
      cases t with
      | nil => simp at ht
      | cons b t' => simp [List.getLast?_cons_cons]

/-- C9: `TrimDiffEntries` on a non-empty history with a positive token
budget returns a contiguous suffix of its input that still contains the
most recent (last) entry — entries are only dropped from the oldest end. -/
theorem TrimDiffEntries_suffix_keeps_newest (diffs : List DiffEntry)
    (maxTokens : Int) (hne : diffs ≠ []) (hpos : 0 < maxTokens) :
    ∃ k < diffs.length, TrimDiffEntries diffs maxTokens = diffs.drop k ∧
      TrimDiffEntries diffs maxTokens ≠ [] ∧
      (TrimDiffEntries diffs maxTokens).getLast? = diffs.getLast? := by
  have hcond : ¬(diffs = [] ∨ maxTokens ≤ 0) := by
    push_neg
    exact ⟨hne, hpos⟩
  have hcut := trimCutoff_lt_length diffs
    (EstimateCharsFromTokens maxTokens) diffs.length 0 le_rfl hne
  by_cases hz : trimCutoff diffs (EstimateCharsFromTokens maxTokens)
      diffs.length 0 > 0
  · refine ⟨trimCutoff diffs (EstimateCharsFromTokens maxTokens)
      diffs.length 0, hcut, ?_⟩
    have heq : TrimDiffEntries diffs maxTokens =
        diffs.drop (trimCutoff diffs (EstimateCharsFromTokens maxTokens)
          diffs.length 0) := by
      unfold TrimDiffEntries
      rw [if_neg hcond]
      simp only [hz, if_pos]
    refine ⟨heq, ?_, ?_⟩
    · rw [heq]
      intro hnil
      have := List.length_eq_zero.mpr hnil
      rw [List.length_drop] at this
      omega
    · rw [heq]
      exact getLast?_drop_of_lt _ _ hcut
  · refine ⟨0, List.length_pos.mpr hne, ?_⟩
    have heq : TrimDiffEntries diffs maxTokens = diffs := by
      unfold TrimDiffEntries
      rw [if_neg hcond]
      simp only [hz, if_neg]
      simp
    simp [heq, hne]

/-- Witness for C9 at a concrete input: a three-entry history whose newest
entry alone exceeds the one-token budget still keeps the newest entry. -/
theorem TrimDiffEntries_suffix_keeps_newest_witness :
    ([⟨"aaaa".data, "bbbb".data⟩, ⟨"cccc".data, "dddd".data⟩,
        ⟨"eeeeeeee".data, "ffffffff".data⟩] : List DiffEntry) ≠ [] ∧
      (0 : Int) < 1 ∧
      ∃ k < ([⟨"aaaa".data, "bbbb".data⟩, ⟨"cccc".data, "dddd".data⟩,
          ⟨"eeeeeeee".data, "ffffffff".data⟩] : List DiffEntry).length,
        TrimDiffEntries [⟨"aaaa".data, "bbbb".data⟩,
            ⟨"cccc".data, "dddd".data⟩,
            ⟨"eeeeeeee".data, "ffffffff".data⟩] 1 =
          ([⟨"aaaa".data, "bbbb".data⟩, ⟨"cccc".data, "dddd".data⟩,
            ⟨"eeeeeeee".data, "ffffffff".data⟩] : List DiffEntry).drop k ∧
        TrimDiffEntries [⟨"aaaa".data, "bbbb".data⟩,
            ⟨"cccc".data, "dddd".data⟩,
            ⟨"eeeeeeee".data, "ffffffff".data⟩] 1 ≠ [] ∧
        (TrimDiffEntries [⟨"aaaa".data, "bbbb".data⟩,
            ⟨"cccc".data, "dddd".data⟩,
            ⟨"eeeeeeee".data, "ffffffff".data⟩] 1).getLast? =
          ([⟨"aaaa".data, "bbbb".data⟩, ⟨"cccc".data, "dddd".data⟩,
            ⟨"eeeeeeee".data, "ffffffff".data⟩] :
              List DiffEntry).getLast? :=
  ⟨by decide, by decide,
    TrimDiffEntries_suffix_keeps_newest _ 1 (by decide) (by decide)⟩

/-! ## `categorizeLineChangeWithColumns` (`text/diff.go`)

The Go function runs `dmp.DiffMain(oldLine, newLine)` followed by
`DiffCleanupSemantic` and then inspects the resulting segment list.  The
embedding takes that segment list as an argument, quantified over all
valid diffs of the pair. -/

/-- Number of segments of a given operation (the `insertions`/`deletions`
counters of the first loop of `categorizeLineChangeWithColumns`). -/
def countOp (ds : List CDiff) (o : DOp) : Nat :=
  (ds.filter (fun d => d.op = o)).length

/-- The span scan shared by the replace/delete branches of
`categorizeLineChangeWithColumns`: advance `pos` over equal segments and
stop at the first segment with operation `o`, returning
`(pos, pos + len(text))`; `(0, 0)` if no such segment occurs. -/
def findSpan (o : DOp) : List CDiff → Nat → Nat × Nat
  | [], _ => (0, 0)
  | d :: rest, pos =>
    if d.op = o then (pos, pos + d.text.length)
    else if d.op = DOp.eq then findSpan o rest (pos + d.text.length)
    else findSpan o rest pos

/-- `strings.Fields` word count: maximal whitespace-separated runs. -/
def numFields (s : GoStr) : Nat :=
  ((s.splitOnP (fun c => c.isWhitespace)).filter (fun w => w ≠ [])).length

/-- The text of the last segment with operation `o` (the Go loop assigns
`deletedText`/`insertedText` on every matching segment, keeping the last). -/
def lastOpText (ds : List CDiff) (o : DOp) : GoStr :=
  ds.foldl (fun acc d => if d.op = o then d.text else acc) []

/-- `categorizeLineChangeWithColumns` (`text/diff.go`): classify the change
between two lines from the character diff, returning the change type and
the column range. -/
def categorizeLineChangeWithColumns (oldLine newLine : GoStr)
    (diffs : List CDiff) : ChangeType × Nat × Nat :=
  let insertions := countOp diffs DOp.ins
  let deletions := countOp diffs DOp.del
  let hasEq := diffs.any (fun d => d.op = DOp.eq)
  if deletions = 0 ∧ insertions > 0 ∧ hasEq ∧ oldLine.isPrefixOf newLine then
    (ChangeType.appendChars, oldLine.length, newLine.length)
  else if deletions = 0 ∧ insertions = 1 ∧ hasEq then
    (ChangeType.replaceChars, (findSpan DOp.ins diffs 0).1,
      (findSpan DOp.ins diffs 0).2)
  else if insertions = 0 ∧ deletions > 0 ∧ hasEq then
    (ChangeType.deleteChars, (findSpan DOp.del diffs 0).1,
      (findSpan DOp.del diffs 0).2)
  else if insertions = 1 ∧ deletions = 1 ∧ hasEq then
    let deletedText := lastOpText diffs DOp.del
    let insertedText := lastOpText diffs DOp.ins
    let deletedWords := numFields deletedText
    let insertedWords := numFields insertedText
    let lengthRatio : ℚ :=
      (insertedText.length : ℚ) / (deletedText.length : ℚ)
    if deletedWords > 2 ∨ insertedWords > 2 ∨
        ((deletedWords : Int) - (insertedWords : Int)).natAbs > 1 then
      (ChangeType.modification, 0, 0)
    else if deletedWords = 1 ∧ insertedWords = 1 then
      if lengthRatio > 3 ∨ lengthRatio < 33 / 100 then
        (ChangeType.modification, 0, 0)
      else
        (ChangeType.replaceChars, (findSpan DOp.ins diffs 0).1,
          (findSpan DOp.ins diffs 0).2)
    else
      if lengthRatio > 2 ∨ lengthRatio < 1 / 2 then
        (ChangeType.modification, 0, 0)
      else
        (ChangeType.replaceChars, (findSpan DOp.ins diffs 0).1,
          (findSpan DOp.ins diffs 0).2)
  else (ChangeType.modification, 0, 0)

/-- Total length of the non-insert segment texts (the old side). -/
def sumOld (ds : List CDiff) : Nat :=
  ds.foldr (fun d n => if d.op = DOp.ins then n else d.text.length + n) 0

/-- Total length of the non-delete segment texts (the new side). -/
def sumNew (ds : List CDiff) : Nat :=
  ds.foldr (fun d n => if d.op = DOp.del then n else d.text.length + n) 0

/-- Total length of the insert segment texts. -/
def sumIns (ds : List CDiff) : Nat :=
  ds.foldr (fun d n => if d.op = DOp.ins then d.text.length + n else n) 0

theorem cdiffOld_length_aux :
    ∀ (ds : List CDiff) (acc : GoStr),
      (ds.foldl (fun a d => if d.op = DOp.ins then a else a ++ d.text)
        acc).length = acc.length + sumOld ds := by
  intro ds
  induction ds with
  | nil => intro acc; simp [sumOld]
  | cons d rest ih =>
    intro acc
    simp only [List.foldl_cons]
    rw [ih]
    by_cases h : d.op = DOp.ins <;>
      simp [sumOld, h] <;> omega

theorem cdiffNew_length_aux :
    ∀ (ds : List CDiff) (acc : GoStr),
      (ds.foldl (fun a d => if d.op = DOp.del then a else a ++ d.text)
        acc).length = acc.length + sumNew ds := by
  intro ds
  induction ds with
  | nil => intro acc; simp [sumNew]
  | cons d rest ih =>
    intro acc
    simp only [List.foldl_cons]
    rw [ih]
    by_cases h : d.op = DOp.del <;>
      simp [sumNew, h] <;> omega

theorem sumOld_cons (d : CDiff) (rest : List CDiff) :
    sumOld (d :: rest) =
      if d.op = DOp.ins then sumOld rest
      else d.text.length + sumOld rest := rfl

theorem sumNew_cons (d : CDiff) (rest : List CDiff) :
    sumNew (d :: rest) =
      if d.op = DOp.del then sumNew rest
      else d.text.length + sumNew rest := rfl

theorem sumIns_cons (d : CDiff) (rest : List CDiff) :
    sumIns (d :: rest) =
      if d.op = DOp.ins then d.text.length + sumIns rest
      else sumIns rest := rfl

theorem countOp_cons (d : CDiff) (rest : List CDiff) (o : DOp) :
    countOp (d :: rest) o =
      if d.op = o then countOp rest o + 1 else countOp rest o := by
  by_cases h : d.op = o <;> simp [countOp, List.filter_cons, h]

/-- With no delete segments, the new side is the old side plus the
inserted text. -/
theorem sumNew_eq_sumOld_add_sumIns (ds : List CDiff)
    (h : countOp ds DOp.del = 0) : sumNew ds = sumOld ds + sumIns ds := by
  induction ds with
  | nil => simp [sumNew, sumOld, sumIns]
  | cons d rest ih =>
    rw [countOp_cons] at h
    have hd : ¬(d.op = DOp.del) := by
      intro hod
      simp [hod] at h
    have hrest : countOp rest DOp.del = 0 := by
      split at h
      · omega
      · exact h
    rw [sumNew_cons, sumOld_cons, sumIns_cons, if_neg hd, ih hrest]
    by_cases hins : d.op = DOp.ins <;> simp [hins] <;> omega

/-- A non-empty set of insert segments with non-empty texts inserts at
least one character. -/
theorem sumIns_pos (ds : List CDiff) (hpos : 0 < countOp ds DOp.ins)
    (hne : ∀ d ∈ ds, d.text ≠ []) : 0 < sumIns ds := by
  induction ds with
  | nil => simp [countOp] at hpos
  | cons d rest ih =>
    rw [sumIns_cons]
    by_cases hins : d.op = DOp.ins
    · have h1 : d.text ≠ [] := hne d (List.mem_cons_self d rest)
      have h2 : 0 < d.text.length := List.length_pos.mpr h1
      rw [if_pos hins]
      omega
    · have hrest : 0 < countOp rest DOp.ins := by
        rw [countOp_cons, if_neg hins] at hpos
        exact hpos
      have := ih hrest (fun d hd => hne d (List.mem_cons_of_mem _ hd))
      rw [if_neg hins]
      exact this

/-- C6: whenever the classifier returns `append_chars`, the old line is a
strict prefix of the new line, `col_start = len(old)`, `col_end = len(new)`,
and hence `col_end - col_start = len(content) - len(old_content)`. -/
theorem categorize_append_chars_ok (oldLine newLine : GoStr)
    (ds : List CDiff) (hv : ValidCDiff oldLine newLine ds) (s e : Nat)
    (h : categorizeLineChangeWithColumns oldLine newLine ds =
      (ChangeType.appendChars, s, e)) :
    oldLine <+: newLine ∧ oldLine ≠ newLine ∧
      oldLine.length < newLine.length ∧
      s = oldLine.length ∧ e = newLine.length ∧
      e - s = newLine.length - oldLine.length := by
  obtain ⟨hold, hnew, hne⟩ := hv
  simp only [categorizeLineChangeWithColumns] at h
  split_ifs at h with h1 h2 h3 h4 h5 h6 h7 h8 h9 <;>
    first
      | (obtain ⟨hdel, hins, _, hpre⟩ := h1
         simp only [Prod.mk.injEq, true_and] at h
         obtain ⟨hs, he⟩ := h
         have hos : oldLine.length = sumOld ds := by
           rw [← hold]
           simpa using cdiffOld_length_aux ds []
         have hns : newLine.length = sumNew ds := by
           rw [← hnew]
           simpa using cdiffNew_length_aux ds []
         have hsplit := sumNew_eq_sumOld_add_sumIns ds hdel
         have hip := sumIns_pos ds hins hne
         have hlt : oldLine.length < newLine.length := by omega
         refine ⟨List.isPrefixOf_iff_prefix.mp hpre, ?_, hlt, by omega,
           by omega, by omega⟩
         intro heq
         rw [heq] at hlt
         omega)
      | simp at h

/-- Witness for C6: the classifier on `"func" → "function"` with its char
diff `[equal "func", insert "tion"]` returns `append_chars` with columns
`(4, 8)`, and the claimed prefix/column facts hold there. -/
theorem categorize_append_chars_ok_witness :
    ValidCDiff "func".data "function".data
        [⟨DOp.eq, "func".data⟩, ⟨DOp.ins, "tion".data⟩] ∧
      categorizeLineChangeWithColumns "func".data "function".data
          [⟨DOp.eq, "func".data⟩, ⟨DOp.ins, "tion".data⟩] =
        (ChangeType.appendChars, 4, 8) ∧
      ("func".data <+: "function".data ∧ "func".data ≠ "function".data ∧
        "func".data.length < "function".data.length ∧
        4 = "func".data.length ∧ 8 = "function".data.length ∧
        8 - 4 = "function".data.length - "func".data.length) :=
  ⟨by decide, by decide,
    categorize_append_chars_ok "func".data "function".data
      [⟨DOp.eq, "func".data⟩, ⟨DOp.ins, "tion".data⟩] (by decide) 4 8
      (by decide)⟩

/-! ## `CalculateCursorPosition` (`text/grouping.go` segment of `staging.go`) -/

/-- A Go `map[int]LineChange`, embedded as an association list with
distinct keys. -/
abbrev ChangeMap := List (Int × LineChange)

/-- One pass of the priority loop of `CalculateCursorPosition`: the largest
key whose change has type `ct`, starting from `init` (Go:
`if change.Type == ct && lineNum > targetLine`). -/
def maxLineOfType (changes : ChangeMap) (ct : ChangeType) (init : Int) :
    Int :=
  changes.foldl (fun t p => if p.2.Typ = ct ∧ t < p.1 then p.1 else t) init

/-- The priority order of `CalculateCursorPosition`
(modification > addition > append_chars > replace_chars > delete_chars). -/
def cursorPriority : List ChangeType :=
  [ChangeType.modification, ChangeType.addition, ChangeType.appendChars,
    ChangeType.replaceChars, ChangeType.deleteChars]

/-- The priority loop of `CalculateCursorPosition`: run `maxLineOfType` for
each kind in order, stopping at the first kind that yields a positive
target line. -/
def pickTargetLine (changes : ChangeMap) : List ChangeType → Int → Int
  | [], t => t
  | ct :: rest, t =>
    let t' := maxLineOfType changes ct t
    if t' > 0 then t' else pickTargetLine changes rest t'

/-- Go map lookup `changes[targetLine]`. -/
def changesLookup (changes : ChangeMap) (k : Int) : Option LineChange :=
  (changes.find? (fun p => p.1 = k)).map (fun p => p.2)

/-- `CalculateCursorPosition` (`text` package): optimal cursor position from
a stage's changes, `(-1, -1)` when no positioning applies. -/
def CalculateCursorPosition (changes : ChangeMap) (newLines : List Line) :
    Int × Int :=
  if changes = [] then (-1, -1)
  else
    let t0 := pickTargetLine changes cursorPriority (-1)
    if t0 ≤ 0 then (-1, -1)
    else
      let t := if t0 > (newLines.length : Int) then (newLines.length : Int)
        else t0
      if t ≤ 0 then (-1, -1)
      else
        -- Go's `change, exists := changes[targetLine]` comma-ok lookup
        let change := (changesLookup changes t).getD zeroChange
        let chExists := (changesLookup changes t).isSome
        if chExists ∧ change.Typ.IsCharacterLevel then
          if change.Typ = ChangeType.deleteChars then
            (t, (change.ColStart : Int))
          else (t, (change.ColEnd : Int))
        else (t, ((newLines.getD (t.toNat - 1) []).length : Int))

/-- The first change kind of the priority order that occurs among the
changes (the claim's "chosen kind"). -/
def specFirstKind (changes : ChangeMap) : Option ChangeType :=
  cursorPriority.find? (fun ct => changes.any (fun p => p.2.Typ = ct))

theorem maxLineOfType_cons (p : Int × LineChange) (rest : ChangeMap)
    (ct : ChangeType) (init : Int) :
    maxLineOfType (p :: rest) ct init =
      maxLineOfType rest ct
        (if p.2.Typ = ct ∧ init < p.1 then p.1 else init) := rfl

theorem le_maxLineOfType (changes : ChangeMap) (ct : ChangeType)
    (init : Int) : init ≤ maxLineOfType changes ct init := by
  induction changes generalizing init with
  | nil => simp [maxLineOfType]
  | cons p rest ih =>
    rw [maxLineOfType_cons]
    split
    · next hc => exact le_trans (le_of_lt hc.2) (ih p.1)
    · exact ih init

theorem maxLineOfType_ub (changes : ChangeMap) (ct : ChangeType)
    (init : Int) :
    ∀ p ∈ changes, p.2.Typ = ct → p.1 ≤ maxLineOfType changes ct init := by
  induction changes generalizing init with
  | nil => simp
  | cons q rest ih =>
    intro p hp hct
    rw [maxLineOfType_cons]
    rcases List.mem_cons.mp hp with hq | hrest
    · subst hq
      by_cases hlt : init < p.1
      · rw [if_pos ⟨hct, hlt⟩]
        exact le_maxLineOfType rest ct p.1
      · rw [if_neg (by tauto)]
        exact le_trans (le_of_not_lt hlt) (le_maxLineOfType rest ct init)
    · exact ih _ p hrest hct

theorem maxLineOfType_cases (changes : ChangeMap) (ct : ChangeType)
    (init : Int) :
    maxLineOfType changes ct init = init ∨
      ∃ c, (maxLineOfType changes ct init, c) ∈ changes ∧ c.Typ = ct := by
  induction changes generalizing init with
  | nil => left; simp [maxLineOfType]
  | cons q rest ih =>
    rw [maxLineOfType_cons]
    split
    · next hc =>
      rcases ih q.1 with h | ⟨c, hm, hct⟩
      · right
        exact ⟨q.2, by rw [h]; exact List.mem_cons_self _ _, hc.1⟩
      · right
        exact ⟨c, List.mem_cons_of_mem _ hm, hct⟩
    · rcases ih init with h | ⟨c, hm, hct⟩
      · left; exact h
      · right; exact ⟨c, List.mem_cons_of_mem _ hm, hct⟩

/-- If no change in the map has type `ct`, the scan keeps its initial
value. -/
theorem maxLineOfType_absent (changes : ChangeMap) (ct : ChangeType)
    (init : Int) (h : ∀ p ∈ changes, p.2.Typ ≠ ct) :
    maxLineOfType changes ct init = init := by
  rcases maxLineOfType_cases changes ct init with heq | ⟨c, hm, hct⟩
  · exact heq
  · exact absurd hct (h _ hm)

theorem pickTargetLine_none (changes : ChangeMap)
    (hk : ∀ p ∈ changes, 1 ≤ p.1) :
    ∀ kinds : List ChangeType,
      kinds.find? (fun ct => changes.any (fun p => p.2.Typ = ct)) = none →
      pickTargetLine changes kinds (-1) = -1 := by
  intro kinds
  induction kinds with
  | nil => intro _; rfl
  | cons ct rest ih =>
    intro hf
    rw [List.find?_cons] at hf
    split at hf
    · exact absurd hf (by simp)
    · next hany =>
      have habs : ∀ p ∈ changes, p.2.Typ ≠ ct := by
        intro p hp hct
        have : changes.any (fun p => decide (p.2.Typ = ct)) = true :=
          List.any_eq_true.mpr ⟨p, hp, by simpa using hct⟩
        simp [this] at hany
      show pickTargetLine changes (ct :: rest) (-1) = -1
      rw [pickTargetLine]
      simp only [maxLineOfType_absent changes ct (-1) habs]
      rw [if_neg (by norm_num)]
      exact ih hf

theorem pickTargetLine_some (changes : ChangeMap)
    (hk : ∀ p ∈ changes, 1 ≤ p.1) :
    ∀ kinds : List ChangeType, ∀ ct,
      kinds.find? (fun ct => changes.any (fun p => p.2.Typ = ct)) =
        some ct →
      pickTargetLine changes kinds (-1) = maxLineOfType changes ct (-1) ∧
        1 ≤ maxLineOfType changes ct (-1) ∧
        (∃ c, (maxLineOfType changes ct (-1), c) ∈ changes ∧
          c.Typ = ct) ∧
        (∀ p ∈ changes, p.2.Typ = ct →
          p.1 ≤ maxLineOfType changes ct (-1)) := by
  intro kinds
  induction kinds with
  | nil => intro ct hf; simp [List.find?] at hf
  | cons k rest ih =>
    intro ct hf
    rw [List.find?_cons] at hf
    split at hf
    · next hany =>
      have hct : k = ct := by simpa using hf
      subst hct
      obtain ⟨p, hp, hpt⟩ := List.any_eq_true.mp hany
      have hpt' : p.2.Typ = k := by simpa using hpt
      have hub := maxLineOfType_ub changes k (-1) p hp hpt'
      have h1 : 1 ≤ maxLineOfType changes k (-1) :=
        le_trans (hk p hp) hub
      have hcase : ∃ c, (maxLineOfType changes k (-1), c) ∈ changes ∧
          c.Typ = k := by
        rcases maxLineOfType_cases changes k (-1) with heq | hex
        · omega
        · exact hex
      refine ⟨?_, h1, hcase, maxLineOfType_ub changes k (-1)⟩
      rw [pickTargetLine]
      rw [if_pos (by omega)]
    · next hany =>
      have habs : ∀ p ∈ changes, p.2.Typ ≠ k := by
        intro p hp hct
        have : changes.any (fun p => decide (p.2.Typ = k)) = true :=
          List.any_eq_true.mpr ⟨p, hp, by simpa using hct⟩
        simp [this] at hany
      obtain ⟨hrec, h1, hcase, hub⟩ := ih ct hf
      refine ⟨?_, h1, hcase, hub⟩
      rw [pickTargetLine]
      simp only [maxLineOfType_absent changes k (-1) habs]
      rw [if_neg (by norm_num)]
      exact hrec

/-- Map lookup on a map with distinct keys finds the unique entry. -/
theorem changesLookup_of_mem (changes : ChangeMap)
    (hnd : (changes.map Prod.fst).Nodup) (L : Int) (c : LineChange)
    (hm : (L, c) ∈ changes) : changesLookup changes L = some c := by
  induction changes with
  | nil => simp at hm
  | cons q rest ih =>
    rcases List.mem_cons.mp hm with hq | hrest
    · subst hq
      simp [changesLookup, List.find?_cons]
    · have hk : q.1 ≠ L := by
        intro hkeq
        have : L ∈ rest.map Prod.fst :=
          List.mem_map.mpr ⟨(L, c), hrest, rfl⟩
        rw [List.map_cons, hkeq] at hnd
        exact (List.nodup_cons.mp hnd).1 this
      have hnd' : (rest.map Prod.fst).Nodup :=
        (List.nodup_cons.mp (by simpa using hnd)).2
      have := ih hnd' hrest
      simpa [changesLookup, List.find?_cons, hk] using this

/-- C7: `CalculateCursorPosition` on a non-empty stage change map (keys
within the stage's new lines) picks the kind by the priority
modification > addition > append_chars > replace_chars > delete_chars,
skipping pure deletions; within the chosen kind it picks the largest
relative line `L` and returns `(L, col_start)` for delete_chars,
`(L, col_end)` for the other character-level ops, `(L, end of line)` for
full-line ops, and `(-1, -1)` if nothing applies. -/
theorem CalculateCursorPosition_spec (changes : ChangeMap)
    (newLines : List Line) (hne : changes ≠ [])
    (hnd : (changes.map Prod.fst).Nodup)
    (hbound : ∀ p ∈ changes, 1 ≤ p.1 ∧ p.1 ≤ (newLines.length : Int)) :
    (specFirstKind changes = none →
        CalculateCursorPosition changes newLines = (-1, -1)) ∧
      (∀ ct, specFirstKind changes = some ct →
        ∃ L c, (L, c) ∈ changes ∧ c.Typ = ct ∧
          (∀ p ∈ changes, p.2.Typ = ct → p.1 ≤ L) ∧
          CalculateCursorPosition changes newLines =
            (L, if ct = ChangeType.deleteChars then (c.ColStart : Int)
                else if ct.IsCharacterLevel then (c.ColEnd : Int)
                else ((newLines.getD (L.toNat - 1) []).length : Int))) := by
  have hk : ∀ p ∈ changes, 1 ≤ p.1 := fun p hp => (hbound p hp).1
  constructor
  · intro hf
    have hpick := pickTargetLine_none changes hk cursorPriority hf
    simp only [CalculateCursorPosition, if_neg hne]
    rw [hpick]
    norm_num
  · intro ct hf
    obtain ⟨hpick, h1, ⟨c, hm, hct⟩, hub⟩ :=
      pickTargetLine_some changes hk cursorPriority ct hf
    refine ⟨maxLineOfType changes ct (-1), c, hm, hct, hub, ?_⟩
    have hMle : maxLineOfType changes ct (-1) ≤ (newLines.length : Int) :=
      (hbound _ hm).2
    have hl : changesLookup changes (maxLineOfType changes ct (-1)) =
        some c := changesLookup_of_mem changes hnd _ c hm
    simp only [CalculateCursorPosition, if_neg hne]
    rw [hpick]
    rw [if_neg (by omega : ¬maxLineOfType changes ct (-1) ≤ 0)]
    rw [if_neg (by omega :
      ¬maxLineOfType changes ct (-1) > (newLines.length : Int))]
    rw [if_neg (by omega : ¬maxLineOfType changes ct (-1) ≤ 0)]
    rw [hl]
    simp only [Option.getD_some, Option.isSome_some, true_and, hct]
    by_cases hchar : ct.IsCharacterLevel = true
    · rw [if_pos hchar]
      by_cases hdc : ct = ChangeType.deleteChars
      · rw [if_pos hdc]
        rw [if_pos hdc]
      · rw [if_neg hdc, if_neg hdc, if_pos hchar]
    · rw [if_neg hchar]
      have hnd' : ¬ct = ChangeType.deleteChars := by
        intro hdc
        rw [hdc] at hchar
        simp [ChangeType.IsCharacterLevel] at hchar
      rw [if_neg hnd', if_neg hchar]

/-- Concrete stage change map for the C7 witness: an append_chars change on
relative line 1 and a full-line modification on relative line 2. -/
def c7changes : ChangeMap :=
  [(1, ⟨ChangeType.appendChars, 1, 1, "abcde".data, "abc".data, 3, 5⟩),
    (2, ⟨ChangeType.modification, 2, 2, "bbbb".data, "xx".data, 0, 0⟩)]

/-- Concrete stage lines for the C7 witness. -/
def c7newLines : List Line := ["abcde".data, "bbbb".data]

/-- Witness for C7 at a concrete input (hypotheses discharged by
evaluation): the modification on line 2 wins the priority and the cursor
lands at the end of line 2. -/
theorem CalculateCursorPosition_spec_witness :
    (c7changes ≠ [] ∧ (c7changes.map Prod.fst).Nodup ∧
      (∀ p ∈ c7changes, 1 ≤ p.1 ∧ p.1 ≤ (c7newLines.length : Int))) ∧
      ((specFirstKind c7changes = none →
          CalculateCursorPosition c7changes c7newLines = (-1, -1)) ∧
        (∀ ct, specFirstKind c7changes = some ct →
          ∃ L c, (L, c) ∈ c7changes ∧ c.Typ = ct ∧
            (∀ p ∈ c7changes, p.2.Typ = ct → p.1 ≤ L) ∧
            CalculateCursorPosition c7changes c7newLines =
              (L, if ct = ChangeType.deleteChars then (c.ColStart : Int)
                  else if ct.IsCharacterLevel then (c.ColEnd : Int)
                  else ((c7newLines.getD (L.toNat - 1) []).length :
                    Int)))) :=
  ⟨⟨by decide, by decide, by decide⟩,
    CalculateCursorPosition_spec c7changes c7newLines (by decide)
      (by decide) (by decide)⟩

/-! ## Truncated-output recovery (`utils/utils.go`)

`findAnchorLine` scores candidate lines with `text.LineSimilarity`, which
runs the external dmp library; the embedding is parametric in the
similarity function `sim`. -/

/-- One step of the `findAnchorLine` scan: keep `(bestIdx, bestSimilarity)`
and replace it when the candidate's similarity strictly exceeds it. -/
def anchorStep (sim : GoStr → GoStr → ℚ) (needle : GoStr)
    (oldLines : List GoStr) (b : Int × ℚ) (i : Nat) : Int × ℚ :=
  if sim needle (oldLines.getD i []) > b.2 then
    ((i : Int), sim needle (oldLines.getD i []))
  else b

/-- The index window `[max(0, expectedPos-2), min(len(oldLines),
expectedPos+5))` that `findAnchorLine` searches (natural subtraction is
Go's `max(0, ...)`). -/
def anchorWindow (oldLinesLen expectedPos : Nat) : List Nat :=
  List.range' (expectedPos - 2)
    (min oldLinesLen (expectedPos + 5) - (expectedPos - 2))

/-- `utils.findAnchorLine`: best similarity match above the 0.7 threshold
in a window around the expected position, `-1` if none. -/
def findAnchorLine (sim : GoStr → GoStr → ℚ) (needle : GoStr)
    (oldLines : List GoStr) (expectedPos : Nat) : Int :=
  if oldLines = [] then -1
  else
    ((anchorWindow oldLines.length expectedPos).foldl
      (anchorStep sim needle oldLines) ((-1 : Int), (7 / 10 : ℚ))).1

/-- `utils.HandleTruncatedCompletionWithAnchor`: when a streamed completion
ends with finish reason "length", drop the last line, reject if empty,
otherwise anchor the effective end of the replacement range. -/
def HandleTruncatedCompletionWithAnchor (sim : GoStr → GoStr → ℚ)
    (newLines oldLines : List GoStr) (finishReason : GoStr)
    (windowStart windowEnd : Int) : List GoStr × Int × Bool :=
  if finishReason = "length".data ∧ newLines ≠ [] then
    let dropped := newLines.dropLast
    if dropped = [] then ([], 0, true)
    else
      let lastModelLine := dropped.getLast?.getD []
      let expectedPos := dropped.length - 1
      let anchorIdx := findAnchorLine sim lastModelLine oldLines expectedPos
      if anchorIdx ≠ -1 then (dropped, windowStart + anchorIdx + 1, false)
      else (dropped, windowStart + (dropped.length : Int), false)
  else (newLines, windowEnd, false)

/-- The anchor fold either keeps its initial state (no candidate exceeds
it) or returns a window index whose similarity strictly exceeds the
initial score and is maximal over the window. -/
theorem anchorFold_cases (sim : GoStr → GoStr → ℚ) (needle : GoStr)
    (oldLines : List GoStr) :
    ∀ (idxs : List Nat) (b : Int × ℚ),
      (idxs.foldl (anchorStep sim needle oldLines) b = b ∧
        ∀ i ∈ idxs, sim needle (oldLines.getD i []) ≤ b.2) ∨
      (∃ i ∈ idxs,
        idxs.foldl (anchorStep sim needle oldLines) b =
          ((i : Int), sim needle (oldLines.getD i [])) ∧
        b.2 < sim needle (oldLines.getD i []) ∧
        ∀ j ∈ idxs, sim needle (oldLines.getD j []) ≤
          sim needle (oldLines.getD i [])) := by
  intro idxs
  induction idxs with
  | nil => intro b; left; simp
  | cons i rest ih =>
    intro b
    rw [List.foldl_cons]
    by_cases hgt : sim needle (oldLines.getD i []) > b.2
    · have hstep : anchorStep sim needle oldLines b i =
          ((i : Int), sim needle (oldLines.getD i [])) := by
        unfold anchorStep
        rw [if_pos hgt]
      rw [hstep]
      rcases ih ((i : Int), sim needle (oldLines.getD i [])) with
        ⟨heq, hall⟩ | ⟨k, hk, heq, hlt, hall⟩
      · right
        refine ⟨i, List.mem_cons_self _ _, heq, hgt, ?_⟩
        intro j hj
        rcases List.mem_cons.mp hj with hji | hjr
        · subst hji; exact le_refl _
        · exact hall j hjr
      · right
        refine ⟨k, List.mem_cons_of_mem _ hk, heq, lt_trans hgt hlt, ?_⟩
        intro j hj
        rcases List.mem_cons.mp hj with hji | hjr
        · subst hji; exact le_of_lt hlt
        · exact hall j hjr
    · have hstep : anchorStep sim needle oldLines b i = b := by
        unfold anchorStep
        rw [if_neg hgt]
      rw [hstep]
      rcases ih b with ⟨heq, hall⟩ | ⟨k, hk, heq, hlt, hall⟩
      · left
        refine ⟨heq, ?_⟩
        intro j hj
        rcases List.mem_cons.mp hj with hji | hjr
        · subst hji; exact le_of_not_lt hgt
        · exact hall j hjr
      · right
        refine ⟨k, List.mem_cons_of_mem _ hk, heq, hlt, ?_⟩
        intro j hj
        rcases List.mem_cons.mp hj with hji | hjr
        · subst hji; exact le_trans (le_of_not_lt hgt) (le_of_lt hlt)
        · exact hall j hjr

/-- `findAnchorLine` either reports no anchor (every window candidate is at
or below the 0.7 threshold) or returns a window index with maximal
similarity strictly above the threshold. -/
theorem findAnchorLine_spec (sim : GoStr → GoStr → ℚ) (needle : GoStr)
    (oldLines : List GoStr) (expectedPos : Nat) :
    (findAnchorLine sim needle oldLines expectedPos = -1 ∧
      ∀ i ∈ anchorWindow oldLines.length expectedPos,
        sim needle (oldLines.getD i []) ≤ 7 / 10) ∨
    (∃ i ∈ anchorWindow oldLines.length expectedPos,
      findAnchorLine sim needle oldLines expectedPos = (i : Int) ∧
      7 / 10 < sim needle (oldLines.getD i []) ∧
      ∀ j ∈ anchorWindow oldLines.length expectedPos,
        sim needle (oldLines.getD j []) ≤
          sim needle (oldLines.getD i [])) := by
  by_cases hnil : oldLines = []
  · left
    constructor
    · simp [findAnchorLine, hnil]
    · intro i hi
      rw [hnil] at hi
      simp [anchorWindow] at hi
  · rcases anchorFold_cases sim needle oldLines
      (anchorWindow oldLines.length expectedPos)
      ((-1 : Int), (7 / 10 : ℚ)) with ⟨heq, hall⟩ | ⟨i, hi, heq, hlt, hall⟩
    · left
      exact ⟨by simp [findAnchorLine, hnil, heq], hall⟩
    · right
      exact ⟨i, hi, by simp [findAnchorLine, hnil, heq], hlt, hall⟩

/-- C8: behaviour of the truncated-output recovery.  For finish reason
"length" with a non-empty line list the last line is dropped; if nothing
remains the completion is rejected; otherwise the remaining last line is
similarity-matched in the window around the expected position and the
effective end of the replacement range becomes that anchor's (1-indexed)
line `windowStart + anchorIdx + 1`, falling back to
`windowStart + len(remaining)`; any other finish reason returns lines and
end unchanged. -/
theorem HandleTruncatedCompletionWithAnchor_spec
    (sim : GoStr → GoStr → ℚ) (newLines oldLines : List GoStr)
    (finishReason : GoStr) (windowStart windowEnd : Int) :
    (¬(finishReason = "length".data ∧ newLines ≠ []) →
      HandleTruncatedCompletionWithAnchor sim newLines oldLines
        finishReason windowStart windowEnd = (newLines, windowEnd, false)) ∧
    (finishReason = "length".data → newLines ≠ [] → newLines.dropLast = [] →
      HandleTruncatedCompletionWithAnchor sim newLines oldLines
        finishReason windowStart windowEnd = ([], 0, true)) ∧
    (finishReason = "length".data → newLines.dropLast ≠ [] →
      ((∀ i ∈ anchorWindow oldLines.length (newLines.dropLast.length - 1),
          sim (newLines.dropLast.getLast?.getD []) (oldLines.getD i []) ≤
            7 / 10) ∧
        HandleTruncatedCompletionWithAnchor sim newLines oldLines
            finishReason windowStart windowEnd =
          (newLines.dropLast,
            windowStart + (newLines.dropLast.length : Int), false)) ∨
      (∃ i ∈ anchorWindow oldLines.length (newLines.dropLast.length - 1),
        7 / 10 < sim (newLines.dropLast.getLast?.getD [])
          (oldLines.getD i []) ∧
        (∀ j ∈ anchorWindow oldLines.length
            (newLines.dropLast.length - 1),
          sim (newLines.dropLast.getLast?.getD []) (oldLines.getD j []) ≤
            sim (newLines.dropLast.getLast?.getD [])
              (oldLines.getD i [])) ∧
        HandleTruncatedCompletionWithAnchor sim newLines oldLines
            finishReason windowStart windowEnd =
          (newLines.dropLast, windowStart + (i : Int) + 1, false))) := by
  refine ⟨?_, ?_, ?_⟩
  · intro h
    unfold HandleTruncatedCompletionWithAnchor
    rw [if_neg h]
  · intro h1 h2 h3
    unfold HandleTruncatedCompletionWithAnchor
    rw [if_pos ⟨h1, h2⟩]
    simp only [h3]
    simp
  · intro h1 h2
    have hnl : newLines ≠ [] := by
      intro hx
      rw [hx] at h2
      simp at h2
    unfold HandleTruncatedCompletionWithAnchor
    rw [if_pos ⟨h1, hnl⟩]
    simp only []
    rw [if_neg h2]
    rcases findAnchorLine_spec sim (newLines.dropLast.getLast?.getD [])
        oldLines (newLines.dropLast.length - 1) with
      ⟨heq, hall⟩ | ⟨i, hi, heq, hlt, hall⟩
    · left
      refine ⟨hall, ?_⟩
      rw [heq]
      rw [if_neg (by simp)]
    · right
      refine ⟨i, hi, hlt, hall, ?_⟩
      rw [heq]
      rw [if_pos (by omega)]

/-- Witness for C8 at a concrete input: with an equality similarity score,
reason "length" drops the trailing line and anchors the end at old line
index 1, so the effective end becomes `windowStart + 2`. -/
theorem HandleTruncatedCompletionWithAnchor_spec_witness :
    (¬(("length".data : GoStr) = "length".data ∧
        (["x".data, "y".data, "junk".data] : List GoStr) ≠ []) →
      HandleTruncatedCompletionWithAnchor
          (fun a b => if a = b then 1 else 0)
          ["x".data, "y".data, "junk".data] ["a".data, "y".data]
          "length".data 10 17 =
        (["x".data, "y".data, "junk".data], 17, false)) ∧
    (("length".data : GoStr) = "length".data →
      (["x".data, "y".data, "junk".data] : List GoStr) ≠ [] →
      (["x".data, "y".data, "junk".data] : List GoStr).dropLast = [] →
      HandleTruncatedCompletionWithAnchor
          (fun a b => if a = b then 1 else 0)
          ["x".data, "y".data, "junk".data] ["a".data, "y".data]
          "length".data 10 17 = ([], 0, true)) ∧
    (("length".data : GoStr) = "length".data →
      (["x".data, "y".data, "junk".data] : List GoStr).dropLast ≠ [] →
      ((∀ i ∈ anchorWindow (["a".data, "y".data] : List GoStr).length
            ((["x".data, "y".data, "junk".data] :
              List GoStr).dropLast.length - 1),
          (fun (a b : GoStr) => if a = b then (1 : ℚ) else 0)
            ((["x".data, "y".data, "junk".data] :
              List GoStr).dropLast.getLast?.getD [])
            ((["a".data, "y".data] : List GoStr).getD i []) ≤ 7 / 10) ∧
        HandleTruncatedCompletionWithAnchor
            (fun a b => if a = b then 1 else 0)
            ["x".data, "y".data, "junk".data] ["a".data, "y".data]
            "length".data 10 17 =
          ((["x".data, "y".data, "junk".data] : List GoStr).dropLast,
            10 + (((["x".data, "y".data, "junk".data] :
              List GoStr).dropLast.length : Int)), false)) ∨
      (∃ i ∈ anchorWindow (["a".data, "y".data] : List GoStr).length
          ((["x".data, "y".data, "junk".data] :
            List GoStr).dropLast.length - 1),
        7 / 10 < (fun (a b : GoStr) => if a = b then (1 : ℚ) else 0)
          ((["x".data, "y".data, "junk".data] :
            List GoStr).dropLast.getLast?.getD [])
          ((["a".data, "y".data] : List GoStr).getD i []) ∧
        (∀ j ∈ anchorWindow (["a".data, "y".data] : List GoStr).length
            ((["x".data, "y".data, "junk".data] :
              List GoStr).dropLast.length - 1),
          (fun (a b : GoStr) => if a = b then (1 : ℚ) else 0)
            ((["x".data, "y".data, "junk".data] :
              List GoStr).dropLast.getLast?.getD [])
            ((["a".data, "y".data] : List GoStr).getD j []) ≤
            (fun (a b : GoStr) => if a = b then (1 : ℚ) else 0)
              ((["x".data, "y".data, "junk".data] :
                List GoStr).dropLast.getLast?.getD [])
              ((["a".data, "y".data] : List GoStr).getD i [])) ∧
        HandleTruncatedCompletionWithAnchor
            (fun a b => if a = b then 1 else 0)
            ["x".data, "y".data, "junk".data] ["a".data, "y".data]
            "length".data 10 17 =
          ((["x".data, "y".data, "junk".data] : List GoStr).dropLast,
            10 + (i : Int) + 1, false))) :=
  HandleTruncatedCompletionWithAnchor_spec
    (fun a b => if a = b then 1 else 0)
    ["x".data, "y".data, "junk".data] ["a".data, "y".data]
    "length".data 10 17

/-! ## Batch staging pipeline (`text/staging.go`) -/

/-- Generic Go-map helpers on association lists.  `amSet` implements Go's
overwrite-on-assignment; `amFind?` is map lookup. -/
def amSet {β : Type} (m : List (Int × β)) (k : Int) (v : β) :
    List (Int × β) :=
  m.filter (fun p => p.1 ≠ k) ++ [(k, v)]

def amFind? {β : Type} (m : List (Int × β)) (k : Int) : Option β :=
  (m.find? (fun p => p.1 = k)).map (fun p => p.2)

def amGetD {β : Type} (m : List (Int × β)) (k : Int) (d : β) : β :=
  (amFind? m k).getD d

/-- `text.LineMapping` (declared in the missing `text` file; shape
reconstructed from its uses: `NewToOld[i]` is the 1-indexed old line
matched by new line `i+1`, `0` when the new line has no old counterpart). -/
structure LineMapping where
  NewToOld : List Int
  OldToNew : List Int
deriving DecidableEq, Repr

/-- `text.DiffResult` as consumed by `staging.go` (`Changes`,
`LineMapping`, `OldLineCount`, `NewLineCount`). -/
structure DiffResult where
  Changes : ChangeMap
  mapping : Option LineMapping
  OldLineCount : Int := 0
  NewLineCount : Int := 0
deriving DecidableEq, Repr

/-- The backwards scan in `GetBufferLineForChange`: from index `k-1` down
to `0`, the first positive `NewToOld` entry. -/
def walkBackNewToOld (arr : List Int) : Nat → Option Int
  | 0 => none
  | k + 1 =>
    if arr.getD k 0 > 0 then some (arr.getD k 0)
    else walkBackNewToOld arr k

/-- `GetBufferLineForChange` (`text/staging.go`): buffer line of a change,
preferring its explicit old line, then the line mapping (walking back for
pure additions), then the map key. -/
def GetBufferLineForChange (change : LineChange) (mapKey : Int)
    (baseLineOffset : Int) (mapping : Option LineMapping) : Int :=
  if change.OldLineNum > 0 then change.OldLineNum + baseLineOffset - 1
  else
    match mapping with
    | some m =>
      if change.NewLineNum > 0 ∧
          change.NewLineNum ≤ (m.NewToOld.length : Int) then
        let oldLine := m.NewToOld.getD (change.NewLineNum - 1).toNat 0
        if oldLine > 0 then oldLine + baseLineOffset - 1
        else
          match walkBackNewToOld m.NewToOld (change.NewLineNum - 1).toNat
          with
          | some v => v + baseLineOffset - 1
          | none => mapKey + baseLineOffset - 1
      else mapKey + baseLineOffset - 1
    | none => mapKey + baseLineOffset - 1

/-- `text.ChangeCluster`: a group of nearby changes. -/
structure ChangeCluster where
  StartLine : Int
  EndLine : Int
  Changes : ChangeMap
deriving DecidableEq, Repr

/-- The scan loop of `groupChangesByProximity`, carrying the optional
current cluster; finished clusters are emitted in order. -/
def groupGo (diff : DiffResult) (proximityThreshold : Int) :
    List Int → Option ChangeCluster → List ChangeCluster
  | [], none => []
  | [], some c => [c]
  | ln :: rest, none =>
    let change := amGetD diff.Changes ln zeroChange
    groupGo diff proximityThreshold rest (some ⟨ln, ln, [(ln, change)]⟩)
  | ln :: rest, some c =>
    let change := amGetD diff.Changes ln zeroChange
    if ln - c.EndLine ≤ proximityThreshold then
      groupGo diff proximityThreshold rest
        (some ⟨c.StartLine, if ln > c.EndLine then ln else c.EndLine,
          amSet c.Changes ln change⟩)
    else
      c :: groupGo diff proximityThreshold rest
        (some ⟨ln, ln, [(ln, change)]⟩)

/-- `groupChangesByProximity` (`text/staging.go`): cluster a sorted list of
change line numbers, starting a new cluster when the gap to the current
cluster's end exceeds the proximity threshold. -/
def groupChangesByProximity (diff : DiffResult) (lineNumbers : List Int)
    (proximityThreshold : Int) : List ChangeCluster :=
  groupGo diff proximityThreshold lineNumbers none


/-- Intermediate state of the `getClusterBufferRange` loop. -/
structure ClusterRangeState where
  minOldLine : Int := -1
  maxOldLine : Int := -1
  minOldLineFromNonAdditions : Int := -1
  hasAdditions : Bool := false
  hasNonAdditions : Bool := false
  maxNewLineNum : Int := 0
  bufferLines : List (Int × Int) := []
deriving Repr

/-- Loop body of `getClusterBufferRange` for one `(lineNum, change)`. -/
def clusterRangeStep (baseLineOffset : Int) (mapping : Option LineMapping)
    (st : ClusterRangeState) (p : Int × LineChange) : ClusterRangeState :=
  let bufferLine := GetBufferLineForChange p.2 p.1 baseLineOffset mapping
  let st := { st with bufferLines := amSet st.bufferLines p.1 bufferLine }
  if p.2.Typ = ChangeType.addition then
    let st := { st with
      hasAdditions := true,
      maxNewLineNum := if p.2.NewLineNum > st.maxNewLineNum then
        p.2.NewLineNum else st.maxNewLineNum }
    let hasValidAnchor := p.2.OldLineNum > 0 ∨
      (mapping ≠ none ∧ p.2.NewLineNum > 0)
    if hasValidAnchor ∧ (st.minOldLine = -1 ∨ bufferLine < st.minOldLine)
    then { st with minOldLine := bufferLine }
    else st
  else
    let st := { st with hasNonAdditions := true }
    let st := if st.minOldLineFromNonAdditions = -1 ∨
        bufferLine < st.minOldLineFromNonAdditions then
      { st with minOldLineFromNonAdditions := bufferLine } else st
    let st := if st.minOldLine = -1 ∨ bufferLine < st.minOldLine then
      { st with minOldLine := bufferLine } else st
    if bufferLine > st.maxOldLine then { st with maxOldLine := bufferLine }
    else st

/-- `getClusterBufferRange` (`text/staging.go`): the buffer line range a
cluster replaces, plus the per-change buffer lines.  Pure additions with a
valid anchor yield the insertion point `anchor+1` with a zero-length
range. -/
def getClusterBufferRange (cluster : ChangeCluster) (baseLineOffset : Int)
    (diff : DiffResult) : Int × Int × List (Int × Int) :=
  let st := cluster.Changes.foldl
    (clusterRangeStep baseLineOffset diff.mapping) {}
  let minOldLine :=
    if st.hasAdditions ∧ st.hasNonAdditions ∧
        st.minOldLineFromNonAdditions > 0 then
      st.minOldLineFromNonAdditions
    else st.minOldLine
  let maxOldLine :=
    if st.hasAdditions ∧ diff.OldLineCount > 0 ∧
        st.maxNewLineNum > diff.OldLineCount ∧
        st.maxOldLine < baseLineOffset + diff.OldLineCount - 1 then
      baseLineOffset + diff.OldLineCount - 1
    else st.maxOldLine
  let hadValidAnchor := minOldLine ≠ -1
  let minOldLine := if minOldLine = -1 then
    cluster.StartLine + baseLineOffset - 1 else minOldLine
  let maxOldLine := if maxOldLine = -1 then
    (if st.hasAdditions ∧ ¬st.hasNonAdditions then minOldLine
     else cluster.EndLine + baseLineOffset - 1)
    else maxOldLine
  if st.hasAdditions ∧ ¬st.hasNonAdditions ∧ hadValidAnchor then
    (minOldLine + 1, minOldLine + 1, st.bufferLines)
  else (minOldLine, maxOldLine, st.bufferLines)

/-- `getClusterNewLineRange` (`text/staging.go`): new-coordinate range for
content extraction. -/
def getClusterNewLineRange (cluster : ChangeCluster) : Int × Int :=
  let mm := cluster.Changes.foldl
    (fun (mm : Int × Int) p =>
      if p.2.NewLineNum > 0 then
        (if mm.1 = -1 ∨ p.2.NewLineNum < mm.1 then p.2.NewLineNum
         else mm.1,
         if p.2.NewLineNum > mm.2 then p.2.NewLineNum else mm.2)
      else mm)
    ((-1 : Int), (-1 : Int))
  (if mm.1 = -1 then cluster.StartLine else mm.1,
   if mm.2 = -1 then cluster.EndLine else mm.2)

/-- `clusterDistanceFromCursor` (`text/staging.go`): 0 inside the cluster's
buffer range, otherwise the distance to its nearest end. -/
def clusterDistanceFromCursor (cluster : ChangeCluster) (cursorRow : Int)
    (baseLineOffset : Int) (diff : DiffResult) : Int :=
  let r := getClusterBufferRange cluster baseLineOffset diff
  if cursorRow ≥ r.1 ∧ cursorRow ≤ r.2.1 then 0
  else if cursorRow < r.1 then r.1 - cursorRow
  else cursorRow - r.2.1

/-- `clusterNeedsNavigation` (`text/staging.go`). -/
def clusterNeedsNavigation (cluster : ChangeCluster)
    (cursorRow viewportTop viewportBottom baseLineOffset : Int)
    (diff : DiffResult) (distThreshold : Int) : Bool :=
  let r := getClusterBufferRange cluster baseLineOffset diff
  if viewportTop > 0 ∧ viewportBottom > 0 ∧
      (r.2.1 < viewportTop ∨ r.1 > viewportBottom) then true
  else
    decide (clusterDistanceFromCursor cluster cursorRow baseLineOffset
      diff > distThreshold)

/-- `text.Group`: a run of consecutive same-kind changes for rendering.
Go field `Type` is `GType` here. -/
structure Group where
  GType : GoStr
  StartLine : Int
  EndLine : Int
  Lines : List GoStr
  OldLines : List GoStr := []
  BufferLine : Int := 0
  RenderHint : GoStr := []
  ColStart : Nat := 0
  ColEnd : Nat := 0
deriving DecidableEq, Repr

/-- `setRenderHint` (`text` grouping module). -/
def setRenderHint (g : Group) (change : LineChange) : Group :=
  let rh := change.Typ.RenderHint
  if rh ≠ [] then
    { g with
      RenderHint := rh,
      ColStart := change.ColStart,
      ColEnd := change.ColEnd }
  else { g with RenderHint := rh, ColStart := 0, ColEnd := 0 }

/-- A fresh single-line group for `change` at line `ln`. -/
def newGroup (change : LineChange) (ln : Int) : Group :=
  setRenderHint
    { GType := change.Typ.GroupType, StartLine := ln, EndLine := ln,
      Lines := [change.Content],
      OldLines := if change.Typ.GroupType = "modification".data then
        [change.OldContent] else [] }
    change

/-- The scan loop of `GroupChanges` over the sorted non-deletion line
numbers. -/
def groupChangesGo (changes : ChangeMap) :
    List Int → Option Group → List Group
  | [], none => []
  | [], some g => [g]
  | ln :: rest, none =>
    let change := amGetD changes ln zeroChange
    groupChangesGo changes rest (some (newGroup change ln))
  | ln :: rest, some g =>
    let change := amGetD changes ln zeroChange
    let groupType := change.Typ.GroupType
    let changeHasHint := change.Typ.RenderHint ≠ []
    if g.GType ≠ groupType ∨ ln ≠ g.EndLine + 1 ∨ g.RenderHint ≠ [] ∨
        changeHasHint then
      g :: groupChangesGo changes rest (some (newGroup change ln))
    else
      groupChangesGo changes rest (some
        { g with
          EndLine := ln,
          Lines := g.Lines ++ [change.Content],
          OldLines := if groupType = "modification".data then
            g.OldLines ++ [change.OldContent] else g.OldLines })

/-- `GroupChanges` (`text` grouping module): group consecutive same-type
changes, skipping deletions; hinted groups stay single-line. -/
def GroupChanges (changes : ChangeMap) : List Group :=
  if changes = [] then []
  else
    let lineNums := List.insertionSort (fun a b => a ≤ b)
      ((changes.filter
        (fun p => p.2.Typ ≠ ChangeType.deletion)).map Prod.fst)
    if lineNums = [] then []
    else groupChangesGo changes lineNums none

/-- `types.CursorPredictionTarget`. -/
structure CursorPredictionTarget where
  RelativePath : GoStr
  LineNumber : Int
  ShouldRetrigger : Bool
deriving DecidableEq, Repr

/-- `text.Stage` (`staging.go`), including the incremental builder's
unexported fields `startLine`, `endLine`, `rawChanges`. -/
structure Stage where
  BufferStart : Int := 0
  BufferEnd : Int := 0
  Lines : List GoStr := []
  Changes : ChangeMap := []
  Groups : List Group := []
  CursorLine : Int := 0
  CursorCol : Int := 0
  CursorTarget : Option CursorPredictionTarget := none
  IsLastStage : Bool := false
  startLine : Int := 0
  endLine : Int := 0
  rawChanges : ChangeMap := []
deriving DecidableEq, Repr

/-- `text.StagingResult`. -/
structure StagingResult where
  Stages : List Stage
  FirstNeedsNavigation : Bool
deriving DecidableEq, Repr

/-- The content-extraction loop `for j := jStart; j <= jEnd && j-1 <
len(newLines); j++ { if j > 0 { append newLines[j-1] } }`; `fuel` bounds
the iteration count. -/
def extractLinesAux (newLines : List GoStr) (jEnd : Int) :
    Int → Nat → List GoStr
  | _, 0 => []
  | j, fuel + 1 =>
    if j ≤ jEnd ∧ j - 1 < (newLines.length : Int) then
      (if j > 0 then [newLines.getD (j - 1).toNat []] else []) ++
        extractLinesAux newLines jEnd (j + 1) fuel
    else []

def extractLines (newLines : List GoStr) (jStart jEnd : Int) :
    List GoStr :=
  extractLinesAux newLines jEnd jStart (jEnd + 1 - jStart).toNat

/-- The remapping loop of `buildStagesFromClusters`: produce the
relative-coordinate change map and the relative-line → buffer-line map.
(The Go loop also fills a `stageOldLines` array that is never read
afterwards; it is omitted.) -/
def remapClusterChanges (cluster : ChangeCluster) (newStartLine : Int)
    (stageLinesLen : Nat) (lineNumToBufferLine : List (Int × Int)) :
    ChangeMap × List (Int × Int) :=
  cluster.Changes.foldl
    (fun (st : ChangeMap × List (Int × Int)) p =>
      let newLineNum := if p.2.NewLineNum > 0 then p.2.NewLineNum else p.1
      let relativeLine := newLineNum - newStartLine + 1
      if relativeLine > 0 ∧ relativeLine ≤ (stageLinesLen : Int) then
        (amSet st.1 relativeLine { p.2 with NewLineNum := relativeLine },
          amSet st.2 relativeLine (amGetD lineNumToBufferLine p.1 0))
      else st)
    ([], [])

/-- The `lastModificationLine` / `modificationBufferLine` scan of
`buildStagesFromClusters`. -/
def lastModScan (remappedChanges : ChangeMap)
    (relativeToBufferLine : List (Int × Int)) (bufferStart : Int) :
    Int × Int :=
  remappedChanges.foldl
    (fun (st : Int × Int) p =>
      if (p.2.Typ = ChangeType.modification ∨
          p.2.Typ.IsCharacterLevel = true) ∧ p.1 > st.1 then
        (p.1, match amFind? relativeToBufferLine p.1 with
          | some b => b
          | none => st.2)
      else st)
    (0, bufferStart)

/-- Per-group buffer-line assignment of `buildStagesFromClusters`:
additions after the last modification render below it; otherwise the
change's buffer line, with a positional fallback. -/
def assignGroupBufferLines (groups : List Group)
    (relativeToBufferLine : List (Int × Int)) (bufferStart : Int)
    (lastModificationLine modificationBufferLine : Int) : List Group :=
  groups.map (fun g =>
    if g.GType = "addition".data ∧ lastModificationLine > 0 ∧
        g.StartLine > lastModificationLine then
      { g with BufferLine := modificationBufferLine + 1 }
    else
      match amFind? relativeToBufferLine g.StartLine with
      | some bufLine => { g with BufferLine := bufLine }
      | none => { g with BufferLine := bufferStart + g.StartLine - 1 })

/-- One stage from one cluster (`buildStagesFromClusters` loop body). -/
def mkStageFromCluster (diff : DiffResult) (newLines : List GoStr)
    (filePath : GoStr) (baseLineOffset : Int) (cluster : ChangeCluster)
    (next : Option ChangeCluster) (isLastStage : Bool) : Stage :=
  let r := getClusterBufferRange cluster baseLineOffset diff
  let bufferStart := r.1
  let bufferEnd := r.2.1
  let lineNumToBufferLine := r.2.2
  let nr := getClusterNewLineRange cluster
  let stageLines := extractLines newLines nr.1 nr.2
  let rm := remapClusterChanges cluster nr.1 stageLines.length
    lineNumToBufferLine
  let remappedChanges := rm.1
  let relativeToBufferLine := rm.2
  let groups0 := GroupChanges remappedChanges
  let lm := lastModScan remappedChanges relativeToBufferLine bufferStart
  let groups := assignGroupBufferLines groups0 relativeToBufferLine
    bufferStart lm.1 lm.2
  let cc := CalculateCursorPosition remappedChanges stageLines
  let cursorTarget :=
    if isLastStage then
      some ⟨filePath, bufferEnd, true⟩
    else
      match next with
      | some nextCluster =>
        some ⟨filePath,
          (getClusterBufferRange nextCluster baseLineOffset diff).1,
          false⟩
      | none => none
  { BufferStart := bufferStart, BufferEnd := bufferEnd,
    Lines := stageLines, Changes := remappedChanges, Groups := groups,
    CursorLine := cc.1, CursorCol := cc.2, CursorTarget := cursorTarget,
    IsLastStage := isLastStage }

/-- `buildStagesFromClusters` (`text/staging.go`): one stage per cluster,
in cluster order; the last cluster's stage carries the retrigger target. -/
def buildStagesFromClusters (clusters : List ChangeCluster)
    (newLines : List GoStr) (filePath : GoStr) (baseLineOffset : Int)
    (diff : DiffResult) : List Stage :=
  match clusters with
  | [] => []
  | [c] => [mkStageFromCluster diff newLines filePath baseLineOffset c
      none true]
  | c :: next :: rest =>
    mkStageFromCluster diff newLines filePath baseLineOffset c
        (some next) false ::
      buildStagesFromClusters (next :: rest) newLines filePath
        baseLineOffset diff

/-- The sort key of step 3 of `CreateStages`: (cursor distance,
start line). -/
def clusterSortKey (diff : DiffResult) (cursorRow baseLineOffset : Int)
    (c : ChangeCluster) : Int × Int :=
  (clusterDistanceFromCursor c cursorRow baseLineOffset diff, c.StartLine)

/-- The Go `less` comparator of `sort.SliceStable` in `CreateStages`:
lexicographic on (distance, start line). -/
def clusterLess (diff : DiffResult) (cursorRow baseLineOffset : Int)
    (a b : ChangeCluster) : Prop :=
  (clusterSortKey diff cursorRow baseLineOffset a).1 <
      (clusterSortKey diff cursorRow baseLineOffset b).1 ∨
    ((clusterSortKey diff cursorRow baseLineOffset a).1 =
        (clusterSortKey diff cursorRow baseLineOffset b).1 ∧
      (clusterSortKey diff cursorRow baseLineOffset a).2 <
        (clusterSortKey diff cursorRow baseLineOffset b).2)

instance (diff : DiffResult) (cursorRow baseLineOffset : Int) :
    DecidableRel (clusterLess diff cursorRow baseLineOffset) := fun a b =>
  decidable_of_iff
    ((clusterSortKey diff cursorRow baseLineOffset a).1 <
        (clusterSortKey diff cursorRow baseLineOffset b).1 ∨
      ((clusterSortKey diff cursorRow baseLineOffset a).1 =
          (clusterSortKey diff cursorRow baseLineOffset b).1 ∧
        (clusterSortKey diff cursorRow baseLineOffset a).2 <
          (clusterSortKey diff cursorRow baseLineOffset b).2))
    Iff.rfl

/-- The non-strict order a stable sort by `clusterLess` realises. -/
def clusterLe (diff : DiffResult) (cursorRow baseLineOffset : Int)
    (a b : ChangeCluster) : Prop :=
  ¬clusterLess diff cursorRow baseLineOffset b a

instance (diff : DiffResult) (cursorRow baseLineOffset : Int) :
    DecidableRel (clusterLe diff cursorRow baseLineOffset) := fun a b =>
  decidable_of_iff (¬clusterLess diff cursorRow baseLineOffset b a)
    Iff.rfl

/-- Step 1 of `CreateStages`: partition the change line numbers into
in-viewport and out-of-viewport lists. -/
def partitionChanges (diff : DiffResult)
    (viewportTop viewportBottom baseLineOffset : Int) :
    List Int × List Int :=
  diff.Changes.foldl
    (fun (part : List Int × List Int) p =>
      let bufferLine := GetBufferLineForChange p.2 p.1 baseLineOffset
        diff.mapping
      let isVisible := (viewportTop = 0 ∧ viewportBottom = 0) ∨
        (bufferLine ≥ viewportTop ∧ bufferLine ≤ viewportBottom)
      if isVisible then (part.1 ++ [p.1], part.2)
      else (part.1, part.2 ++ [p.1]))
    ([], [])

/-- Steps 1-3 of `CreateStages`: partition the changes by viewport
visibility, cluster each partition by proximity, concatenate in-view then
out-of-view clusters, and stable-sort by (cursor distance, start line). -/
def createStagesClusters (diff : DiffResult)
    (cursorRow viewportTop viewportBottom baseLineOffset
      proximityThreshold : Int) : List ChangeCluster :=
  let part := partitionChanges diff viewportTop viewportBottom
    baseLineOffset
  let inViewChanges := List.insertionSort (fun a b => a ≤ b) part.1
  let outViewChanges := List.insertionSort (fun a b => a ≤ b) part.2
  let inViewClusters := groupChangesByProximity diff inViewChanges
    proximityThreshold
  let outViewClusters := groupChangesByProximity diff outViewChanges
    proximityThreshold
  List.insertionSort (clusterLe diff cursorRow baseLineOffset)
    (inViewClusters ++ outViewClusters)

/-- `CreateStages` (`text/staging.go`): the batch stager.  Returns `none`
(Go `nil`) for an empty diff. -/
def CreateStages (diff : DiffResult)
    (cursorRow viewportTop viewportBottom baseLineOffset
      proximityThreshold : Int) (filePath : GoStr)
    (newLines oldLines : List GoStr) : Option StagingResult :=
  if diff.Changes = [] then none
  else
    let allClusters := createStagesClusters diff cursorRow viewportTop
      viewportBottom baseLineOffset proximityThreshold
    match allClusters with
    | [] => none
    | first :: _ =>
      some ⟨buildStagesFromClusters allClusters newLines filePath
          baseLineOffset diff,
        clusterNeedsNavigation first cursorRow viewportTop viewportBottom
          baseLineOffset diff proximityThreshold⟩

/-- Setting a fresh key in a Go map is a plain append. -/
theorem amSet_fresh {β : Type} (m : List (Int × β)) (k : Int) (v : β)
    (h : ∀ p ∈ m, p.1 ≠ k) : amSet m k v = m ++ [(k, v)] := by
  unfold amSet
  rw [List.filter_eq_self.mpr]
  intro p hp
  simpa using h p hp

/-- Structural invariant of a cluster under construction: its change keys
form an ascending chain with adjacent gaps at most `T`, ending at
`EndLine`. -/
def ClusterInv (T : Int) (c : ChangeCluster) : Prop :=
  c.Changes ≠ [] ∧
  (c.Changes.map Prod.fst).Chain' (fun a b => a < b ∧ b - a ≤ T) ∧
  (c.Changes.map Prod.fst).getLast? = some c.EndLine ∧
  ∀ p ∈ c.Changes, p.1 ≤ c.EndLine

/-- Cross-cluster separation: every change of the later cluster is more
than `T` lines below every change of the earlier one. -/
def ClusterSep (T : Int) (c1 c2 : ChangeCluster) : Prop :=
  ∀ p ∈ c1.Changes, ∀ q ∈ c2.Changes, p.1 + T < q.1

theorem groupGo_spec (diff : DiffResult) (T : Int) :
    ∀ (rest : List Int) (c : ChangeCluster), ClusterInv T c →
      List.Pairwise (· < ·) rest → (∀ x ∈ rest, c.EndLine < x) →
      (∀ cl ∈ groupGo diff T rest (some c), ClusterInv T cl) ∧
        List.Pairwise (ClusterSep T) (groupGo diff T rest (some c)) ∧
        (∀ cl ∈ groupGo diff T rest (some c), ∀ p ∈ cl.Changes,
          p.1 ∈ c.Changes.map Prod.fst ∨ p.1 ∈ rest) := by
  intro rest
  induction rest with
  | nil =>
    intro c hinv _ _
    refine ⟨?_, ?_, ?_⟩
    · intro cl hcl
      rw [groupGo] at hcl
      simp at hcl
      rwa [hcl]
    · rw [groupGo]
      exact List.pairwise_singleton _ _
    · intro cl hcl p hp
      rw [groupGo] at hcl
      simp at hcl
      subst hcl
      exact Or.inl (List.mem_map.mpr ⟨p, hp, rfl⟩)
  | cons ln rest' ih =>
    intro c hinv hsort hgt
    obtain ⟨hne, hchain, hlast, hub⟩ := hinv
    have hlngt : c.EndLine < ln := hgt ln (List.mem_cons_self _ _)
    have hsort' : List.Pairwise (· < ·) rest' :=
      (List.pairwise_cons.mp hsort).2
    have hlnlt : ∀ x ∈ rest', ln < x := (List.pairwise_cons.mp hsort).1
    rw [groupGo]
    by_cases hgap : ln - c.EndLine ≤ T
    · rw [if_pos hgap]
      have hfresh : ∀ p ∈ c.Changes, p.1 ≠ ln := by
        intro p hp
        have := hub p hp
        omega
      have hset := amSet_fresh c.Changes ln
        (amGetD diff.Changes ln zeroChange) hfresh
      have hc'eq : (⟨c.StartLine,
          if ln > c.EndLine then ln else c.EndLine,
          amSet c.Changes ln (amGetD diff.Changes ln zeroChange)⟩ :
            ChangeCluster) =
          ⟨c.StartLine, ln,
            c.Changes ++ [(ln, amGetD diff.Changes ln zeroChange)]⟩ := by
        rw [if_pos hlngt, hset]
      rw [hc'eq]
      set c' : ChangeCluster := ⟨c.StartLine, ln,
        c.Changes ++ [(ln, amGetD diff.Changes ln zeroChange)]⟩ with hc'
      have hE : c'.EndLine = ln := rfl
      have hC : c'.Changes =
        c.Changes ++ [(ln, amGetD diff.Changes ln zeroChange)] := rfl
      have hckeys : c'.Changes.map Prod.fst =
          c.Changes.map Prod.fst ++ [ln] := by
        rw [hC, List.map_append]
        rfl
      have hinv' : ClusterInv T c' := by
        refine ⟨?_, ?_, ?_, ?_⟩
        · rw [hC]
          simp
        · rw [hckeys]
          rw [List.chain'_append]
          refine ⟨hchain, List.chain'_singleton _, ?_⟩
          intro x hx y hy
          rw [hlast] at hx
          simp at hx hy
          subst hx
          subst hy
          exact ⟨hlngt, hgap⟩
        · rw [hckeys, hE]
          simp
        · intro p hp
          rw [hC] at hp
          rw [hE]
          rcases List.mem_append.mp hp with h1 | h2
          · have := hub p h1
            omega
          · simp at h2
            rw [h2]
      have hgt' : ∀ x ∈ rest', c'.EndLine < x := by
        intro x hx
        rw [hE]
        exact hlnlt x hx
      obtain ⟨i1, i2, i3⟩ := ih c' hinv' hsort' hgt'
      refine ⟨i1, i2, ?_⟩
      intro cl hcl p hp
      rcases i3 cl hcl p hp with hin | hin
      · rw [hckeys] at hin
        rcases List.mem_append.mp hin with h1 | h2
        · exact Or.inl h1
        · simp at h2
          subst h2
          exact Or.inr (List.mem_cons_self _ _)
      · exact Or.inr (List.mem_cons_of_mem _ hin)
    · rw [if_neg hgap]
      set newc : ChangeCluster :=
        ⟨ln, ln, [(ln, amGetD diff.Changes ln zeroChange)]⟩ with hnewc
      have hEn : newc.EndLine = ln := rfl
      have hCn : newc.Changes =
        [(ln, amGetD diff.Changes ln zeroChange)] := rfl
      have hinvn : ClusterInv T newc := by
        refine ⟨by rw [hCn]; simp, ?_, by rw [hCn, hEn]; rfl, ?_⟩
        · rw [hCn]
          exact List.chain'_singleton _
        · intro p hp
          rw [hCn] at hp
          rw [hEn]
          simp at hp
          rw [hp]
      have hgt' : ∀ x ∈ rest', newc.EndLine < x := by
        intro x hx
        rw [hEn]
        exact hlnlt x hx
      obtain ⟨i1, i2, i3⟩ := ih newc hinvn hsort' hgt'
      refine ⟨?_, ?_, ?_⟩
      · intro cl hcl
        rcases List.mem_cons.mp hcl with h1 | h2
        · rw [h1]
          exact ⟨hne, hchain, hlast, hub⟩
        · exact i1 cl h2
      · rw [List.pairwise_cons]
        refine ⟨?_, i2⟩
        intro cl hcl p hp q hq
        have hq' := i3 cl hcl q hq
        have hqge : ln ≤ q.1 := by
          rcases hq' with h1 | h2
          · rw [hCn] at h1
            simp at h1
            omega
          · exact le_of_lt (hlnlt q.1 h2)
        have := hub p hp
        omega
      · intro cl hcl p hp
        rcases List.mem_cons.mp hcl with h1 | h2
        · subst h1
          exact Or.inl (List.mem_map.mpr ⟨p, hp, rfl⟩)
        · rcases i3 cl h2 p hp with hin | hin
          · rw [hCn] at hin
            simp at hin
            subst hin
            exact Or.inr (List.mem_cons_self _ _)
          · exact Or.inr (List.mem_cons_of_mem _ hin)

/-- C4 (amended): clustering one viewport partition.  For any diff, any
ascending list of change line numbers and any threshold `T`,
`groupChangesByProximity` yields clusters such that changes in distinct
clusters differ by more than `T` (every change of a later cluster is more
than `T` past every change of an earlier one) and the changes of one
cluster form an ascending chain with adjacent gaps at most `T`. -/
theorem groupChangesByProximity_proximity_invariant (diff : DiffResult)
    (T : Int) (lineNumbers : List Int)
    (hsort : List.Pairwise (· < ·) lineNumbers) :
    List.Pairwise (ClusterSep T)
        (groupChangesByProximity diff lineNumbers T) ∧
      ∀ cl ∈ groupChangesByProximity diff lineNumbers T,
        (cl.Changes.map Prod.fst).Chain' (fun a b => a < b ∧ b - a ≤ T) := by
  match lineNumbers, hsort with
  | [], _ =>
    constructor
    · exact List.Pairwise.nil
    · intro cl hcl
      simp [groupChangesByProximity, groupGo] at hcl
  | ln :: rest, hsort =>
    have hsort' : List.Pairwise (· < ·) rest :=
      (List.pairwise_cons.mp hsort).2
    have hlt : ∀ x ∈ rest, ln < x := (List.pairwise_cons.mp hsort).1
    have hinvn : ClusterInv T
        ⟨ln, ln, [(ln, amGetD diff.Changes ln zeroChange)]⟩ := by
      refine ⟨by simp, List.chain'_singleton _, by rfl, ?_⟩
      intro p hp
      simp at hp
      rw [hp]
    obtain ⟨i1, i2, _⟩ := groupGo_spec diff T rest
      ⟨ln, ln, [(ln, amGetD diff.Changes ln zeroChange)]⟩ hinvn hsort' hlt
    have hunfold : groupChangesByProximity diff (ln :: rest) T =
        groupGo diff T rest
          (some ⟨ln, ln, [(ln, amGetD diff.Changes ln zeroChange)]⟩) := by
      rfl
    rw [hunfold]
    exact ⟨i2, fun cl hcl => (i1 cl hcl).2.1⟩

/-- Concrete diff for the C4 counterexample: adjacent modifications on
lines 1 and 2 with the viewport covering only line 1, so the two changes
land in different viewport partitions and hence different clusters. -/
def d4c : DiffResult :=
  ⟨[(1, ⟨ChangeType.modification, 1, 1, "x1".data, "a1".data, 0, 0⟩),
    (2, ⟨ChangeType.modification, 2, 2, "x2".data, "a2".data, 0, 0⟩)],
   none, 2, 2⟩

/-- C4 counterexample: in the cluster list the batch stager builds its
`StagingResult` from (cursor 1, viewport lines 1-1, base 1, threshold 3),
two changes in distinct clusters differ in line number by only 1 ≤ 3 —
the claim's separation bound fails across viewport partitions. -/
theorem createStages_cross_partition_close_clusters :
    ¬(∀ c1 ∈ createStagesClusters d4c 1 1 1 1 3,
        ∀ c2 ∈ createStagesClusters d4c 1 1 1 1 3, c1 ≠ c2 →
        ∀ p ∈ c1.Changes, ∀ q ∈ c2.Changes,
          (3 : Int) < ((p.1 - q.1).natAbs : Int)) := by
  decide

/-- Witness for the amended C4 at a concrete partition `[1, 2, 10]` with
threshold 3. -/
theorem groupChangesByProximity_proximity_invariant_witness :
    List.Pairwise (· < ·) [(1 : Int), 2, 10] ∧
      (List.Pairwise (ClusterSep 3)
          (groupChangesByProximity d4c [1, 2, 10] 3) ∧
        ∀ cl ∈ groupChangesByProximity d4c [1, 2, 10] 3,
          (cl.Changes.map Prod.fst).Chain'
            (fun a b => a < b ∧ b - a ≤ 3)) :=
  ⟨by decide,
    groupChangesByProximity_proximity_invariant d4c 3 [1, 2, 10]
      (by decide)⟩

/-- The buffer range of a stage equals its cluster's, in cluster order. -/
theorem buildStages_ranges (newLines : List GoStr) (filePath : GoStr)
    (baseLineOffset : Int) (diff : DiffResult) :
    ∀ clusters : List ChangeCluster,
      (buildStagesFromClusters clusters newLines filePath baseLineOffset
        diff).map (fun s => (s.BufferStart, s.BufferEnd)) =
      clusters.map (fun c =>
        ((getClusterBufferRange c baseLineOffset diff).1,
          (getClusterBufferRange c baseLineOffset diff).2.1)) := by
  intro clusters
  induction clusters with
  | nil => rfl
  | cons c rest ih =>
    cases rest with
    | nil => rfl
    | cons next rest' =>
      rw [buildStagesFromClusters]
      simp only [List.map_cons] at ih ⊢
      rw [ih]
      rfl

/-- `clusterLe` is total. -/
theorem clusterLe_total (diff : DiffResult) (cursorRow base : Int)
    (a b : ChangeCluster) : clusterLe diff cursorRow base a b ∨
      clusterLe diff cursorRow base b a := by
  unfold clusterLe clusterLess
  omega

/-- `clusterLe` is transitive. -/
theorem clusterLe_trans (diff : DiffResult) (cursorRow base : Int)
    (a b c : ChangeCluster) : clusterLe diff cursorRow base a b →
      clusterLe diff cursorRow base b c →
      clusterLe diff cursorRow base a c := by
  unfold clusterLe clusterLess
  omega

/-- C5 (amended): the cluster list `CreateStages` builds its stages from is
a permutation of [in-viewport clusters, out-of-viewport clusters] sorted
with respect to `clusterLe` — nondecreasing cursor distance measured as 0
inside the cluster's buffer range and distance to the nearest end outside,
with ties broken by ascending start line — and the emitted stages carry the
clusters' buffer ranges in exactly that order. -/
theorem createStagesClusters_sorted_by_cursor_distance (diff : DiffResult)
    (cursorRow viewportTop viewportBottom baseLineOffset
      proximityThreshold : Int) :
    List.Pairwise (clusterLe diff cursorRow baseLineOffset)
        (createStagesClusters diff cursorRow viewportTop viewportBottom
          baseLineOffset proximityThreshold) ∧
      (createStagesClusters diff cursorRow viewportTop viewportBottom
          baseLineOffset proximityThreshold).Perm
        (groupChangesByProximity diff
            (List.insertionSort (fun a b => a ≤ b)
              (partitionChanges diff viewportTop viewportBottom
                baseLineOffset).1) proximityThreshold ++
          groupChangesByProximity diff
            (List.insertionSort (fun a b => a ≤ b)
              (partitionChanges diff viewportTop viewportBottom
                baseLineOffset).2) proximityThreshold) ∧
      ∀ filePath newLines oldLines r,
        CreateStages diff cursorRow viewportTop viewportBottom
            baseLineOffset proximityThreshold filePath newLines oldLines =
          some r →
        r.Stages.map (fun s => (s.BufferStart, s.BufferEnd)) =
          (createStagesClusters diff cursorRow viewportTop viewportBottom
            baseLineOffset proximityThreshold).map (fun c =>
              ((getClusterBufferRange c baseLineOffset diff).1,
                (getClusterBufferRange c baseLineOffset diff).2.1)) := by
  haveI : IsTotal ChangeCluster (clusterLe diff cursorRow baseLineOffset) :=
    ⟨clusterLe_total diff cursorRow baseLineOffset⟩
  haveI : IsTrans ChangeCluster (clusterLe diff cursorRow baseLineOffset) :=
    ⟨clusterLe_trans diff cursorRow baseLineOffset⟩
  refine ⟨?_, ?_, ?_⟩
  · exact List.sorted_insertionSort _ _
  · exact List.perm_insertionSort _ _
  · intro filePath newLines oldLines r hr
    unfold CreateStages at hr
    split at hr
    · exact absurd hr (by simp)
    · rcases hcl : createStagesClusters diff cursorRow viewportTop
        viewportBottom baseLineOffset proximityThreshold with
        _ | ⟨first, rest⟩
      · rw [hcl] at hr
        simp at hr
      · rw [hcl] at hr
        simp only [Option.some.injEq] at hr
        rw [← hr]
        rw [← hcl]
        exact buildStages_ranges newLines filePath baseLineOffset diff _

/-- A modification change on line `n` (its own old and new line). -/
def mkModChange (n : Int) : Int × LineChange :=
  (n, ⟨ChangeType.modification, n, n, [], [], 0, 0⟩)

/-- Concrete diff for the C5 counterexample: modifications at lines
1, 4, 7 (one cluster at threshold 3) and 11, 12 (another cluster). -/
def d5c : DiffResult :=
  ⟨[mkModChange 1, mkModChange 4, mkModChange 7, mkModChange 11,
    mkModChange 12], none, 12, 12⟩

/-- The claim's sort metric, doubled to stay integral:
`|2*cursor - (buffer_start + buffer_end)|`, i.e. twice the distance from
the cursor to the stage's buffer-line midpoint. -/
def specStageMidDistanceTwice (cursorRow : Int) (s : Stage) : Int :=
  (((2 * cursorRow - (s.BufferStart + s.BufferEnd)).natAbs : Int))

/-- C5 counterexample: with changes at 1-7 and 11-12 and the cursor at 8,
the emitted stages are ordered [1-7, 11-12] (edge distances 1 < 3), but
their doubled midpoint distances are 8 and 7 — the claim's midpoint
metric would order them the other way, so the stage list is not sorted by
distance to the cluster's buffer midpoint. -/
theorem createStages_not_sorted_by_midpoint :
    ¬∀ r ∈ CreateStages d5c 8 0 0 1 3 [] [] [],
        List.Pairwise (fun a b => a ≤ b)
          (r.Stages.map (specStageMidDistanceTwice 8)) := by
  decide

/-- Witness for the amended C5 at the counterexample's input: the cluster
list is sorted by `clusterLe` (edge distance, ties by start line), is a
permutation of the concatenated partition clusters, and the emitted stages
carry the cluster ranges in order. -/
theorem createStagesClusters_sorted_witness :
    List.Pairwise (clusterLe d5c 8 1) (createStagesClusters d5c 8 0 0 1 3) ∧
      (createStagesClusters d5c 8 0 0 1 3).Perm
        (groupChangesByProximity d5c
            (List.insertionSort (fun a b => a ≤ b)
              (partitionChanges d5c 0 0 1).1) 3 ++
          groupChangesByProximity d5c
            (List.insertionSort (fun a b => a ≤ b)
              (partitionChanges d5c 0 0 1).2) 3) ∧
      ∀ filePath newLines oldLines r,
        CreateStages d5c 8 0 0 1 3 filePath newLines oldLines = some r →
        r.Stages.map (fun s => (s.BufferStart, s.BufferEnd)) =
          (createStagesClusters d5c 8 0 0 1 3).map (fun c =>
            ((getClusterBufferRange c 1 d5c).1,
              (getClusterBufferRange c 1 d5c).2.1)) :=
  createStagesClusters_sorted_by_cursor_distance d5c 8 0 0 1 3

/-! ## `processLineDiffs` / `handleModifications` (`text/diff.go`)

The line-level diff hunks come from the external dmp library
(`DiffLinesToChars` / `DiffMain` / `DiffCharsToLines`); the embedding takes
the hunk list (each hunk already split into lines) as input, quantified
over valid line diffs of the text pair.  `categorizeLineChangeWithColumns`
and `lineSimilarity` run the external character differ, so the functions
here are parametric in a classifier `cat` and a similarity `sim`. -/

/-- Operation of a line-level hunk. -/
inductive HunkType where
  | equal
  | delete
  | insert
deriving DecidableEq, Repr

/-- One line-level hunk, already split into lines (Go splits `diff.Text`
and drops the trailing empty piece). -/
structure Hunk where
  op : HunkType
  lines : List GoStr
deriving DecidableEq, Repr

/-- The old text a hunk list describes: equal and delete hunks. -/
def hunksOld (hunks : List Hunk) : List GoStr :=
  hunks.foldr
    (fun h acc => if h.op = HunkType.insert then acc else h.lines ++ acc) []

/-- The new text a hunk list describes: equal and insert hunks. -/
def hunksNew (hunks : List Hunk) : List GoStr :=
  hunks.foldr
    (fun h acc => if h.op = HunkType.delete then acc else h.lines ++ acc) []

/-- `text.LineDiff` (`diff.go`) restricted to the fields `processLineDiffs`
writes (the group fields are produced only by the later grouping pass). -/
structure LineDiff where
  Typ : ChangeType
  LineNumber : Int
  Content : GoStr := []
  OldContent : GoStr := []
  ColStart : Nat := 0
  ColEnd : Nat := 0
deriving DecidableEq, Repr

/-- `DiffResult.Changes` of `diff.go`: map of line number to `LineDiff`. -/
abbrev DiffMap := List (Int × LineDiff)

/-- The pure-deletion loop of `processLineDiffs`: one deletion per line,
keyed by old line numbers (recursion replaces Go's indexed loop). -/
def addDeletions : List GoStr → Int → DiffMap → DiffMap
  | [], _, acc => acc
  | l :: ls, oldN, acc =>
    addDeletions ls (oldN + 1)
      (amSet acc (oldN + 1) ⟨ChangeType.deletion, oldN + 1, l, [], 0, 0⟩)

/-- The pure-addition loop of `processLineDiffs`: one addition per line,
keyed by new line numbers. -/
def addAdditions : List GoStr → Int → DiffMap → DiffMap
  | [], _, acc => acc
  | l :: ls, newN, acc =>
    addAdditions ls (newN + 1)
      (amSet acc (newN + 1) ⟨ChangeType.addition, newN + 1, l, [], 0, 0⟩)

/-- The equal-count branch of `handleModifications`: pair the j-th deleted
line with the j-th inserted line (recursion replaces Go's indexed loop;
`oldN`/`newN` are the line counters before the pair). -/
def handleModsEqual (cat : GoStr → GoStr → ChangeType × Nat × Nat) :
    List GoStr → List GoStr → Int → Int → DiffMap → DiffMap
  | d :: ds, i :: is, oldN, newN, acc =>
    let acc' :=
      if d ≠ [] ∧ i ≠ [] then
        amSet acc (oldN + 1)
          ⟨(cat d i).1, oldN + 1, i, d, (cat d i).2.1, (cat d i).2.2⟩
      else if d ≠ [] then
        amSet acc (oldN + 1) ⟨ChangeType.deletion, oldN + 1, d, [], 0, 0⟩
      else if i ≠ [] then
        amSet acc (newN + 1) ⟨ChangeType.addition, newN + 1, i, [], 0, 0⟩
      else
        amSet acc (oldN + 1)
          ⟨ChangeType.modification, oldN + 1, i, d, 0, 0⟩
    handleModsEqual cat ds is (oldN + 1) (newN + 1) acc'
  | _, _, _, _, acc => acc

/-- `findBestMatch` (`diff.go`): best similarity among unused inserted
lines (strict improvement, so the first maximum wins). -/
def findBestMatch (sim : GoStr → GoStr → ℚ) (deletedLine : GoStr)
    (insertedLines : List GoStr) (usedInserts : List Nat) : Int × ℚ :=
  (List.range insertedLines.length).foldl
    (fun b i =>
      if i ∈ usedInserts then b
      else if sim deletedLine (insertedLines.getD i []) > b.2 then
        ((i : Int), sim deletedLine (insertedLines.getD i []))
      else b)
    ((-1 : Int), (0 : ℚ))

/-- The first pass of the unequal branch of `handleModifications`: greedily
match each non-empty deleted line with its best remaining insert when the
similarity reaches 0.3.  Returns (matches, usedInserts, usedDeletes). -/
def matchPass (sim : GoStr → GoStr → ℚ) (ds is : List GoStr) :
    List (Nat × Nat) × List Nat × List Nat :=
  (List.range ds.length).foldl
    (fun st i =>
      if ds.getD i [] = [] then st
      else
        let bm := findBestMatch sim (ds.getD i []) is st.2.1
        if bm.1 ≠ -1 ∧ bm.2 ≥ 3 / 10 then
          (st.1 ++ [(i, bm.1.toNat)], st.2.1 ++ [bm.1.toNat],
            st.2.2 ++ [i])
        else st)
    ([], [], [])

/-- The collision-skip of the third pass: advance the line number past
already-used keys (`fuel` bounds the scan; the map is finite). -/
def collisionSkip (acc : DiffMap) : Int → Nat → Int
  | ln, 0 => ln
  | ln, fuel + 1 =>
    if (amFind? acc ln).isSome then collisionSkip acc (ln + 1) fuel
    else ln

/-- `handleModifications` (`diff.go`): delete+insert hunk pairs become
modifications; with unequal line counts, similarity matching pairs lines,
leftover deletions go to new coordinates with collision-skip and leftover
inserts become additions. -/
def handleModifications (cat : GoStr → GoStr → ChangeType × Nat × Nat)
    (sim : GoStr → GoStr → ℚ) (deletedLines insertedLines : List GoStr)
    (oldLineStart newLineStart : Int) (acc : DiffMap) : DiffMap :=
  if deletedLines.length = insertedLines.length then
    handleModsEqual cat deletedLines insertedLines oldLineStart
      newLineStart acc
  else
    let mp := matchPass sim deletedLines insertedLines
    let matchList := mp.1
    let usedInserts := mp.2.1
    let usedDeletes := mp.2.2
    let acc := matchList.foldl
      (fun acc m =>
        let d := deletedLines.getD m.1 []
        let i := insertedLines.getD m.2 []
        amSet acc (oldLineStart + (m.1 : Int) + 1)
          ⟨(cat d i).1, oldLineStart + (m.1 : Int) + 1, i, d,
            (cat d i).2.1, (cat d i).2.2⟩)
      acc
    let acc := (List.range deletedLines.length).foldl
      (fun acc i =>
        if i ∈ usedDeletes then acc
        else
          let lineNum := collisionSkip acc (newLineStart + (i : Int) + 1)
            (acc.length + 1)
          amSet acc lineNum
            ⟨ChangeType.deletion, lineNum, deletedLines.getD i [], [],
              0, 0⟩)
      acc
    (List.range insertedLines.length).foldl
      (fun acc i =>
        if i ∈ usedInserts then acc
        else
          amSet acc (newLineStart + (i : Int) + 1)
            ⟨ChangeType.addition, newLineStart + (i : Int) + 1,
              insertedLines.getD i [], [], 0, 0⟩)
      acc

/-- `processLineDiffs` (`diff.go`): walk the hunks, merging each
delete-hunk immediately followed by an insert-hunk through
`handleModifications`, and recording pure deletions (old coordinates) and
pure additions (new coordinates). -/
def processLineDiffs (cat : GoStr → GoStr → ChangeType × Nat × Nat)
    (sim : GoStr → GoStr → ℚ) :
    List Hunk → Int → Int → DiffMap → DiffMap
  | [], _, _, acc => acc
  | [h], oldLineNum, newLineNum, acc =>
    match h.op with
    | HunkType.equal => acc
    | HunkType.delete => addDeletions h.lines oldLineNum acc
    | HunkType.insert => addAdditions h.lines newLineNum acc
  | h :: h2 :: rest2, oldLineNum, newLineNum, acc =>
    match h.op with
    | HunkType.equal =>
      processLineDiffs cat sim (h2 :: rest2)
        (oldLineNum + h.lines.length) (newLineNum + h.lines.length) acc
    | HunkType.delete =>
      if h2.op = HunkType.insert then
        processLineDiffs cat sim rest2 (oldLineNum + h.lines.length)
          (newLineNum + h2.lines.length)
          (handleModifications cat sim h.lines h2.lines oldLineNum
            newLineNum acc)
      else
        processLineDiffs cat sim (h2 :: rest2)
          (oldLineNum + h.lines.length) newLineNum
          (addDeletions h.lines oldLineNum acc)
    | HunkType.insert =>
      processLineDiffs cat sim (h2 :: rest2) oldLineNum
        (newLineNum + h.lines.length) (addAdditions h.lines newLineNum acc)

/-- The claim's application semantics, placement phase: walk the new line
positions from `newIdx`; an addition at the position inserts its content,
a modification-kind change replaces the next surviving old line, no change
copies it.  (A deletion key at a new position has already been applied in
the deletion phase and copies the survivor.)  Stops when the survivors are
exhausted and the position holds no change. -/
def applyPlace (changes : DiffMap) :
    List GoStr → Int → Nat → List GoStr
  | survivors, _, 0 => survivors
  | survivors, newIdx, fuel + 1 =>
    match amFind? changes newIdx with
    | some ch =>
      if ch.Typ = ChangeType.addition then
        ch.Content :: applyPlace changes survivors (newIdx + 1) fuel
      else if ch.Typ = ChangeType.deletion then
        match survivors with
        | [] => []
        | s :: rest => s :: applyPlace changes rest (newIdx + 1) fuel
      else
        match survivors with
        | [] => ch.Content :: applyPlace changes [] (newIdx + 1) fuel
        | _ :: rest => ch.Content :: applyPlace changes rest (newIdx + 1)
            fuel
    | none =>
      match survivors with
      | [] => []
      | s :: rest => s :: applyPlace changes rest (newIdx + 1) fuel

/-- The claim's application semantics (C1, §8.1): apply the produced
Changes to the old text — deletions at old positions, additions and
modifications at new positions. -/
def applyChanges (changes : DiffMap) (oldLines : List GoStr) :
    List GoStr :=
  let survivors := ((List.range oldLines.length).filter (fun i =>
    match amFind? changes ((i : Nat) + 1 : Int) with
    | some ch => ch.Typ ≠ ChangeType.deletion
    | none => true)).map (fun i => oldLines.getD i [])
  applyPlace changes survivors 1 (survivors.length + changes.length + 1)

/-- C1 counterexample: the valid line diff `[delete ["abc"], insert [""]]`
of old text `"abc\n"` and new text `"\n"` makes `handleModifications`
record a pure deletion (the non-empty old line paired with the empty new
line), so applying the produced changes to the old text yields `[]`, not
the new text `[""]` — the classifier is never consulted, so this holds for
every `cat`/`sim`. -/
theorem processLineDiffs_apply_counterexample :
    hunksOld [⟨HunkType.delete, ["abc".data]⟩,
        ⟨HunkType.insert, [[]]⟩] = ["abc".data] ∧
      hunksNew [⟨HunkType.delete, ["abc".data]⟩,
        ⟨HunkType.insert, [[]]⟩] = [[]] ∧
      applyChanges
          (processLineDiffs (fun _ _ => (ChangeType.modification, 0, 0))
            (fun _ _ => 0)
            [⟨HunkType.delete, ["abc".data]⟩, ⟨HunkType.insert, [[]]⟩]
            0 0 [])
          ["abc".data] ≠ [[]] := by
  refine ⟨by decide, by decide, by decide⟩

/-- Hunk lists on which the amended C1 holds: equal hunks and delete+insert
pairs of equal line counts whose lines are all non-empty. -/
inductive GoodHunks : List Hunk → Prop
  | nil : GoodHunks []
  | equal (ls : List GoStr) (rest : List Hunk) : GoodHunks rest →
      GoodHunks (⟨HunkType.equal, ls⟩ :: rest)
  | modpair (ds is : List GoStr) (rest : List Hunk)
      (hlen : ds.length = is.length) (hds : ∀ l ∈ ds, l ≠ [])
      (his : ∀ l ∈ is, l ≠ []) : GoodHunks rest →
      GoodHunks (⟨HunkType.delete, ds⟩ :: ⟨HunkType.insert, is⟩ :: rest)

/-- The changes an equal-count delete+insert pair produces when all paired
lines are non-empty: a classifier entry per pair, keyed `n+1, n+2, ...`. -/
def pairChanges (cat : GoStr → GoStr → ChangeType × Nat × Nat) :
    List GoStr → List GoStr → Int → DiffMap
  | d :: ds, i :: is, n =>
    (n + 1, ⟨(cat d i).1, n + 1, i, d, (cat d i).2.1, (cat d i).2.2⟩) ::
      pairChanges cat ds is (n + 1)
  | _, _, _ => []

/-- The change map `processLineDiffs` produces on a good hunk list,
described structurally. -/
def goodChanges (cat : GoStr → GoStr → ChangeType × Nat × Nat) :
    List Hunk → Int → DiffMap
  | ⟨HunkType.equal, ls⟩ :: rest, n =>
    goodChanges cat rest (n + ls.length)
  | ⟨HunkType.delete, ds⟩ :: ⟨HunkType.insert, is⟩ :: rest, n =>
    pairChanges cat ds is n ++ goodChanges cat rest (n + ds.length)
  | _, _ => []

theorem pairChanges_key_range
    (cat : GoStr → GoStr → ChangeType × Nat × Nat) :
    ∀ (ds is : List GoStr) (n : Int), ∀ p ∈ pairChanges cat ds is n,
      n < p.1 ∧ p.1 ≤ n + ds.length := by
  intro ds
  induction ds with
  | nil => intro is n p hp; simp [pairChanges] at hp
  | cons d ds' ih =>
    intro is n p hp
    cases is with
    | nil => simp [pairChanges] at hp
    | cons i is' =>
      rw [pairChanges] at hp
      rcases List.mem_cons.mp hp with h1 | h2
      · rw [h1]
        refine ⟨by omega, ?_⟩
        simp only [List.length_cons]
        push_cast
        omega
      · obtain ⟨ha, hb⟩ := ih is' (n + 1) p h2
        refine ⟨by omega, ?_⟩
        simp only [List.length_cons] at hb ⊢
        push_cast at hb ⊢
        omega

theorem goodChanges_key_lb (cat : GoStr → GoStr → ChangeType × Nat × Nat) :
    ∀ (hunks : List Hunk), GoodHunks hunks → ∀ (n : Int),
      ∀ p ∈ goodChanges cat hunks n, n < p.1 := by
  intro hunks hg
  induction hg with
  | nil => intro n p hp; simp [goodChanges] at hp
  | equal ls rest _ ih =>
    intro n p hp
    rw [goodChanges] at hp
    have := ih (n + ls.length) p hp
    omega
  | modpair ds is rest hlen hds his _ ih =>
    intro n p hp
    rw [goodChanges] at hp
    rcases List.mem_append.mp hp with h1 | h2
    · exact (pairChanges_key_range cat ds is n p h1).1
    · have := ih (n + ds.length) p h2
      omega

theorem goodChanges_key_ub (cat : GoStr → GoStr → ChangeType × Nat × Nat) :
    ∀ (hunks : List Hunk), GoodHunks hunks → ∀ (n : Int),
      ∀ p ∈ goodChanges cat hunks n,
        p.1 ≤ n + (hunksOld hunks).length := by
  intro hunks hg
  induction hg with
  | nil => intro n p hp; simp [goodChanges] at hp
  | equal ls rest _ ih =>
    intro n p hp
    rw [goodChanges] at hp
    have := ih (n + ls.length) p hp
    have hol : hunksOld (⟨HunkType.equal, ls⟩ :: rest) =
        ls ++ hunksOld rest := by
      simp [hunksOld, List.foldr_cons]
    rw [hol]
    simp
    omega
  | modpair ds is rest hlen hds his _ ih =>
    intro n p hp
    have hol : hunksOld (⟨HunkType.delete, ds⟩ ::
        ⟨HunkType.insert, is⟩ :: rest) = ds ++ hunksOld rest := by
      simp [hunksOld, List.foldr_cons]
    rw [hol]
    rw [goodChanges] at hp
    simp only [List.length_append]
    rcases List.mem_append.mp hp with h1 | h2
    · have := (pairChanges_key_range cat ds is n p h1).2
      omega
    · have := ih (n + ds.length) p h2
      omega

theorem goodChanges_no_del_add
    (cat : GoStr → GoStr → ChangeType × Nat × Nat)
    (hcat : ∀ a b, (cat a b).1 ≠ ChangeType.deletion ∧
      (cat a b).1 ≠ ChangeType.addition) :
    ∀ (hunks : List Hunk), GoodHunks hunks → ∀ (n : Int),
      ∀ p ∈ goodChanges cat hunks n,
        p.2.Typ ≠ ChangeType.deletion ∧
          p.2.Typ ≠ ChangeType.addition := by
  have hpair : ∀ (ds is : List GoStr) (n : Int),
      ∀ p ∈ pairChanges cat ds is n,
        p.2.Typ ≠ ChangeType.deletion ∧
          p.2.Typ ≠ ChangeType.addition := by
    intro ds
    induction ds with
    | nil => intro is n p hp; simp [pairChanges] at hp
    | cons d ds' ih =>
      intro is n p hp
      cases is with
      | nil => simp [pairChanges] at hp
      | cons i is' =>
        rw [pairChanges] at hp
        rcases List.mem_cons.mp hp with h1 | h2
        · rw [h1]
          exact hcat d i
        · exact ih is' (n + 1) p h2
  intro hunks hg
  induction hg with
  | nil => intro n p hp; simp [goodChanges] at hp
  | equal ls rest _ ih =>
    intro n p hp
    rw [goodChanges] at hp
    exact ih (n + ls.length) p hp
  | modpair ds is rest hlen hds his _ ih =>
    intro n p hp
    rw [goodChanges] at hp
    rcases List.mem_append.mp hp with h1 | h2
    · exact hpair ds is n p h1
    · exact ih (n + ds.length) p h2

theorem handleModsEqual_good (cat : GoStr → GoStr → ChangeType × Nat × Nat) :
    ∀ (ds is : List GoStr) (n m : Int) (acc : DiffMap),
      ds.length = is.length → (∀ l ∈ ds, l ≠ []) → (∀ l ∈ is, l ≠ []) →
      (∀ p ∈ acc, p.1 ≤ n) →
      handleModsEqual cat ds is n m acc = acc ++ pairChanges cat ds is n := by
  intro ds
  induction ds with
  | nil =>
    intro is n m acc hlen _ _ _
    cases is with
    | nil => simp [handleModsEqual, pairChanges]
    | cons i is' => simp at hlen
  | cons d ds' ih =>
    intro is n m acc hlen hds his hacc
    cases is with
    | nil => simp at hlen
    | cons i is' =>
      rw [handleModsEqual]
      have hd : d ≠ [] := hds d (List.mem_cons_self _ _)
      have hi : i ≠ [] := his i (List.mem_cons_self _ _)
      rw [if_pos ⟨hd, hi⟩]
      have hfresh : ∀ p ∈ acc, p.1 ≠ n + 1 := by
        intro p hp
        have := hacc p hp
        omega
      rw [amSet_fresh acc (n + 1) _ hfresh]
      have hacc' : ∀ p ∈ acc ++ [((n + 1 : Int),
          (⟨(cat d i).1, n + 1, i, d, (cat d i).2.1, (cat d i).2.2⟩ :
            LineDiff))], p.1 ≤ n + 1 := by
        intro p hp
        rcases List.mem_append.mp hp with h1 | h2
        · have := hacc p h1
          omega
        · simp at h2
          rw [h2]
      have hstep := ih is' (n + 1) (m + 1)
        (acc ++ [((n + 1 : Int),
          (⟨(cat d i).1, n + 1, i, d, (cat d i).2.1, (cat d i).2.2⟩ :
            LineDiff))])
        (by simpa using hlen)
        (fun l hl => hds l (List.mem_cons_of_mem _ hl))
        (fun l hl => his l (List.mem_cons_of_mem _ hl)) hacc'
      rw [hstep, pairChanges, List.append_assoc]
      rfl

theorem processLineDiffs_good (cat : GoStr → GoStr → ChangeType × Nat × Nat)
    (sim : GoStr → GoStr → ℚ) :
    ∀ (hunks : List Hunk), GoodHunks hunks → ∀ (n : Int) (acc : DiffMap),
      (∀ p ∈ acc, p.1 ≤ n) →
      processLineDiffs cat sim hunks n n acc =
        acc ++ goodChanges cat hunks n := by
  intro hunks hg
  induction hg with
  | nil =>
    intro n acc _
    simp [processLineDiffs, goodChanges]
  | equal ls rest hrest ih =>
    intro n acc hacc
    cases rest with
    | nil =>
      rw [goodChanges]
      simp [processLineDiffs, goodChanges]
    | cons h2 rest2 =>
      rw [goodChanges]
      rw [processLineDiffs]
      exact ih (n + ls.length) acc
        (fun p hp => le_trans (hacc p hp) (by omega))
  | modpair ds is rest hlen hds his hrest ih =>
    intro n acc hacc
    rw [goodChanges]
    rw [processLineDiffs]
    simp only [if_pos rfl]
    rw [handleModifications, if_pos hlen,
      handleModsEqual_good cat ds is n n acc hlen hds his hacc]
    have hlen' : (is.length : Int) = (ds.length : Int) := by
      rw [hlen]
    rw [hlen']
    have hacc2 : ∀ p ∈ acc ++ pairChanges cat ds is n,
        p.1 ≤ n + ds.length := by
      intro p hp
      rcases List.mem_append.mp hp with h1 | h2
      · have := hacc p h1
        omega
      · have := (pairChanges_key_range cat ds is n p h2).2
        omega
    rw [ih (n + ds.length) (acc ++ pairChanges cat ds is n) hacc2]
    rw [List.append_assoc]
    simp

/-- Positional replacement: each surviving line is replaced by the change
content recorded at its new position, if any. -/
def specRep (changes : DiffMap) : List GoStr → Int → List GoStr
  | [], _ => []
  | l :: rest, idx =>
    (match amFind? changes idx with
      | some ch => ch.Content
      | none => l) :: specRep changes rest (idx + 1)

/-- Map lookup skips a block none of whose keys match. -/
theorem amFind?_append_miss {β : Type} (xs ys : List (Int × β)) (k : Int)
    (h : ∀ p ∈ xs, p.1 ≠ k) : amFind? (xs ++ ys) k = amFind? ys k := by
  induction xs with
  | nil => rfl
  | cons x xs' ih =>
    have hx : ¬(x.1 = k) := h x (List.mem_cons_self _ _)
    unfold amFind? at ih ⊢
    rw [List.cons_append, List.find?_cons_of_neg _ (by simpa using hx)]
    exact ih (fun p hp => h p (List.mem_cons_of_mem _ hp))

/-- With no additions or deletions recorded, the placement loop is plain
positional replacement of the survivors. -/
theorem applyPlace_eq_specRep (changes : DiffMap)
    (hnd : ∀ p ∈ changes, p.2.Typ ≠ ChangeType.deletion ∧
      p.2.Typ ≠ ChangeType.addition) :
    ∀ (survivors : List GoStr) (idx : Int) (fuel : Nat),
      survivors.length ≤ fuel →
      (∀ p ∈ changes, p.1 < idx + survivors.length) →
      applyPlace changes survivors idx fuel =
        specRep changes survivors idx := by
  intro survivors
  induction survivors with
  | nil =>
    intro idx fuel _ hbound
    rw [specRep]
    cases fuel with
    | zero => rfl
    | succ fuel' =>
      rw [applyPlace]
      rcases hfind : amFind? changes idx with _ | ch
      · simp [hfind]
      · exfalso
        obtain ⟨p, hp, hpk⟩ : ∃ p ∈ changes, p.1 = idx := by
          unfold amFind? at hfind
          rcases hopt : changes.find? (fun p => p.1 = idx) with _ | q
          · rw [hopt] at hfind
            simp at hfind
          · refine ⟨q, List.mem_of_find?_eq_some hopt, ?_⟩
            have := List.find?_some hopt
            simpa using this
        have := hbound p hp
        simp at this
        omega
  | cons s rest ih =>
    intro idx fuel hfuel hbound
    cases fuel with
    | zero => simp at hfuel
    | succ fuel' =>
      have hf : rest.length ≤ fuel' := by
        simp at hfuel
        omega
      have hb : ∀ p ∈ changes, p.1 < idx + 1 + (rest.length : Int) := by
        intro p hp
        have := hbound p hp
        simp at this
        push_cast
        omega
      rw [applyPlace, specRep]
      rcases hfind : amFind? changes idx with _ | ch
      · simp only [hfind]
        rw [ih (idx + 1) fuel' hf hb]
      · obtain ⟨p, hp, hpk, hpv⟩ : ∃ p ∈ changes, p.1 = idx ∧ p.2 = ch := by
          unfold amFind? at hfind
          rcases hopt : changes.find? (fun p => p.1 = idx) with _ | q
          · rw [hopt] at hfind
            simp at hfind
          · rw [hopt] at hfind
            simp at hfind
            refine ⟨q, List.mem_of_find?_eq_some hopt, ?_, hfind⟩
            have := List.find?_some hopt
            simpa using this
        have hnd' := hnd p hp
        rw [hpv] at hnd'
        simp only [hfind]
        rw [if_neg hnd'.2, if_neg hnd'.1]
        rw [ih (idx + 1) fuel' hf hb]

theorem amFind?_none {β : Type} (m : List (Int × β)) (k : Int)
    (h : ∀ p ∈ m, p.1 ≠ k) : amFind? m k = none := by
  unfold amFind?
  rw [List.find?_eq_none.mpr]
  · rfl
  · intro p hp
    simpa using h p hp

theorem amFind?_some_mem {β : Type} (m : List (Int × β)) (k : Int) (v : β)
    (h : amFind? m k = some v) : (k, v) ∈ m := by
  unfold amFind? at h
  rcases hopt : m.find? (fun p => p.1 = k) with _ | q
  · rw [hopt] at h
    simp at h
  · rw [hopt] at h
    simp at h
    have hk : q.1 = k := by simpa using List.find?_some hopt
    have hm := List.mem_of_find?_eq_some hopt
    have : (k, v) = q := by
      rw [← hk, ← h]
    rw [this]
    exact hm

theorem specRep_append (m : DiffMap) :
    ∀ (xs ys : List GoStr) (idx : Int),
      specRep m (xs ++ ys) idx =
        specRep m xs idx ++ specRep m ys (idx + xs.length) := by
  intro xs
  induction xs with
  | nil => intro ys idx; simp [specRep]
  | cons x xs' ih =>
    intro ys idx
    rw [List.cons_append, specRep, specRep, ih ys (idx + 1), List.cons_append]
    simp only [List.length_cons]
    have harith : idx + 1 + (xs'.length : Int) =
        idx + ((xs'.length + 1 : Nat) : Int) := by push_cast; omega
    rw [harith]

theorem specRep_copy (m : DiffMap) :
    ∀ (xs : List GoStr) (n : Int),
      (∀ p ∈ m, p.1 ≤ n ∨ n + xs.length < p.1) →
      specRep m xs (n + 1) = xs := by
  intro xs
  induction xs with
  | nil => intro n _; rfl
  | cons x xs' ih =>
    intro n h
    rw [specRep]
    have hnone : amFind? m (n + 1) = none := by
      apply amFind?_none
      intro p hp
      rcases h p hp with h1 | h2
      · omega
      · simp at h2
        omega
    rw [hnone]
    have := ih (n + 1) ?h'
    · rw [this]
    · intro p hp
      rcases h p hp with h1 | h2
      · left; omega
      · right
        simp at h2 ⊢
        omega

theorem specRep_pair (cat : GoStr → GoStr → ChangeType × Nat × Nat) :
    ∀ (ds is : List GoStr) (n : Int) (pre tail : DiffMap),
      ds.length = is.length → (∀ p ∈ pre, p.1 ≤ n) →
      (∀ p ∈ tail, n + ds.length < p.1) →
      specRep (pre ++ pairChanges cat ds is n ++ tail) ds (n + 1) = is := by
  intro ds
  induction ds with
  | nil =>
    intro is n pre tail hlen _ _
    cases is with
    | nil => rfl
    | cons i is' => simp at hlen
  | cons d ds' ih =>
    intro is n pre tail hlen hpre htail
    cases is with
    | nil => simp at hlen
    | cons i is' =>
      rw [specRep]
      have hfind : amFind? (pre ++ pairChanges cat (d :: ds') (i :: is') n
          ++ tail) (n + 1) = some
          ⟨(cat d i).1, n + 1, i, d, (cat d i).2.1, (cat d i).2.2⟩ := by
        rw [List.append_assoc]
        rw [amFind?_append_miss pre _ (n + 1)
          (fun p hp => by have := hpre p hp; omega)]
        rw [pairChanges]
        unfold amFind?
        rw [List.cons_append, List.find?_cons_of_pos _ (by simp)]
        rfl
      rw [hfind]
      have hres : pre ++ pairChanges cat (d :: ds') (i :: is') n ++ tail =
          (pre ++ [((n + 1 : Int),
            (⟨(cat d i).1, n + 1, i, d, (cat d i).2.1, (cat d i).2.2⟩ :
              LineDiff))]) ++ pairChanges cat ds' is' (n + 1) ++ tail := by
        rw [pairChanges]
        simp
      rw [hres]
      have := ih is' (n + 1)
        (pre ++ [((n + 1 : Int),
          (⟨(cat d i).1, n + 1, i, d, (cat d i).2.1, (cat d i).2.2⟩ :
            LineDiff))]) tail (by simpa using hlen) ?hpre' ?htail'
      · rw [this]
      case hpre' =>
        intro p hp
        rcases List.mem_append.mp hp with h1 | h2
        · have := hpre p h1
          omega
        · simp at h2
          rw [h2]
      case htail' =>
        intro p hp
        have := htail p hp
        simp at this ⊢
        omega

theorem specRep_good (cat : GoStr → GoStr → ChangeType × Nat × Nat) :
    ∀ (hunks : List Hunk), GoodHunks hunks → ∀ (n : Int) (pre : DiffMap),
      (∀ p ∈ pre, p.1 ≤ n) →
      specRep (pre ++ goodChanges cat hunks n) (hunksOld hunks) (n + 1) =
        hunksNew hunks := by
  intro hunks hg
  induction hg with
  | nil => intro n pre _; rfl
  | equal ls rest hrest ih =>
    intro n pre hpre
    have hol : hunksOld (⟨HunkType.equal, ls⟩ :: rest) =
        ls ++ hunksOld rest := by simp [hunksOld, List.foldr_cons]
    have hnl : hunksNew (⟨HunkType.equal, ls⟩ :: rest) =
        ls ++ hunksNew rest := by simp [hunksNew, List.foldr_cons]
    rw [hol, hnl, goodChanges, specRep_append]
    congr 1
    · apply specRep_copy
      intro p hp
      rcases List.mem_append.mp hp with h1 | h2
      · left
        exact hpre p h1
      · right
        exact goodChanges_key_lb cat rest hrest (n + ls.length) p h2
    · have heq : n + 1 + (ls.length : Int) = (n + ls.length) + 1 := by
        omega
      rw [heq]
      exact ih (n + ls.length) pre
        (fun p hp => le_trans (hpre p hp) (by omega))
  | modpair ds is rest hlen hds his hrest ih =>
    intro n pre hpre
    have hol : hunksOld (⟨HunkType.delete, ds⟩ ::
        ⟨HunkType.insert, is⟩ :: rest) = ds ++ hunksOld rest := by
      simp [hunksOld, List.foldr_cons]
    have hnl : hunksNew (⟨HunkType.delete, ds⟩ ::
        ⟨HunkType.insert, is⟩ :: rest) = is ++ hunksNew rest := by
      simp [hunksNew, List.foldr_cons]
    rw [hol, hnl, goodChanges, specRep_append]
    congr 1
    · have hshape : pre ++ (pairChanges cat ds is n ++
          goodChanges cat rest (n + ds.length)) =
          pre ++ pairChanges cat ds is n ++
            goodChanges cat rest (n + ds.length) := by
        rw [List.append_assoc]
      rw [hshape]
      apply specRep_pair cat ds is n pre _ hlen hpre
      intro p hp
      exact goodChanges_key_lb cat rest hrest (n + ds.length) p hp
    · have heq : n + 1 + (ds.length : Int) = (n + ds.length) + 1 := by
        omega
      rw [heq]
      have hshape : pre ++ (pairChanges cat ds is n ++
          goodChanges cat rest (n + ds.length)) =
          (pre ++ pairChanges cat ds is n) ++
            goodChanges cat rest (n + ds.length) := by
        rw [List.append_assoc]
      rw [hshape]
      apply ih (n + ds.length) (pre ++ pairChanges cat ds is n)
      intro p hp
      rcases List.mem_append.mp hp with h1 | h2
      · have := hpre p h1
        omega
      · have := (pairChanges_key_range cat ds is n p h2).2
        omega

theorem range_map_getD (l : List GoStr) :
    (List.range l.length).map (fun i => l.getD i []) = l := by
  apply List.ext_getElem (by simp)
  intro i h1 h2
  simp only [List.getElem_map, List.getElem_range]
  exact List.getD_eq_getElem l [] h2

/-- C1 (amended): if the hunk list consists solely of equal hunks and of
delete hunks each immediately followed by an insert hunk with the same
number of lines, all of these paired lines non-empty — in particular no
standalone insert or delete hunks — and the classifier never labels a
pair `deletion` or `addition`, then applying the Changes produced by the
line-diff analyzer in order (deletions at old positions, additions and
modifications at new positions) to the old text yields exactly the new
text.  Outside this class the round-trip fails
(`processLineDiffs_apply_counterexample`); standalone insert hunks also
break it, because additions are keyed by new line numbers while a pair's
modifications are keyed by old line numbers, and an insertion shifts the
two coordinate systems apart. -/
theorem processLineDiffs_apply_good
    (cat : GoStr → GoStr → ChangeType × Nat × Nat)
    (sim : GoStr → GoStr → ℚ)
    (hcat : ∀ a b, (cat a b).1 ≠ ChangeType.deletion ∧
      (cat a b).1 ≠ ChangeType.addition)
    (hunks : List Hunk) (hg : GoodHunks hunks) :
    applyChanges (processLineDiffs cat sim hunks 0 0 [])
      (hunksOld hunks) = hunksNew hunks := by
  rw [processLineDiffs_good cat sim hunks hg 0 []
    (by intro p hp; simp at hp)]
  rw [List.nil_append]
  set changes := goodChanges cat hunks 0 with hch
  have hnd : ∀ p ∈ changes, p.2.Typ ≠ ChangeType.deletion ∧
      p.2.Typ ≠ ChangeType.addition :=
    fun p hp => goodChanges_no_del_add cat hcat hunks hg 0 p hp
  have hub : ∀ p ∈ changes, p.1 ≤ (0 : Int) + (hunksOld hunks).length :=
    goodChanges_key_ub cat hunks hg 0
  have hfil : (List.range (hunksOld hunks).length).filter (fun i =>
      match amFind? changes ((i : Nat) + 1 : Int) with
      | some ch => ch.Typ ≠ ChangeType.deletion
      | none => true) = List.range (hunksOld hunks).length := by
    apply List.filter_eq_self.mpr
    intro i _
    rcases hfind : amFind? changes ((i : Nat) + 1 : Int) with _ | ch
    · simp only [hfind]
    · simp only [hfind]
      have hmem := amFind?_some_mem changes _ ch hfind
      simpa using (hnd _ hmem).1
  simp only [applyChanges]
  rw [hfil, range_map_getD]
  rw [applyPlace_eq_specRep changes hnd (hunksOld hunks) 1
    ((hunksOld hunks).length + changes.length + 1) (by omega)
    (by intro p hp; have := hub p hp; omega)]
  have := specRep_good cat hunks hg 0 [] (by intro p hp; simp at hp)
  simpa using this

/-- Witness for the amended C1 theorem: the good hunk list
`[equal ["x"], delete ["abc"], insert ["abd"]]` with a classifier that
always reports a modification. -/
theorem processLineDiffs_apply_good_witness :
    applyChanges (processLineDiffs
        (fun _ _ => (ChangeType.modification, 0, 0)) (fun _ _ => 0)
        [⟨HunkType.equal, ["x".data]⟩, ⟨HunkType.delete, ["abc".data]⟩,
          ⟨HunkType.insert, ["abd".data]⟩] 0 0 [])
      (hunksOld [⟨HunkType.equal, ["x".data]⟩,
        ⟨HunkType.delete, ["abc".data]⟩,
        ⟨HunkType.insert, ["abd".data]⟩]) =
      hunksNew [⟨HunkType.equal, ["x".data]⟩,
        ⟨HunkType.delete, ["abc".data]⟩,
        ⟨HunkType.insert, ["abd".data]⟩] :=
  processLineDiffs_apply_good _ _
    (fun _ _ => ⟨by decide, by decide⟩) _
    (GoodHunks.equal _ _ (GoodHunks.modpair _ _ _ rfl
      (by decide) (by decide) GoodHunks.nil))

/-! ## Incremental diff builder (`IncrementalDiffBuilder`, streaming) -/

/-- Go `unicode.IsSpace` on the Latin-1 code points it lists. -/
def goIsSpace (c : Char) : Bool :=
  c = ' ' ∨ c = '\t' ∨ c = '\n' ∨ c = Char.ofNat 11 ∨ c = Char.ofNat 12 ∨
    c = '\r' ∨ c = Char.ofNat 133 ∨ c = Char.ofNat 160

/-- Go `strings.TrimSpace`. -/
def goTrimSpace (s : GoStr) : GoStr :=
  ((s.dropWhile (fun c => goIsSpace c)).reverse.dropWhile
    (fun c => goIsSpace c)).reverse

/-- Go `strings.TrimRight(s, " \t")`. -/
def goTrimRightST (s : GoStr) : GoStr :=
  (s.reverse.dropWhile (fun c => c = ' ' ∨ c = '\t')).reverse

/-- The streaming diff builder's state.  Go's
`Changes map[int]LineChange` and `usedOldLines map[int]bool` are assoc
lists; the Go field `LineMapping` is spelled `mapping` (the Lean field
would shadow the type). -/
structure IncrementalDiffBuilder where
  OldLines : List GoStr
  NewLines : List GoStr
  Changes : List (Int × LineChange)
  mapping : LineMapping
  oldLineIdx : Int
  usedOldLines : List (Int × Bool)

def NewIncrementalDiffBuilder (oldLines : List GoStr) :
    IncrementalDiffBuilder :=
  ⟨oldLines, [], [], ⟨[], List.replicate oldLines.length 0⟩, 0, []⟩

/-- `[a, a+1, ..., a+n-1]` as `Int`s — the index set of a Go
`for i := a; i < b; i++` loop with `n = b - a` iterations. -/
def intRange (a : Int) : Nat → List Int
  | 0 => []
  | n + 1 => a :: intRange (a + 1) n

namespace IncrementalDiffBuilder

/-- Strategy 1: exact match at the expected position. -/
def strat1 (b : IncrementalDiffBuilder) (newLine : GoStr)
    (expectedPos : Int) : Int :=
  if expectedPos < (b.OldLines.length : Int) ∧
      amGetD b.usedOldLines (expectedPos + 1) false = false ∧
      b.OldLines.getD expectedPos.toNat [] = newLine then
    expectedPos + 1
  else 0

/-- Strategy 2: empty/whitespace old line at the expected position with a
content new line. -/
def strat2 (b : IncrementalDiffBuilder) (newLine : GoStr)
    (expectedPos : Int) : Int :=
  if expectedPos < (b.OldLines.length : Int) ∧
      amGetD b.usedOldLines (expectedPos + 1) false = false ∧
      goTrimSpace (b.OldLines.getD expectedPos.toNat []) = [] ∧
      goTrimSpace newLine ≠ [] then
    expectedPos + 1
  else 0

/-- Strategy 3's loop: exact match anywhere in the search window. -/
def strat3Go (b : IncrementalDiffBuilder) (newLine : GoStr) :
    List Int → Int
  | [] => 0
  | i :: rest =>
    if amGetD b.usedOldLines (i + 1) false = false ∧
        b.OldLines.getD i.toNat [] = newLine then i + 1
    else strat3Go b newLine rest

def strat3 (b : IncrementalDiffBuilder) (newLine : GoStr)
    (searchStart searchEnd : Int) : Int :=
  strat3Go b newLine (intRange searchStart (searchEnd - searchStart).toNat)

/-- Strategy 4: prefix match at the expected position. -/
def strat4 (b : IncrementalDiffBuilder) (newLine : GoStr)
    (expectedPos : Int) : Int :=
  if expectedPos < (b.OldLines.length : Int) ∧
      amGetD b.usedOldLines (expectedPos + 1) false = false ∧
      0 < (goTrimRightST (b.OldLines.getD expectedPos.toNat [])).length ∧
      (goTrimRightST (b.OldLines.getD expectedPos.toNat [])).isPrefixOf
        newLine then
    expectedPos + 1
  else 0

/-- Strategy 5: similarity match at the expected position (the external
`LineSimilarity` and its threshold are parameters). -/
def strat5 (b : IncrementalDiffBuilder) (sim : GoStr → GoStr → ℚ)
    (expThresh : ℚ) (newLine : GoStr) (expectedPos : Int) : Int :=
  if expectedPos < (b.OldLines.length : Int) ∧
      amGetD b.usedOldLines (expectedPos + 1) false = false ∧
      expThresh < sim newLine (b.OldLines.getD expectedPos.toNat []) then
    expectedPos + 1
  else 0

/-- Strategy 6's loop: prefix match anywhere in the window, skipping the
expected position. -/
def strat6Go (b : IncrementalDiffBuilder) (newLine : GoStr)
    (expectedPos : Int) : List Int → Int
  | [] => 0
  | i :: rest =>
    if amGetD b.usedOldLines (i + 1) false = true ∨ i = expectedPos then
      strat6Go b newLine expectedPos rest
    else if 0 < (goTrimRightST (b.OldLines.getD i.toNat [])).length ∧
        (goTrimRightST (b.OldLines.getD i.toNat [])).isPrefixOf newLine then
      i + 1
    else strat6Go b newLine expectedPos rest

def strat6 (b : IncrementalDiffBuilder) (newLine : GoStr)
    (expectedPos searchStart searchEnd : Int) : Int :=
  strat6Go b newLine expectedPos
    (intRange searchStart (searchEnd - searchStart).toNat)

/-- Strategy 7's loop: best similarity match in the window, skipping the
expected position; the accumulator carries `(bestIdx, bestSim)`. -/
def strat7Go (b : IncrementalDiffBuilder) (sim : GoStr → GoStr → ℚ)
    (newLine : GoStr) (expectedPos : Int) :
    List Int → Int × ℚ → Int × ℚ
  | [], acc => acc
  | i :: rest, acc =>
    if amGetD b.usedOldLines (i + 1) false = true ∨ i = expectedPos then
      strat7Go b sim newLine expectedPos rest acc
    else if acc.2 < sim newLine (b.OldLines.getD i.toNat []) then
      strat7Go b sim newLine expectedPos rest
        (i, sim newLine (b.OldLines.getD i.toNat []))
    else strat7Go b sim newLine expectedPos rest acc

def strat7 (b : IncrementalDiffBuilder) (sim : GoStr → GoStr → ℚ)
    (simThresh : ℚ) (newLine : GoStr)
    (expectedPos searchStart searchEnd : Int) : Int :=
  let r := strat7Go b sim newLine expectedPos
    (intRange searchStart (searchEnd - searchStart).toNat) (-1, simThresh)
  if 0 ≤ r.1 then r.1 + 1 else 0

/-- The strategy iteration of `findMatchingOldLine`: the first strategy
result `> 0` wins. -/
def firstPos : List Int → Int
  | [] => 0
  | r :: rest => if 0 < r then r else firstPos rest

def findMatchingOldLine (sim : GoStr → GoStr → ℚ)
    (expThresh simThresh : ℚ) (b : IncrementalDiffBuilder)
    (newLine : GoStr) : Int :=
  if b.OldLines.length = 0 then 0
  else
    let expectedPos := b.oldLineIdx
    let searchStart := max 0 (expectedPos - 2)
    let searchEnd := min (b.OldLines.length : Int) (expectedPos + 10)
    firstPos [strat1 b newLine expectedPos,
      strat2 b newLine expectedPos,
      strat3 b newLine searchStart searchEnd,
      strat4 b newLine expectedPos,
      strat5 b sim expThresh newLine expectedPos,
      strat6 b newLine expectedPos searchStart searchEnd,
      strat7 b sim simThresh newLine expectedPos searchStart searchEnd]

/-- `IncrementalDiffBuilder.AddLine`, returning the updated builder and
the produced change (`none` on an exact match). -/
def AddLine (cat : GoStr → GoStr → ChangeType × Nat × Nat)
    (sim : GoStr → GoStr → ℚ) (expThresh simThresh : ℚ)
    (b : IncrementalDiffBuilder) (line : GoStr) :
    IncrementalDiffBuilder × Option LineChange :=
  let newLineNum : Int := b.NewLines.length + 1
  let b1 : IncrementalDiffBuilder :=
    { b with NewLines := b.NewLines ++ [line] }
  let oldLineNum := findMatchingOldLine sim expThresh simThresh b1 line
  let b2 : IncrementalDiffBuilder :=
    { b1 with mapping :=
        { b1.mapping with
            NewToOld := b1.mapping.NewToOld ++ [oldLineNum] } }
  if oldLineNum ≤ 0 then
    let anchorOld : Int :=
      if 0 < b2.oldLineIdx ∧ b2.oldLineIdx ≤ (b2.OldLines.length : Int)
      then b2.oldLineIdx else -1
    let change : LineChange :=
      { zeroChange with
          Typ := ChangeType.addition
          OldLineNum := anchorOld
          NewLineNum := newLineNum
          Content := line }
    ({ b2 with Changes := amSet b2.Changes newLineNum change }, some change)
  else
    let b3 : IncrementalDiffBuilder :=
      { b2 with
          usedOldLines := amSet b2.usedOldLines oldLineNum true
          mapping :=
            if oldLineNum - 1 < (b2.mapping.OldToNew.length : Int) then
              { b2.mapping with OldToNew :=
                  b2.mapping.OldToNew.set (oldLineNum - 1).toNat newLineNum }
            else b2.mapping }
    let oldContent := b3.OldLines.getD (oldLineNum - 1).toNat []
    if oldContent = line then
      (if b3.oldLineIdx < oldLineNum then
        { b3 with oldLineIdx := oldLineNum } else b3, none)
    else
      let r := cat oldContent line
      let change : LineChange :=
        ⟨r.1, oldLineNum, newLineNum, line, oldContent, r.2.1, r.2.2⟩
      let b4 : IncrementalDiffBuilder :=
        { b3 with Changes := amSet b3.Changes newLineNum change }
      (if b4.oldLineIdx < oldLineNum then
        { b4 with oldLineIdx := oldLineNum } else b4, some change)

end IncrementalDiffBuilder

/-- Feed a stream of lines through `AddLine`. -/
def addLines (cat : GoStr → GoStr → ChangeType × Nat × Nat)
    (sim : GoStr → GoStr → ℚ) (expThresh simThresh : ℚ)
    (b : IncrementalDiffBuilder) : List GoStr → IncrementalDiffBuilder
  | [] => b
  | l :: ls => addLines cat sim expThresh simThresh
      (IncrementalDiffBuilder.AddLine cat sim expThresh simThresh b l).1 ls

theorem amFind?_cons {β : Type} (p : Int × β) (m : List (Int × β))
    (j : Int) :
    amFind? (p :: m) j = if p.1 = j then some p.2 else amFind? m j := by
  unfold amFind?
  by_cases hj : p.1 = j
  · rw [List.find?_cons_of_pos _ (by simpa using hj), if_pos hj]
    rfl
  · rw [List.find?_cons_of_neg _ (by simpa using hj), if_neg hj]

theorem amFind?_append {β : Type} (xs ys : List (Int × β)) (j : Int) :
    amFind? (xs ++ ys) j =
      match amFind? xs j with
      | some v => some v
      | none => amFind? ys j := by
  induction xs with
  | nil => rfl
  | cons p xs' ih =>
    rw [List.cons_append, amFind?_cons, amFind?_cons]
    by_cases hj : p.1 = j
    · rw [if_pos hj, if_pos hj]
    · rw [if_neg hj, if_neg hj, ih]

theorem amFind?_filter_ne {β : Type} (m : List (Int × β)) (k j : Int)
    (h : j ≠ k) :
    amFind? (m.filter (fun p => p.1 ≠ k)) j = amFind? m j := by
  induction m with
  | nil => rfl
  | cons p m' ih =>
    rw [List.filter_cons]
    by_cases hp : p.1 = k
    · rw [if_neg (by simp [hp]), ih, amFind?_cons,
        if_neg (fun hh => h ((hp.symm.trans hh).symm))]
    · rw [if_pos (by simp [hp]), amFind?_cons, amFind?_cons, ih]

theorem amGetD_amSet_self {β : Type} (m : List (Int × β)) (k : Int)
    (v d : β) : amGetD (amSet m k v) k d = v := by
  unfold amGetD amSet
  rw [amFind?_append]
  have hmiss : amFind? (m.filter (fun p => p.1 ≠ k)) k = none := by
    unfold amFind?
    rw [List.find?_eq_none.mpr]
    · rfl
    · intro p hp
      have := (List.mem_filter.mp hp).2
      simpa using this
  rw [hmiss]
  rw [amFind?_cons, if_pos rfl]
  rfl

theorem amGetD_amSet_ne {β : Type} (m : List (Int × β)) (k j : Int)
    (v d : β) (h : j ≠ k) : amGetD (amSet m k v) j d = amGetD m j d := by
  unfold amGetD amSet
  rw [amFind?_append, amFind?_filter_ne m k j h]
  rcases hm : amFind? m j with _ | w
  · simp only [hm]
    rw [amFind?_cons, if_neg (fun hh => h hh.symm)]
    rfl
  · simp only [hm]

namespace IncrementalDiffBuilder

theorem strat1_unused (b : IncrementalDiffBuilder) (nl : GoStr)
    (e : Int) : 0 < strat1 b nl e →
    amGetD b.usedOldLines (strat1 b nl e) false = false := by
  unfold strat1
  split_ifs with h
  · intro _
    exact h.2.1
  · intro h0
    exact absurd h0 (lt_irrefl 0)

theorem strat2_unused (b : IncrementalDiffBuilder) (nl : GoStr)
    (e : Int) : 0 < strat2 b nl e →
    amGetD b.usedOldLines (strat2 b nl e) false = false := by
  unfold strat2
  split_ifs with h
  · intro _
    exact h.2.1
  · intro h0
    exact absurd h0 (lt_irrefl 0)

theorem strat3Go_unused (b : IncrementalDiffBuilder) (nl : GoStr) :
    ∀ l : List Int, 0 < strat3Go b nl l →
    amGetD b.usedOldLines (strat3Go b nl l) false = false := by
  intro l
  induction l with
  | nil =>
    intro h0
    exact absurd h0 (lt_irrefl 0)
  | cons i rest ih =>
    simp only [strat3Go]
    split_ifs with h
    · intro _
      exact h.1
    · exact ih

theorem strat4_unused (b : IncrementalDiffBuilder) (nl : GoStr)
    (e : Int) : 0 < strat4 b nl e →
    amGetD b.usedOldLines (strat4 b nl e) false = false := by
  unfold strat4
  split_ifs with h
  · intro _
    exact h.2.1
  · intro h0
    exact absurd h0 (lt_irrefl 0)

theorem strat5_unused (b : IncrementalDiffBuilder)
    (sim : GoStr → GoStr → ℚ) (eT : ℚ) (nl : GoStr) (e : Int) :
    0 < strat5 b sim eT nl e →
    amGetD b.usedOldLines (strat5 b sim eT nl e) false = false := by
  unfold strat5
  split_ifs with h
  · intro _
    exact h.2.1
  · intro h0
    exact absurd h0 (lt_irrefl 0)

theorem strat6Go_unused (b : IncrementalDiffBuilder) (nl : GoStr)
    (e : Int) : ∀ l : List Int, 0 < strat6Go b nl e l →
    amGetD b.usedOldLines (strat6Go b nl e l) false = false := by
  intro l
  induction l with
  | nil =>
    intro h0
    exact absurd h0 (lt_irrefl 0)
  | cons i rest ih =>
    simp only [strat6Go]
    split_ifs with h1 h2
    · exact ih
    · intro _
      have hnu := (not_or.mp h1).1
      simpa using hnu
    · exact ih

theorem strat7Go_unused (b : IncrementalDiffBuilder)
    (sim : GoStr → GoStr → ℚ) (nl : GoStr) (e : Int) :
    ∀ (l : List Int) (acc : Int × ℚ),
    (0 < acc.1 + 1 → amGetD b.usedOldLines (acc.1 + 1) false = false) →
    0 < (strat7Go b sim nl e l acc).1 + 1 →
    amGetD b.usedOldLines ((strat7Go b sim nl e l acc).1 + 1) false
      = false := by
  intro l
  induction l with
  | nil =>
    intro acc hacc
    exact hacc
  | cons i rest ih =>
    intro acc hacc
    simp only [strat7Go]
    split_ifs with h1 h2
    · exact ih acc hacc
    · apply ih
      intro _
      have hnu := (not_or.mp h1).1
      simpa using hnu
    · exact ih acc hacc

theorem strat7_unused (b : IncrementalDiffBuilder)
    (sim : GoStr → GoStr → ℚ) (sT : ℚ) (nl : GoStr)
    (e a bnd : Int) : 0 < strat7 b sim sT nl e a bnd →
    amGetD b.usedOldLines (strat7 b sim sT nl e a bnd) false = false := by
  simp only [strat7]
  split_ifs with h
  · exact strat7Go_unused b sim nl e _ ((-1 : Int), sT)
      (fun h0 => absurd h0 (by norm_num))
  · intro h0
    exact absurd h0 (lt_irrefl 0)

theorem firstPos_spec (P : Int → Prop) : ∀ l : List Int,
    (∀ x ∈ l, 0 < x → P x) → 0 < firstPos l → P (firstPos l) := by
  intro l
  induction l with
  | nil =>
    intro _ h0
    exact absurd h0 (lt_irrefl 0)
  | cons r rest ih =>
    intro h
    simp only [firstPos]
    split_ifs with hr
    · exact h r (List.mem_cons_self _ _)
    · exact ih (fun x hx => h x (List.mem_cons_of_mem _ hx))

theorem findMatchingOldLine_unused (sim : GoStr → GoStr → ℚ)
    (eT sT : ℚ) (b : IncrementalDiffBuilder) (nl : GoStr) :
    0 < findMatchingOldLine sim eT sT b nl →
    amGetD b.usedOldLines (findMatchingOldLine sim eT sT b nl) false
      = false := by
  simp only [findMatchingOldLine]
  split_ifs with h
  · intro h0
    exact absurd h0 (lt_irrefl 0)
  · apply firstPos_spec (fun y => amGetD b.usedOldLines y false = false)
    intro x hx
    simp only [List.mem_cons, List.not_mem_nil, or_false] at hx
    rcases hx with h1 | h2 | h3 | h4 | h5 | h6 | h7
    · rw [h1]
      exact strat1_unused b nl _
    · rw [h2]
      exact strat2_unused b nl _
    · rw [h3]
      exact strat3Go_unused b nl _
    · rw [h4]
      exact strat4_unused b nl _
    · rw [h5]
      exact strat5_unused b sim eT nl _
    · rw [h6]
      exact strat6Go_unused b nl _ _
    · rw [h7]
      exact strat7_unused b sim sT nl _ _ _

end IncrementalDiffBuilder

theorem newToOld_step_nonpos (b : IncrementalDiffBuilder) (k : Int)
    (hk : k ≤ 0)
    (hused : ∀ j ∈ b.mapping.NewToOld, 0 < j →
      amGetD b.usedOldLines j false = true)
    (hdist : List.Pairwise (fun a c => 0 < a → 0 < c → a ≠ c)
      b.mapping.NewToOld) :
    (∀ j ∈ b.mapping.NewToOld ++ [k], 0 < j →
      amGetD b.usedOldLines j false = true) ∧
    List.Pairwise (fun a c => 0 < a → 0 < c → a ≠ c)
      (b.mapping.NewToOld ++ [k]) := by
  constructor
  · intro j hj hjpos
    rcases List.mem_append.mp hj with hm | hm
    · exact hused j hm hjpos
    · simp at hm
      omega
  · rw [List.pairwise_append]
    refine ⟨hdist, List.pairwise_singleton _ _, ?cross⟩
    intro a _ c hc hapos hcpos
    simp at hc
    omega

theorem newToOld_step_pos (b : IncrementalDiffBuilder) (k : Int)
    (hkfree : amGetD b.usedOldLines k false = false)
    (hused : ∀ j ∈ b.mapping.NewToOld, 0 < j →
      amGetD b.usedOldLines j false = true)
    (hdist : List.Pairwise (fun a c => 0 < a → 0 < c → a ≠ c)
      b.mapping.NewToOld) :
    (∀ j ∈ b.mapping.NewToOld ++ [k], 0 < j →
      amGetD (amSet b.usedOldLines k true) j false = true) ∧
    List.Pairwise (fun a c => 0 < a → 0 < c → a ≠ c)
      (b.mapping.NewToOld ++ [k]) := by
  constructor
  · intro j hj hjpos
    rcases List.mem_append.mp hj with hm | hm
    · by_cases hjk : j = k
      · rw [hjk, amGetD_amSet_self]
      · rw [amGetD_amSet_ne _ _ _ _ _ hjk]
        exact hused j hm hjpos
    · simp at hm
      rw [hm, amGetD_amSet_self]
  · rw [List.pairwise_append]
    refine ⟨hdist, List.pairwise_singleton _ _, ?cross⟩
    intro a ha c hc hapos hcpos
    simp at hc
    subst hc
    intro hak
    have hT := hused a ha hapos
    rw [hak, hkfree] at hT
    exact Bool.false_ne_true hT

theorem strat3Go_newLines (b : IncrementalDiffBuilder)
    (nl : List GoStr) (line : GoStr) : ∀ l : List Int,
    IncrementalDiffBuilder.strat3Go { b with NewLines := nl } line l =
      IncrementalDiffBuilder.strat3Go b line l := by
  intro l
  induction l with
  | nil => rfl
  | cons i rest ih => simp only [IncrementalDiffBuilder.strat3Go, ih]

theorem strat6Go_newLines (b : IncrementalDiffBuilder)
    (nl : List GoStr) (line : GoStr) (e : Int) : ∀ l : List Int,
    IncrementalDiffBuilder.strat6Go { b with NewLines := nl } line e l =
      IncrementalDiffBuilder.strat6Go b line e l := by
  intro l
  induction l with
  | nil => rfl
  | cons i rest ih => simp only [IncrementalDiffBuilder.strat6Go, ih]

theorem strat7Go_newLines (b : IncrementalDiffBuilder)
    (sim : GoStr → GoStr → ℚ) (nl : List GoStr) (line : GoStr)
    (e : Int) : ∀ (l : List Int) (acc : Int × ℚ),
    IncrementalDiffBuilder.strat7Go { b with NewLines := nl } sim line e
        l acc =
      IncrementalDiffBuilder.strat7Go b sim line e l acc := by
  intro l
  induction l with
  | nil => intro acc; rfl
  | cons i rest ih =>
    intro acc
    simp only [IncrementalDiffBuilder.strat7Go, ih]

theorem findMatchingOldLine_newLines (sim : GoStr → GoStr → ℚ)
    (eT sT : ℚ) (b : IncrementalDiffBuilder) (nl : List GoStr)
    (line : GoStr) :
    IncrementalDiffBuilder.findMatchingOldLine sim eT sT
      { b with NewLines := nl } line =
      IncrementalDiffBuilder.findMatchingOldLine sim eT sT b line := by
  simp only [IncrementalDiffBuilder.findMatchingOldLine,
    IncrementalDiffBuilder.strat1, IncrementalDiffBuilder.strat2,
    IncrementalDiffBuilder.strat3, IncrementalDiffBuilder.strat4,
    IncrementalDiffBuilder.strat5, IncrementalDiffBuilder.strat6,
    IncrementalDiffBuilder.strat7, strat3Go_newLines, strat6Go_newLines,
    strat7Go_newLines]

theorem AddLine_preserves (cat : GoStr → GoStr → ChangeType × Nat × Nat)
    (sim : GoStr → GoStr → ℚ) (eT sT : ℚ)
    (b : IncrementalDiffBuilder) (line : GoStr)
    (hused : ∀ j ∈ b.mapping.NewToOld, 0 < j →
      amGetD b.usedOldLines j false = true)
    (hdist : List.Pairwise (fun a c => 0 < a → 0 < c → a ≠ c)
      b.mapping.NewToOld) :
    (∀ j ∈ (IncrementalDiffBuilder.AddLine cat sim eT sT b
        line).1.mapping.NewToOld, 0 < j →
      amGetD (IncrementalDiffBuilder.AddLine cat sim eT sT b
        line).1.usedOldLines j false = true) ∧
    List.Pairwise (fun a c => 0 < a → 0 < c → a ≠ c)
      (IncrementalDiffBuilder.AddLine cat sim eT sT b
        line).1.mapping.NewToOld := by
  have hk := IncrementalDiffBuilder.findMatchingOldLine_unused
    sim eT sT b line
  simp only [IncrementalDiffBuilder.AddLine, findMatchingOldLine_newLines]
  split_ifs with h1 h2 h3 h4 h5 h6 h7 h8 h9 h10 h11
  all_goals first
    | exact newToOld_step_nonpos b _ h1 hused hdist
    | exact newToOld_step_pos b _ (hk (by omega)) hused hdist

theorem addLines_inv (cat : GoStr → GoStr → ChangeType × Nat × Nat)
    (sim : GoStr → GoStr → ℚ) (eT sT : ℚ) : ∀ (lines : List GoStr)
    (b : IncrementalDiffBuilder),
    (∀ j ∈ b.mapping.NewToOld, 0 < j →
      amGetD b.usedOldLines j false = true) →
    List.Pairwise (fun a c => 0 < a → 0 < c → a ≠ c)
      b.mapping.NewToOld →
    (∀ j ∈ (addLines cat sim eT sT b lines).mapping.NewToOld, 0 < j →
      amGetD (addLines cat sim eT sT b lines).usedOldLines j false
        = true) ∧
    List.Pairwise (fun a c => 0 < a → 0 < c → a ≠ c)
      (addLines cat sim eT sT b lines).mapping.NewToOld := by
  intro lines
  induction lines with
  | nil =>
    intro b h1 h2
    exact ⟨h1, h2⟩
  | cons l ls ih =>
    intro b h1 h2
    simp only [addLines]
    have hstep := AddLine_preserves cat sim eT sT b l h1 h2
    exact ih _ hstep.1 hstep.2

/-- C10: in the incremental (streaming) diff builder, no old line is ever
matched by two different streamed lines — after any sequence of `AddLine`
calls from a fresh builder, the positive entries of the new-to-old line
mapping are pairwise distinct, and every positive entry is recorded in
`usedOldLines` (each matching strategy skips used old lines, and each
match is marked used).  Holds for every classifier, similarity function
and thresholds. -/
theorem IncrementalDiffBuilder_no_double_match
    (cat : GoStr → GoStr → ChangeType × Nat × Nat)
    (sim : GoStr → GoStr → ℚ) (eT sT : ℚ)
    (oldLines lines : List GoStr) :
    List.Pairwise (fun a c => 0 < a → 0 < c → a ≠ c)
      (addLines cat sim eT sT (NewIncrementalDiffBuilder oldLines)
        lines).mapping.NewToOld ∧
    (∀ j ∈ (addLines cat sim eT sT (NewIncrementalDiffBuilder oldLines)
        lines).mapping.NewToOld, 0 < j →
      amGetD (addLines cat sim eT sT (NewIncrementalDiffBuilder oldLines)
        lines).usedOldLines j false = true) := by
  have h := addLines_inv cat sim eT sT lines
    (NewIncrementalDiffBuilder oldLines)
    (by intro j hj; simp [NewIncrementalDiffBuilder] at hj)
    (by simp [NewIncrementalDiffBuilder])
  exact ⟨h.2, h.1⟩

/-! ## Engine partial accept.  Modelled from the spec: the engine's
`doPartialAcceptCompletion` / `doAcceptCompletion` bodies are not in the
sources (only their tests are), so the algorithm of §4.6 "Partial Accept"
is modelled directly — one leading group per event, word-boundary chunks
for `append_chars` groups, one full-line replacement otherwise, and the
stage's cursor target untouched. -/

/-- An identifier byte (step 1's "word boundary (whitespace or the first
non-identifier byte)"). -/
def isWordByte (c : Char) : Bool := c.isAlphanum ∨ c = '_'

/-- The next chunk a partial accept inserts: the identifier run beyond
the current column plus one boundary byte (the tests pin `"func"` →
`"function foo()"` inserting `"tion "`, `"foo"` → `"foo.bar.baz"`
inserting `"."`). -/
def nextChunk (remaining : GoStr) : GoStr :=
  let w := remaining.takeWhile isWordByte
  if w.isEmpty then remaining.take 1
  else w ++ (remaining.drop w.length).take 1

/-- A display group as the partial-accept path consumes it: its kind,
1-indexed buffer line, render hint, and line content. -/
structure PAGroup where
  GType : GoStr
  BufferLine : Int
  RenderHint : GoStr
  GLines : List GoStr
deriving DecidableEq, Repr

def gTarget (g : PAGroup) : GoStr := g.GLines.getD 0 []

def bufGetLine (buf : List GoStr) (ln : Int) : GoStr :=
  buf.getD (ln - 1).toNat []

def bufSetLine (buf : List GoStr) (ln : Int) (c : GoStr) : List GoStr :=
  buf.set (ln - 1).toNat c

/-- The engine state the partial-accept algorithm touches: the buffer,
the stage's remaining groups, and the stage's cursor target. -/
structure PAState where
  buf : List GoStr
  groups : List PAGroup
  cursorTarget : CursorPredictionTarget
deriving DecidableEq, Repr

/-- One PartialAccept event (§4.6 steps 1–4): an `append_chars`-hinted
leading group inserts the next word chunk (and is consumed once the line
reaches the target); any other leading group replaces its one line and is
consumed.  The cursor target is never written. -/
def doPartialAccept (s : PAState) : PAState :=
  match s.groups with
  | [] => s
  | g :: rest =>
    if g.RenderHint = "append_chars".data then
      let target := gTarget g
      let cur := bufGetLine s.buf g.BufferLine
      let cur' := cur ++ nextChunk (target.drop cur.length)
      if target.length ≤ cur'.length then
        { s with buf := bufSetLine s.buf g.BufferLine cur'
                 groups := rest }
      else
        { s with buf := bufSetLine s.buf g.BufferLine cur' }
    else
      { s with buf := bufSetLine s.buf g.BufferLine (gTarget g)
               groups := rest }

/-- One group of a full Accept's replace-batch: the group's line is set
to its final content. -/
def applyGroup (buf : List GoStr) (g : PAGroup) : List GoStr :=
  bufSetLine buf g.BufferLine (gTarget g)

/-- A single Accept of the stage: the whole replace-batch at once, cursor
target untouched. -/
def doAccept (s : PAState) : PAState :=
  { s with buf := s.groups.foldl applyGroup s.buf, groups := [] }

/-- Iterated PartialAccept events. -/
def runPartial : PAState → Nat → PAState
  | s, 0 => s
  | s, fuel + 1 =>
    if s.groups = [] then s else runPartial (doPartialAccept s) fuel

/-- Cost of one group: an upper bound on the events it takes. -/
def groupCost (buf : List GoStr) (g : PAGroup) : Nat :=
  if g.RenderHint = "append_chars".data then
    (gTarget g).length - (bufGetLine buf g.BufferLine).length + 1
  else 1

/-- Events needed to exhaust the stage from the given buffer. -/
def paCost (buf : List GoStr) : List PAGroup → Nat
  | [] => 0
  | g :: rest => groupCost buf g + paCost buf rest

theorem nextChunk_take (r : GoStr) :
    ∃ k, 1 ≤ k ∧ nextChunk r = r.take k := by
  unfold nextChunk
  by_cases hw : (r.takeWhile isWordByte).isEmpty
  · exact ⟨1, le_refl 1, by rw [if_pos hw]⟩
  · refine ⟨(r.takeWhile isWordByte).length + 1, by omega, ?e⟩
    rw [if_neg hw, List.take_add]
    congr 1
    exact List.prefix_iff_eq_take.mp (List.takeWhile_prefix _)

theorem bufGetLine_setLine_ne (buf : List GoStr) (ln ln' : Int)
    (c : GoStr) (h : ln ≠ ln') (h1 : 1 ≤ ln) (h2 : 1 ≤ ln') :
    bufGetLine (bufSetLine buf ln' c) ln = bufGetLine buf ln := by
  unfold bufGetLine bufSetLine
  have hne : (ln' - 1).toNat ≠ (ln - 1).toNat := by omega
  unfold List.getD
  rw [List.get?_set_ne c buf hne]

theorem bufGetLine_setLine_self (buf : List GoStr) (ln : Int)
    (c : GoStr) (h1 : 1 ≤ ln) (hlt : (ln - 1).toNat < buf.length) :
    bufGetLine (bufSetLine buf ln c) ln = c := by
  unfold bufGetLine bufSetLine
  unfold List.getD
  rw [List.get?_set_eq_of_lt c hlt]
  rfl

theorem groupCost_pos (buf : List GoStr) (g : PAGroup) :
    1 ≤ groupCost buf g := by
  unfold groupCost
  split_ifs <;> omega

theorem groupCost_congr (buf buf' : List GoStr) (g : PAGroup)
    (h : bufGetLine buf' g.BufferLine = bufGetLine buf g.BufferLine) :
    groupCost buf' g = groupCost buf g := by
  unfold groupCost
  rw [h]

theorem paCost_congr (buf buf' : List GoStr) : ∀ gs : List PAGroup,
    (∀ g ∈ gs,
      bufGetLine buf' g.BufferLine = bufGetLine buf g.BufferLine) →
    paCost buf' gs = paCost buf gs := by
  intro gs
  induction gs with
  | nil => intro _; rfl
  | cons g rest ih =>
    intro h
    simp only [paCost]
    rw [groupCost_congr buf buf' g (h g (List.mem_cons_self _ _)),
      ih (fun g' hg' => h g' (List.mem_cons_of_mem _ hg'))]

theorem doPartialAccept_cursorTarget (s : PAState) :
    (doPartialAccept s).cursorTarget = s.cursorTarget := by
  rcases s with ⟨buf, gs, ct⟩
  rcases gs with _ | ⟨g, rest⟩
  · rfl
  · simp only [doPartialAccept]
    split_ifs <;> rfl

theorem runPartial_cursorTarget : ∀ (k : Nat) (s : PAState),
    (runPartial s k).cursorTarget = s.cursorTarget := by
  intro k
  induction k with
  | zero => intro s; rfl
  | succ k' ih =>
    intro s
    rw [runPartial]
    split_ifs with h
    · rfl
    · rw [ih (doPartialAccept s), doPartialAccept_cursorTarget]

theorem doAccept_congr_buf (buf1 buf2 : List GoStr) (g : PAGroup)
    (rest : List PAGroup) (ct : CursorPredictionTarget)
    (h : applyGroup buf1 g = applyGroup buf2 g) :
    doAccept ⟨buf1, g :: rest, ct⟩ = doAccept ⟨buf2, g :: rest, ct⟩ := by
  simp only [doAccept, List.foldl_cons, h]

theorem runPartial_spec : ∀ (fuel : Nat) (buf : List GoStr)
    (gs : List PAGroup) (ct : CursorPredictionTarget),
    List.Pairwise (fun a b => a.BufferLine ≠ b.BufferLine) gs →
    (∀ g ∈ gs, 1 ≤ g.BufferLine) →
    (∀ g ∈ gs, (g.BufferLine - 1).toNat < buf.length) →
    (∀ g ∈ gs, g.RenderHint = "append_chars".data →
      bufGetLine buf g.BufferLine =
        (gTarget g).take (bufGetLine buf g.BufferLine).length) →
    paCost buf gs ≤ fuel →
    runPartial ⟨buf, gs, ct⟩ fuel = doAccept ⟨buf, gs, ct⟩ := by
  intro fuel
  induction fuel with
  | zero =>
    intro buf gs ct _ _ _ _ hf
    cases gs with
    | nil => rfl
    | cons g rest =>
      exfalso
      have h1 := groupCost_pos buf g
      simp only [paCost] at hf
      omega
  | succ fuel ih =>
    intro buf gs ct hdist hpos hrange hpre hf
    cases gs with
    | nil => rfl
    | cons g rest =>
      have hg1 : 1 ≤ g.BufferLine := hpos g (List.mem_cons_self _ _)
      have hgr : (g.BufferLine - 1).toNat < buf.length :=
        hrange g (List.mem_cons_self _ _)
      have hsep : ∀ g' ∈ rest, g.BufferLine ≠ g'.BufferLine :=
        (List.pairwise_cons.mp hdist).1
      have hstep : runPartial ⟨buf, g :: rest, ct⟩ (fuel + 1) =
          runPartial (doPartialAccept ⟨buf, g :: rest, ct⟩) fuel := by
        rw [runPartial, if_neg (by simp)]
      rw [hstep]
      by_cases hhint : g.RenderHint = "append_chars".data
      · -- append_chars leading group
        have hpre0 := hpre g (List.mem_cons_self _ _) hhint
        obtain ⟨k, hk1, hkeq⟩ := nextChunk_take
          ((gTarget g).drop (bufGetLine buf g.BufferLine).length)
        have hcur' : bufGetLine buf g.BufferLine ++
            nextChunk ((gTarget g).drop
              (bufGetLine buf g.BufferLine).length) =
            (gTarget g).take ((bufGetLine buf g.BufferLine).length + k)
            := by
          rw [List.take_add, hkeq]
          congr 1
        have hmle : (bufGetLine buf g.BufferLine).length ≤
            (gTarget g).length := by
          conv_lhs => rw [hpre0]
          rw [List.length_take]
          omega
        by_cases hdone : (gTarget g).length ≤
            (bufGetLine buf g.BufferLine ++
              nextChunk ((gTarget g).drop
                (bufGetLine buf g.BufferLine).length)).length
        · -- the chunk completes the line: group consumed
          have hcurt : bufGetLine buf g.BufferLine ++
              nextChunk ((gTarget g).drop
                (bufGetLine buf g.BufferLine).length) = gTarget g := by
            rw [hcur']
            apply List.take_all_of_le
            rw [hcur', List.length_take] at hdone
            omega
          have hd : doPartialAccept ⟨buf, g :: rest, ct⟩ =
              ⟨bufSetLine buf g.BufferLine (gTarget g), rest, ct⟩ := by
            simp only [doPartialAccept]
            rw [if_pos hhint, if_pos hdone, hcurt]
          rw [hd]
          have hlines : ∀ g' ∈ rest,
              bufGetLine (bufSetLine buf g.BufferLine (gTarget g))
                g'.BufferLine = bufGetLine buf g'.BufferLine := by
            intro g' hg'
            exact bufGetLine_setLine_ne buf g'.BufferLine g.BufferLine _
              (Ne.symm (hsep g' hg')) (hpos g' (List.mem_cons_of_mem _
                hg')) hg1
          have hIH := ih (bufSetLine buf g.BufferLine (gTarget g)) rest
            ct (List.pairwise_cons.mp hdist).2
            (fun g' hg' => hpos g' (List.mem_cons_of_mem _ hg'))
            (fun g' hg' => by
              unfold bufSetLine
              rw [List.length_set]
              exact hrange g' (List.mem_cons_of_mem _ hg'))
            (fun g' hg' hh => by
              rw [hlines g' hg']
              exact hpre g' (List.mem_cons_of_mem _ hg') hh)
            (by
              rw [paCost_congr buf _ rest hlines]
              have hgc : groupCost buf g =
                  (gTarget g).length -
                    (bufGetLine buf g.BufferLine).length + 1 := by
                unfold groupCost
                rw [if_pos hhint]
              simp only [paCost] at hf
              omega)
          rw [hIH]
          apply doAccept_congr_buf
          rfl
        · -- the chunk leaves part of the line: group kept
          have hd : doPartialAccept ⟨buf, g :: rest, ct⟩ =
              ⟨bufSetLine buf g.BufferLine
                ((gTarget g).take
                  ((bufGetLine buf g.BufferLine).length + k)),
                g :: rest, ct⟩ := by
            simp only [doPartialAccept]
            rw [if_pos hhint, if_neg hdone, hcur']
          rw [hd]
          have hmk : (bufGetLine buf g.BufferLine).length + k <
              (gTarget g).length := by
            rw [hcur', List.length_take] at hdone
            omega
          have hself : bufGetLine (bufSetLine buf g.BufferLine
              ((gTarget g).take
                ((bufGetLine buf g.BufferLine).length + k)))
              g.BufferLine =
              (gTarget g).take
                ((bufGetLine buf g.BufferLine).length + k) :=
            bufGetLine_setLine_self buf g.BufferLine _ hg1 hgr
          have hlines : ∀ g' ∈ rest,
              bufGetLine (bufSetLine buf g.BufferLine
                ((gTarget g).take
                  ((bufGetLine buf g.BufferLine).length + k)))
                g'.BufferLine = bufGetLine buf g'.BufferLine := by
            intro g' hg'
            exact bufGetLine_setLine_ne buf g'.BufferLine g.BufferLine _
              (Ne.symm (hsep g' hg')) (hpos g' (List.mem_cons_of_mem _
                hg')) hg1
          have hIH := ih (bufSetLine buf g.BufferLine
              ((gTarget g).take
                ((bufGetLine buf g.BufferLine).length + k)))
            (g :: rest) ct hdist hpos
            (fun g' hg' => by
              unfold bufSetLine
              rw [List.length_set]
              exact hrange g' hg')
            (fun g' hg' hh => by
              rcases List.mem_cons.mp hg' with h1 | h1
              · subst h1
                rw [hself, List.length_take]
                have : min ((bufGetLine buf g'.BufferLine).length + k)
                    (gTarget g').length =
                    (bufGetLine buf g'.BufferLine).length + k := by
                  omega
                rw [this]
              · rw [hlines g' h1]
                exact hpre g' (List.mem_cons_of_mem _ h1) hh)
            (by
              simp only [paCost]
              rw [paCost_congr buf _ rest hlines]
              have hgc1 : groupCost (bufSetLine buf g.BufferLine
                  ((gTarget g).take
                    ((bufGetLine buf g.BufferLine).length + k))) g =
                  (gTarget g).length -
                    ((bufGetLine buf g.BufferLine).length + k) + 1 := by
                unfold groupCost
                rw [if_pos hhint, hself, List.length_take]
                congr 1
                omega
              have hgc2 : groupCost buf g =
                  (gTarget g).length -
                    (bufGetLine buf g.BufferLine).length + 1 := by
                unfold groupCost
                rw [if_pos hhint]
              simp only [paCost] at hf
              omega)
          rw [hIH]
          apply doAccept_congr_buf
          unfold applyGroup bufSetLine
          rw [List.set_set]
      · -- full-line leading group
        have hd : doPartialAccept ⟨buf, g :: rest, ct⟩ =
            ⟨bufSetLine buf g.BufferLine (gTarget g), rest, ct⟩ := by
          simp only [doPartialAccept]
          rw [if_neg hhint]
        rw [hd]
        have hlines : ∀ g' ∈ rest,
            bufGetLine (bufSetLine buf g.BufferLine (gTarget g))
              g'.BufferLine = bufGetLine buf g'.BufferLine := by
          intro g' hg'
          exact bufGetLine_setLine_ne buf g'.BufferLine g.BufferLine _
            (Ne.symm (hsep g' hg')) (hpos g' (List.mem_cons_of_mem _
              hg')) hg1
        have hIH := ih (bufSetLine buf g.BufferLine (gTarget g)) rest ct
          (List.pairwise_cons.mp hdist).2
          (fun g' hg' => hpos g' (List.mem_cons_of_mem _ hg'))
          (fun g' hg' => by
            unfold bufSetLine
            rw [List.length_set]
            exact hrange g' (List.mem_cons_of_mem _ hg'))
          (fun g' hg' hh => by
            rw [hlines g' hg']
            exact hpre g' (List.mem_cons_of_mem _ hg') hh)
          (by
            rw [paCost_congr buf _ rest hlines]
            have hgc : groupCost buf g = 1 := by
              unfold groupCost
              rw [if_neg hhint]
            simp only [paCost] at hf
            omega)
        rw [hIH]
        apply doAccept_congr_buf
        rfl

/-- C3: on the modelled partial-accept algorithm — groups on pairwise
distinct, in-range buffer lines, with every `append_chars` group's
current line a prefix of its target (the display invariant the engine
maintains) — exhausting a stage by PartialAccept events reaches exactly
the state of a single Accept of the stage: byte-identical buffer and
identical cursor target; moreover no PartialAccept event ever mutates
the stage's cursor target. -/
theorem partialAccept_exhaust_equals_accept (s : PAState)
    (hdist : List.Pairwise (fun a b => a.BufferLine ≠ b.BufferLine)
      s.groups)
    (hpos : ∀ g ∈ s.groups, 1 ≤ g.BufferLine)
    (hrange : ∀ g ∈ s.groups, (g.BufferLine - 1).toNat < s.buf.length)
    (hpre : ∀ g ∈ s.groups, g.RenderHint = "append_chars".data →
      bufGetLine s.buf g.BufferLine =
        (gTarget g).take (bufGetLine s.buf g.BufferLine).length) :
    runPartial s (paCost s.buf s.groups) = doAccept s ∧
    (runPartial s (paCost s.buf s.groups)).groups = [] ∧
    ∀ n : Nat, (runPartial s n).cursorTarget = s.cursorTarget := by
  rcases s with ⟨buf, gs, ct⟩
  have h := runPartial_spec (paCost buf gs) buf gs ct hdist hpos hrange
    hpre (le_refl _)
  refine ⟨h, ?g2, ?g3⟩
  · rw [h]
    rfl
  · intro n
    exact runPartial_cursorTarget n _

/-- The witness stage for C3: an `append_chars` group completing
`"func"` to `"function foo()"` on line 1 and a full-line modification on
line 2, with a retrigger cursor target on line 8. -/
def c3state : PAState :=
  ⟨["func".data, "old".data],
    [⟨"modification".data, 1, "append_chars".data,
      ["function foo()".data]⟩,
     ⟨"modification".data, 2, [], ["new line".data]⟩],
    ⟨"test.go".data, 8, true⟩⟩

/-- Witness for C3 at `c3state`. -/
theorem partialAccept_exhaust_witness :
    runPartial c3state (paCost c3state.buf c3state.groups) =
      doAccept c3state ∧
    (runPartial c3state
      (paCost c3state.buf c3state.groups)).groups = [] ∧
    ∀ n : Nat,
      (runPartial c3state n).cursorTarget = c3state.cursorTarget :=
  partialAccept_exhaust_equals_accept c3state (by decide) (by decide)
    (by decide) (by decide)

/-! ## Incremental stage builder (streaming path) -/

/-- `text.StageContext`. -/
structure StageContext where
  BufferStart : Int
  CursorRow : Int
  CursorCol : Int
  LineNumToBufferLine : List (Int × Int)

/-- `ValidateRenderHintsForCursor` (`text/staging.go`): downgrade
character-level hints on the cursor row once the cursor is past the
change start. -/
def ValidateRenderHintsForCursor (groups : List Group)
    (cursorRow cursorCol : Int) : List Group :=
  groups.map (fun g =>
    if g.BufferLine ≠ cursorRow then g
    else if g.RenderHint = "append_chars".data ∧
        (g.ColStart : Int) < cursorCol then
      { g with RenderHint := [] }
    else if g.RenderHint = "replace_chars".data ∧
        (g.ColStart : Int) < cursorCol then
      { g with RenderHint := [] }
    else g)

/-- The modification-anchor scan of `FinalizeStageGroups`:
(lastModLine, lastModBufLine, cursorModLine, cursorModBufLine). -/
structure FSGScan where
  lastModLine : Int
  lastModBufLine : Int
  cursorModLine : Int
  cursorModBufLine : Int

/-- `FinalizeStageGroups` (`text/staging.go`): build groups, anchor
their buffer lines, validate hints and compute the cursor position.
(The Go range over the change map is modelled in the map's insertion
order; the scan's result only depends on the max key and on which keys
sit on the cursor row.) -/
def FinalizeStageGroups (changes : ChangeMap) (newLines : List GoStr)
    (ctx : StageContext) : List Group × Int × Int :=
  let groups := GroupChanges changes
  let scan := changes.foldl
    (fun (st : FSGScan) p =>
      if p.2.Typ = ChangeType.modification ∨
          p.2.Typ.IsCharacterLevel = true then
        let bufLine0 := amGetD ctx.LineNumToBufferLine p.1 0
        let bufLine := if bufLine0 = 0 then ctx.BufferStart + p.1 - 1
          else bufLine0
        let st1 := if p.1 > st.lastModLine then
            { st with lastModLine := p.1, lastModBufLine := bufLine }
          else st
        if bufLine = ctx.CursorRow then
          { st1 with cursorModLine := p.1, cursorModBufLine := bufLine }
        else st1
      else st)
    ⟨0, ctx.BufferStart, 0, 0⟩
  let groups2 := groups.map (fun g =>
    if g.GType = "addition".data ∧ scan.lastModLine > 0 ∧
        g.StartLine > scan.lastModLine then
      { g with BufferLine := scan.lastModBufLine + 1 }
    else if g.GType = "addition".data ∧ scan.cursorModLine > 0 ∧
        g.StartLine < scan.cursorModLine then
      { g with BufferLine := scan.cursorModBufLine }
    else
      let bufLine := amGetD ctx.LineNumToBufferLine g.StartLine 0
      if bufLine > 0 then { g with BufferLine := bufLine }
      else { g with BufferLine := ctx.BufferStart + g.StartLine - 1 })
  let groups3 := ValidateRenderHintsForCursor groups2 ctx.CursorRow
    ctx.CursorCol
  (groups3, CalculateCursorPosition changes newLines)

/-- The viewport-visibility flag of a buffer line (`AddLine`'s
`isInViewport` boolean). -/
def visFlag (viewportTop viewportBottom ln : Int) : Bool :=
  if (viewportTop = 0 ∧ viewportBottom = 0) ∨
      (ln ≥ viewportTop ∧ ln ≤ viewportBottom) then true else false

/-- The streaming stage builder's state (`IncrementalStageBuilder`). -/
structure IncrementalStageBuilder where
  OldLines : List GoStr
  BaseLineOffset : Int
  ProximityThreshold : Int
  MaxVisibleLines : Int
  ViewportTop : Int
  ViewportBottom : Int
  CursorRow : Int
  CursorCol : Int
  FilePath : GoStr
  diffBuilder : IncrementalDiffBuilder
  currentStage : Option Stage
  currentStageInViewport : Bool
  finalizedStages : List Stage
  lastChangeBufferLine : Int

def NewIncrementalStageBuilder (oldLines : List GoStr)
    (baseLineOffset proximityThreshold maxVisibleLines viewportTop
      viewportBottom cursorRow cursorCol : Int) (filePath : GoStr) :
    IncrementalStageBuilder :=
  ⟨oldLines, baseLineOffset, proximityThreshold, maxVisibleLines,
    viewportTop, viewportBottom, cursorRow, cursorCol, filePath,
    NewIncrementalDiffBuilder oldLines, none, false, [], 0⟩

namespace IncrementalStageBuilder

/-- `computeCurrentBufferLine`: where an (unchanged) streamed line maps
in the buffer. -/
def computeCurrentBufferLine (b : IncrementalStageBuilder)
    (lineNum : Int) : Int :=
  if lineNum > 0 ∧
      lineNum ≤ (b.diffBuilder.mapping.NewToOld.length : Int) then
    let oldLine := b.diffBuilder.mapping.NewToOld.getD
      (lineNum - 1).toNat 0
    if oldLine > 0 then oldLine + b.BaseLineOffset - 1
    else lineNum + b.BaseLineOffset - 1
  else lineNum + b.BaseLineOffset - 1

/-- `shouldStartNewStage`: split on the MaxVisibleLines cap, on buffer
gaps beyond the proximity threshold, and on viewport-visibility flips. -/
def shouldStartNewStage (b : IncrementalStageBuilder) (bufferLine : Int)
    (isInViewport : Bool) : Bool :=
  match b.currentStage with
  | none => false
  | some st =>
    if b.MaxVisibleLines > 0 ∧
        st.endLine - st.startLine + 1 ≥ b.MaxVisibleLines then true
    else
      let bufferGap := bufferLine - b.lastChangeBufferLine
      let bufferGap := if bufferGap < 0 then -bufferGap else bufferGap
      if b.lastChangeBufferLine > 0 ∧
          bufferGap > b.ProximityThreshold then true
      else decide (¬b.currentStageInViewport = isInViewport)

/-- `startNewStage`.  (`computeStageBufferRange` delegates to
`getStageBufferRange`, which is absent from the sources; its result is
overwritten by `finalizeCurrentStage` before any stage escapes, so the
intermediate `BufferStart`/`BufferEnd` keep their zero defaults here.) -/
def startNewStage (b : IncrementalStageBuilder)
    (lineNum bufferLine : Int) (change : LineChange)
    (isInViewport : Bool) : IncrementalStageBuilder :=
  let st : Stage := { startLine := lineNum
                      endLine := lineNum
                      rawChanges := [(lineNum, change)] }
  { b with
      currentStage := some st
      currentStageInViewport := isInViewport
      lastChangeBufferLine := bufferLine }

/-- `extendCurrentStage`. -/
def extendCurrentStage (b : IncrementalStageBuilder)
    (lineNum bufferLine : Int) (change : LineChange) :
    IncrementalStageBuilder :=
  match b.currentStage with
  | none => b
  | some st =>
    let st2 : Stage := { st with
      rawChanges := amSet st.rawChanges lineNum change
      endLine := if lineNum > st.endLine then lineNum else st.endLine }
    { b with
        currentStage := some st2
        lastChangeBufferLine := bufferLine }

/-- The extraction loop of `extractStageNewLines`:
`for j := jStart; j <= jEnd && j-1 < len(newLines); j++`. -/
def extractNewGo (newLines : List GoStr) (jEnd : Int) :
    Int → Nat → List GoStr
  | _, 0 => []
  | j, fuel + 1 =>
    if j ≤ jEnd ∧ j - 1 < (newLines.length : Int) then
      (if j > 0 then [newLines.getD (j - 1).toNat []] else []) ++
        extractNewGo newLines jEnd (j + 1) fuel
    else []

/-- `extractStageNewLines`.  (`getStageNewLineRange` is absent from the
sources; modelled from the spec as the stage's streamed-line span
`[startLine, endLine]`.) -/
def extractStageNewLines (b : IncrementalStageBuilder) (stage : Stage) :
    List GoStr × Int × Int :=
  let newStartLine := stage.startLine
  let newEndLine := stage.endLine
  (extractNewGo b.diffBuilder.NewLines newEndLine newStartLine
    (newEndLine - newStartLine + 1).toNat, newStartLine, newEndLine)

/-- `oldLineRange`. -/
structure oldLineRange where
  minOld : Int
  maxOld : Int
  stageOldLines : List GoStr

/-- `computeOldLineRange`: anchor scan over the raw changes, with a
line-mapping fallback, then old-content extraction. -/
def computeOldLineRange (b : IncrementalStageBuilder) (stage : Stage)
    (newStartLine newEndLine : Int) : oldLineRange :=
  let mm := stage.rawChanges.foldl
    (fun (mm : Int × Int) p =>
      if p.2.OldLineNum > 0 ∧
          p.2.OldLineNum ≤ (b.OldLines.length : Int) then
        (if mm.1 = -1 ∨ p.2.OldLineNum < mm.1 then p.2.OldLineNum
          else mm.1,
         if p.2.OldLineNum > mm.2 then p.2.OldLineNum else mm.2)
      else if p.2.Typ = ChangeType.addition ∧ p.2.OldLineNum = -1 then
        let lastOldLine : Int := b.OldLines.length
        if lastOldLine > 0 then
          (if mm.1 = -1 ∨ lastOldLine < mm.1 then lastOldLine else mm.1,
           if lastOldLine > mm.2 then lastOldLine else mm.2)
        else mm
      else mm)
    (-1, -1)
  let mm :=
    if mm.1 = -1 then
      (intRange newStartLine (newEndLine - newStartLine + 1).toNat).foldl
        (fun (mm : Int × Int) j =>
          if j ≤ 0 then mm
          else
            let oldLine0 :=
              if j - 1 < (b.diffBuilder.mapping.NewToOld.length : Int)
              then b.diffBuilder.mapping.NewToOld.getD (j - 1).toNat 0
              else 0
            let oldLine := if oldLine0 ≤ 0 then j else oldLine0
            if oldLine > 0 ∧ oldLine ≤ (b.OldLines.length : Int) then
              (if mm.1 = -1 ∨ oldLine < mm.1 then oldLine else mm.1,
               if oldLine > mm.2 then oldLine else mm.2)
            else mm)
        mm
    else mm
  let stageOldLines :=
    if mm.1 > 0 ∧ mm.2 > 0 then
      if mm.2 ≤ (b.OldLines.length : Int) then
        (b.OldLines.drop (mm.1 - 1).toNat).take (mm.2 - (mm.1 - 1)).toNat
      else []
    else []
  ⟨mm.1, mm.2, stageOldLines⟩

/-- `remapChanges`: rebuild the stage's changes in local 1-based
coordinates, re-categorizing each line against its mapped old line (the
external per-line classifier is the `cat` parameter, as in the batch
diff). -/
def remapChanges (cat : GoStr → GoStr → ChangeType × Nat × Nat)
    (b : IncrementalStageBuilder) (stageNewLines : List GoStr)
    (newStartLine newEndLine minOld : Int) : ChangeMap :=
  let usedOldLines :=
    (intRange newStartLine (newEndLine - newStartLine + 1).toNat).foldl
      (fun (used : List (Int × Bool)) j =>
        if j > 0 ∧ j - 1 < (b.diffBuilder.mapping.NewToOld.length : Int)
        then
          let oldLine := b.diffBuilder.mapping.NewToOld.getD
            (j - 1).toNat 0
          if oldLine > 0 then amSet used oldLine true else used
        else used)
      []
  stageNewLines.enum.foldl
    (fun (rm : ChangeMap) iv =>
      let relativeLine : Int := iv.1 + 1
      let absoluteNewLine : Int := newStartLine + iv.1
      let oldLine0 :=
        if absoluteNewLine > 0 ∧ absoluteNewLine - 1 <
            (b.diffBuilder.mapping.NewToOld.length : Int) then
          b.diffBuilder.mapping.NewToOld.getD
            (absoluteNewLine - 1).toNat 0
        else 0
      let oldLine :=
        if oldLine0 ≤ 0 then
          if absoluteNewLine > 0 ∧
              absoluteNewLine ≤ (b.OldLines.length : Int) ∧
              amGetD usedOldLines absoluteNewLine false = false then
            absoluteNewLine
          else oldLine0
        else oldLine0
      let oldContent :=
        if oldLine > 0 ∧ oldLine ≤ (b.OldLines.length : Int) then
          b.OldLines.getD (oldLine - 1).toNat []
        else []
      if oldLine ≤ 0 then
        amSet rm relativeLine
          { zeroChange with
              Typ := ChangeType.addition
              OldLineNum := -1
              NewLineNum := relativeLine
              Content := iv.2 }
      else if oldContent = iv.2 then rm
      else
        let r := cat oldContent iv.2
        amSet rm relativeLine
          ⟨r.1, oldLine - minOld + 1, relativeLine, iv.2, oldContent,
            r.2.1, r.2.2⟩)
    []

/-- The relative-line-to-buffer-line map built in
`finalizeCurrentStage`. -/
def relToBufScan (remappedChanges : ChangeMap) (bufferStart : Int) :
    List (Int × Int) :=
  remappedChanges.foldl
    (fun acc p =>
      if (p.2.Typ = ChangeType.modification ∨
          p.2.Typ.IsCharacterLevel = true) ∧ p.2.OldLineNum > 0 then
        amSet acc p.1 (bufferStart + p.2.OldLineNum - 1)
      else acc)
    []

/-- `finalizeCurrentStage`: close the current stage, computing its
buffer range, remapped changes, groups and cursor position. -/
def finalizeCurrentStage (cat : GoStr → GoStr → ChangeType × Nat × Nat)
    (b : IncrementalStageBuilder) :
    IncrementalStageBuilder × Option Stage :=
  match b.currentStage with
  | none => (b, none)
  | some stage =>
    if stage.rawChanges = [] then (b, none)
    else
      let e := extractStageNewLines b stage
      let stageNewLines := e.1
      let newStartLine := e.2.1
      let newEndLine := e.2.2
      let olr := computeOldLineRange b stage newStartLine newEndLine
      let bufferStart0 :=
        if olr.minOld > 0 then olr.minOld + b.BaseLineOffset - 1
        else b.BaseLineOffset
      let remappedChanges := remapChanges cat b stageNewLines
        newStartLine newEndLine olr.minOld
      let hasPureAdditionsOnly := remappedChanges.all
        (fun p => p.2.Typ = ChangeType.addition)
      let bufferStart :=
        if hasPureAdditionsOnly ∧ olr.minOld > 0 then bufferStart0 + 1
        else bufferStart0
      let bufferEnd :=
        max (bufferStart + olr.stageOldLines.length - 1) bufferStart
      let fg := FinalizeStageGroups remappedChanges stageNewLines
        ⟨bufferStart, b.CursorRow, b.CursorCol,
          relToBufScan remappedChanges bufferStart⟩
      let stage2 : Stage := { stage with
        BufferStart := bufferStart
        BufferEnd := bufferEnd
        Lines := stageNewLines
        Changes := remappedChanges
        Groups := fg.1
        CursorLine := fg.2.1
        CursorCol := fg.2.2 }
      ({ b with
          finalizedStages := b.finalizedStages ++ [stage2]
          currentStage := none }, some stage2)

end IncrementalStageBuilder

/-- Modelled from the spec: `stageDistanceFromCursor` is absent from the
sources; §4.4 sorts "by distance from the cursor row", modelled as the
batch path's range distance (0 inside the stage's buffer range,
otherwise the distance to the nearest end). -/
def stageDistanceFromCursor (s : Stage) (cursorRow : Int) : Int :=
  if cursorRow ≥ s.BufferStart ∧ cursorRow ≤ s.BufferEnd then 0
  else if cursorRow < s.BufferStart then s.BufferStart - cursorRow
  else cursorRow - s.BufferEnd

/-- The Go `less` comparator of `sort.SliceStable` in
`IncrementalStageBuilder.Finalize`: (cursor distance, start line). -/
def stageLess (cursorRow : Int) (a b : Stage) : Prop :=
  stageDistanceFromCursor a cursorRow < stageDistanceFromCursor b cursorRow ∨
    (stageDistanceFromCursor a cursorRow =
        stageDistanceFromCursor b cursorRow ∧
      a.startLine < b.startLine)

instance (cursorRow : Int) : DecidableRel (stageLess cursorRow) :=
  fun a b =>
    decidable_of_iff
      (stageDistanceFromCursor a cursorRow <
          stageDistanceFromCursor b cursorRow ∨
        (stageDistanceFromCursor a cursorRow =
            stageDistanceFromCursor b cursorRow ∧
          a.startLine < b.startLine))
      Iff.rfl

/-- The non-strict order the stable sort by `stageLess` realises. -/
def stageLe (cursorRow : Int) (a b : Stage) : Prop :=
  ¬stageLess cursorRow b a

instance (cursorRow : Int) : DecidableRel (stageLe cursorRow) :=
  fun a b => decidable_of_iff (¬stageLess cursorRow b a) Iff.rfl

/-- Modelled from the spec: `StageNeedsNavigation` is absent from the
sources; modelled as the batch `clusterNeedsNavigation` on the stage's
buffer range — outside the viewport, or further from the cursor than
the threshold. -/
def StageNeedsNavigation (s : Stage)
    (cursorRow viewportTop viewportBottom distThreshold : Int) : Bool :=
  if viewportTop > 0 ∧ viewportBottom > 0 ∧
      (s.BufferEnd < viewportTop ∨ s.BufferStart > viewportBottom) then
    true
  else decide (stageDistanceFromCursor s cursorRow > distThreshold)

/-- The cursor-target / IsLastStage assignment loop of `Finalize`;
`rawChanges` is cleared. -/
def setStageTargets (filePath : GoStr) : List Stage → List Stage
  | [] => []
  | [s] =>
    [{ s with
        CursorTarget := some ⟨filePath,
          s.BufferStart + s.Lines.length - 1, true⟩
        IsLastStage := true
        rawChanges := [] }]
  | s :: next :: rest =>
    { s with
        CursorTarget := some ⟨filePath, next.BufferStart, false⟩
        IsLastStage := false
        rawChanges := [] } ::
      setStageTargets filePath (next :: rest)

namespace IncrementalStageBuilder

/-- `IncrementalStageBuilder.AddLine`: run the diff builder on the
streamed line, then extend, start or finalize stages on gap, cap and
viewport boundaries. -/
def AddLine (cat : GoStr → GoStr → ChangeType × Nat × Nat)
    (sim : GoStr → GoStr → ℚ) (eT sT : ℚ)
    (b : IncrementalStageBuilder) (line : GoStr) :
    IncrementalStageBuilder × Option Stage :=
  let r := IncrementalDiffBuilder.AddLine cat sim eT sT b.diffBuilder
    line
  let b1 := { b with diffBuilder := r.1 }
  let lineNum : Int := b1.diffBuilder.NewLines.length
  match r.2 with
  | none =>
    match b1.currentStage with
    | some _ =>
      if b1.lastChangeBufferLine > 0 then
        let currentBufferLine := computeCurrentBufferLine b1 lineNum
        if currentBufferLine > 0 ∧
            currentBufferLine - b1.lastChangeBufferLine >
              b1.ProximityThreshold then
          finalizeCurrentStage cat b1
        else (b1, none)
      else (b1, none)
    | none => (b1, none)
  | some change =>
    let bufferLine := GetBufferLineForChange change lineNum
      b1.BaseLineOffset (some b1.diffBuilder.mapping)
    let isInViewport : Bool :=
      visFlag b1.ViewportTop b1.ViewportBottom bufferLine
    if shouldStartNewStage b1 bufferLine isInViewport then
      let fr := finalizeCurrentStage cat b1
      (startNewStage fr.1 lineNum bufferLine change isInViewport, fr.2)
    else
      match b1.currentStage with
      | none =>
        (startNewStage b1 lineNum bufferLine change isInViewport, none)
      | some _ => (extendCurrentStage b1 lineNum bufferLine change, none)

/-- `IncrementalStageBuilder.Finalize`: close the open stage, stable-sort
all stages by cursor distance (ties by internal start line), assign
cursor targets and `IsLastStage`, and compute `FirstNeedsNavigation`. -/
def Finalize (cat : GoStr → GoStr → ChangeType × Nat × Nat)
    (b : IncrementalStageBuilder) : Option StagingResult :=
  let b1 :=
    match b.currentStage with
    | some st =>
      if st.rawChanges ≠ [] then (finalizeCurrentStage cat b).1 else b
    | none => b
  if b1.finalizedStages = [] then none
  else
    let stages := List.insertionSort (stageLe b1.CursorRow)
      b1.finalizedStages
    let stages2 := setStageTargets b1.FilePath stages
    match stages2 with
    | [] => none
    | first :: _ =>
      some ⟨stages2, StageNeedsNavigation first b1.CursorRow
        b1.ViewportTop b1.ViewportBottom b1.ProximityThreshold⟩

end IncrementalStageBuilder

/-- Feed a stream of lines through the stage builder. -/
def addStageLines (cat : GoStr → GoStr → ChangeType × Nat × Nat)
    (sim : GoStr → GoStr → ℚ) (eT sT : ℚ)
    (b : IncrementalStageBuilder) : List GoStr →
    IncrementalStageBuilder
  | [] => b
  | l :: ls => addStageLines cat sim eT sT
      (IncrementalStageBuilder.AddLine cat sim eT sT b l).1 ls

def c2old : List GoStr := ["a1".data, "b2".data, "c3".data, "d4".data,
  "e5".data, "f6".data, "g7".data, "h8".data]

def c2new : List GoStr := ["a1".data, "b2x".data, "c3".data, "d4x".data,
  "e5".data, "f6".data, "g7".data, "h8x".data]

def c2cat : GoStr → GoStr → ChangeType × Nat × Nat :=
  fun _ _ => (ChangeType.modification, 0, 0)

def c2sim : GoStr → GoStr → ℚ := fun _ _ => 0

/-- The streaming builder after the eight-line stream (threshold 6,
viewport [3,7], cursor row 1, base offset 1). -/
def c2sb : IncrementalStageBuilder :=
  addStageLines c2cat c2sim 1 1
    (NewIncrementalStageBuilder c2old 1 6 0 3 7 1 0 "f".data) c2new

/-- The same stream's diff, packaged as the batch stager's input. -/
def c2dr : DiffResult :=
  ⟨c2sb.diffBuilder.Changes, some c2sb.diffBuilder.mapping, 8, 8⟩

/-- The line hunks of `c2old` vs `c2new` for the batch diff. -/
def c2hunks : List Hunk :=
  [⟨HunkType.equal, ["a1".data]⟩, ⟨HunkType.delete, ["b2".data]⟩,
   ⟨HunkType.insert, ["b2x".data]⟩, ⟨HunkType.equal, ["c3".data]⟩,
   ⟨HunkType.delete, ["d4".data]⟩, ⟨HunkType.insert, ["d4x".data]⟩,
   ⟨HunkType.equal, ["e5".data, "f6".data, "g7".data]⟩,
   ⟨HunkType.delete, ["h8".data]⟩, ⟨HunkType.insert, ["h8x".data]⟩]

/-- C2 counterexample: on an eight-line file with modifications at buffer
lines 2, 4 and 8, viewport [3,7] and proximity threshold 6, the stream
reproduces the batch diff's change set exactly (same keys, types, line
numbers and contents, no additions), yet the streaming `Finalize` emits
three stages with buffer ranges (2,2), (4,4), (8,8) while the batch
`CreateStages` emits two with ranges (2,8) and (4,4): the batch stager
clusters the out-of-viewport changes 2 and 8 (gap 6 ≤ 6) across the
viewport, while the streaming builder closes a stage at each
viewport-visibility flip, so the stage sets differ. -/
theorem incremental_finalize_not_batch_stages :
    ((hunksOld c2hunks = c2old ∧ hunksNew c2hunks = c2new) ∧
    ((processLineDiffs c2cat c2sim c2hunks 0 0 []).map
        (fun p => (p.1, p.2.Typ, p.2.LineNumber, p.2.OldContent,
          p.2.Content)) =
      c2sb.diffBuilder.Changes.map
        (fun p => (p.1, p.2.Typ, p.2.NewLineNum, p.2.OldContent,
          p.2.Content))) ∧
    (IncrementalStageBuilder.Finalize c2cat c2sb).map
        (fun r => r.Stages.map (fun s => (s.BufferStart, s.BufferEnd))) =
      some [(2, 2), (4, 4), (8, 8)] ∧
    (CreateStages c2dr 1 3 7 1 6 "f".data c2new c2old).map
        (fun r => r.Stages.map (fun s => (s.BufferStart, s.BufferEnd))) =
      some [(2, 8), (4, 4)] ∧
    (∀ p ∈ c2sb.diffBuilder.Changes,
      p.2.Typ ≠ ChangeType.addition)) := by
  decide

/-- The amended per-stage property: successive raw changes with explicit
old-line anchors lie within the proximity threshold of each other
(buffer-line gap, which equals the old-line gap), and all anchored
changes share the stage's viewport-visibility flag. -/
def StageChainOK (T base viewportTop viewportBottom : Int)
    (rc : ChangeMap) (v : Bool) : Prop :=
  List.Chain' (fun p q => 0 < p.2.OldLineNum → 0 < q.2.OldLineNum →
    q.2.OldLineNum - p.2.OldLineNum ≤ T ∧
      p.2.OldLineNum - q.2.OldLineNum ≤ T) rc ∧
  ∀ p ∈ rc, 0 < p.2.OldLineNum →
    visFlag viewportTop viewportBottom (p.2.OldLineNum + base - 1) = v

/-- The streaming builder's invariant: every finalized stage satisfies
the chain property for some flag; the open stage satisfies it for the
builder's current flag, its keys are bounded by the streamed line count,
and `lastChangeBufferLine` records its last change's buffer line when
that change is anchored. -/
def SBInv (b : IncrementalStageBuilder) : Prop :=
  (∀ s ∈ b.finalizedStages, ∃ v,
    StageChainOK b.ProximityThreshold b.BaseLineOffset b.ViewportTop
      b.ViewportBottom s.rawChanges v) ∧
  ∀ s, b.currentStage = some s →
    StageChainOK b.ProximityThreshold b.BaseLineOffset b.ViewportTop
      b.ViewportBottom s.rawChanges b.currentStageInViewport ∧
    (∀ p ∈ s.rawChanges,
      p.1 ≤ (b.diffBuilder.NewLines.length : Int)) ∧
    ∀ q, s.rawChanges.getLast? = some q → 0 < q.2.OldLineNum →
      b.lastChangeBufferLine = q.2.OldLineNum + b.BaseLineOffset - 1

theorem GetBufferLineForChange_anchored (change : LineChange)
    (mapKey baseLineOffset : Int) (mapping : Option LineMapping)
    (h : 0 < change.OldLineNum) :
    GetBufferLineForChange change mapKey baseLineOffset mapping =
      change.OldLineNum + baseLineOffset - 1 := by
  unfold GetBufferLineForChange
  rw [if_pos (by omega)]

theorem diffAddLine_newLines
    (cat : GoStr → GoStr → ChangeType × Nat × Nat)
    (sim : GoStr → GoStr → ℚ) (eT sT : ℚ)
    (b : IncrementalDiffBuilder) (line : GoStr) :
    (IncrementalDiffBuilder.AddLine cat sim eT sT b line).1.NewLines =
      b.NewLines ++ [line] := by
  simp only [IncrementalDiffBuilder.AddLine]
  split_ifs <;> rfl

theorem finalizeCurrentStage_cases
    (cat : GoStr → GoStr → ChangeType × Nat × Nat)
    (b : IncrementalStageBuilder) :
    (IncrementalStageBuilder.finalizeCurrentStage cat b).1 = b ∨
    ∃ st, b.currentStage = some st ∧
      ∃ st', (IncrementalStageBuilder.finalizeCurrentStage cat b).2 =
        some st' ∧
      st'.rawChanges = st.rawChanges ∧
      (IncrementalStageBuilder.finalizeCurrentStage cat b).1 =
        { b with
            finalizedStages := b.finalizedStages ++ [st']
            currentStage := none } := by
  rcases hc : b.currentStage with _ | st
  · left
    simp only [IncrementalStageBuilder.finalizeCurrentStage, hc]
  · by_cases he : st.rawChanges = []
    · left
      simp only [IncrementalStageBuilder.finalizeCurrentStage, hc,
        if_pos he]
    · right
      refine ⟨st, rfl, ?rest⟩
      simp only [IncrementalStageBuilder.finalizeCurrentStage, hc]
      rw [if_neg he]
      exact ⟨_, rfl, rfl, rfl⟩

theorem shouldStartNewStage_false (b : IncrementalStageBuilder)
    (st : Stage) (bufferLine : Int) (isInViewport : Bool)
    (hc : b.currentStage = some st)
    (h : IncrementalStageBuilder.shouldStartNewStage b bufferLine
      isInViewport = false) :
    (b.lastChangeBufferLine > 0 →
      bufferLine - b.lastChangeBufferLine ≤ b.ProximityThreshold ∧
      b.lastChangeBufferLine - bufferLine ≤ b.ProximityThreshold) ∧
    b.currentStageInViewport = isInViewport := by
  replace h : (if b.MaxVisibleLines > 0 ∧
      st.endLine - st.startLine + 1 ≥ b.MaxVisibleLines then true
    else
      if b.lastChangeBufferLine > 0 ∧
          (if bufferLine - b.lastChangeBufferLine < 0 then
            -(bufferLine - b.lastChangeBufferLine)
          else bufferLine - b.lastChangeBufferLine) >
            b.ProximityThreshold then true
      else decide (¬b.currentStageInViewport = isInViewport)) = false := by
    rw [← h]
    unfold IncrementalStageBuilder.shouldStartNewStage
    rw [hc]
  by_cases hm : b.MaxVisibleLines > 0 ∧
      st.endLine - st.startLine + 1 ≥ b.MaxVisibleLines
  · rw [if_pos hm] at h
    exact absurd h (by simp)
  · rw [if_neg hm] at h
    by_cases hg : b.lastChangeBufferLine > 0 ∧
        (if bufferLine - b.lastChangeBufferLine < 0 then
          -(bufferLine - b.lastChangeBufferLine)
        else bufferLine - b.lastChangeBufferLine) >
          b.ProximityThreshold
    · rw [if_pos hg] at h
      exact absurd h (by simp)
    · rw [if_neg hg] at h
      constructor
      · intro hpos
        have habs : (if bufferLine - b.lastChangeBufferLine < 0 then
            -(bufferLine - b.lastChangeBufferLine)
          else bufferLine - b.lastChangeBufferLine) ≤
            b.ProximityThreshold := by
          rcases not_and_or.mp hg with h3 | h3
          · exact absurd hpos h3
          · exact not_lt.mp h3
        by_cases hneg : bufferLine - b.lastChangeBufferLine < 0
        · rw [if_pos hneg] at habs
          omega
        · rw [if_neg hneg] at habs
          omega
      · simpa using h

theorem finalize_SBInv (cat : GoStr → GoStr → ChangeType × Nat × Nat)
    (B : IncrementalStageBuilder) (h : SBInv B) :
    SBInv (IncrementalStageBuilder.finalizeCurrentStage cat B).1 := by
  rcases finalizeCurrentStage_cases cat B with he |
    ⟨st, hc, st', hsnd, hrc, he⟩
  · rw [he]
    exact h
  · rw [he]
    constructor
    · intro s hs
      rcases List.mem_append.mp hs with h1 | h1
      · exact h.1 s h1
      · rw [List.mem_singleton] at h1
        subst h1
        exact ⟨B.currentStageInViewport, by
          rw [hrc]
          exact (h.2 st hc).1⟩
    · intro s hs
      exact absurd hs (by simp)

theorem chainOK_append (T base VT VB : Int) (rc : ChangeMap) (v : Bool)
    (k : Int) (c : LineChange)
    (h : StageChainOK T base VT VB rc v)
    (hcross : ∀ q, rc.getLast? = some q → 0 < q.2.OldLineNum →
      0 < c.OldLineNum →
      c.OldLineNum - q.2.OldLineNum ≤ T ∧
        q.2.OldLineNum - c.OldLineNum ≤ T)
    (hvis : 0 < c.OldLineNum →
      visFlag VT VB (c.OldLineNum + base - 1) = v) :
    StageChainOK T base VT VB (rc ++ [(k, c)]) v := by
  constructor
  · rw [List.chain'_append]
    refine ⟨h.1, List.chain'_singleton _, ?cross⟩
    intro x hx y hy
    simp at hy
    subst hy
    intro hxp hyp
    exact hcross x hx hxp hyp
  · intro p hp hpos
    rcases List.mem_append.mp hp with h1 | h1
    · exact h.2 p h1 hpos
    · rw [List.mem_singleton] at h1
      subst h1
      exact hvis hpos

theorem startNewStage_SBInv (B : IncrementalStageBuilder)
    (lineNum bufferLine : Int) (change : LineChange) (iv : Bool)
    (hfin : ∀ s ∈ B.finalizedStages, ∃ v,
      StageChainOK B.ProximityThreshold B.BaseLineOffset B.ViewportTop
        B.ViewportBottom s.rawChanges v)
    (hln : lineNum ≤ (B.diffBuilder.NewLines.length : Int))
    (hbl : 0 < change.OldLineNum →
      bufferLine = change.OldLineNum + B.BaseLineOffset - 1)
    (hiv : 0 < change.OldLineNum →
      visFlag B.ViewportTop B.ViewportBottom bufferLine = iv) :
    SBInv (IncrementalStageBuilder.startNewStage B lineNum bufferLine
      change iv) := by
  constructor
  · intro s hs
    exact hfin s hs
  · intro s hs
    simp only [IncrementalStageBuilder.startNewStage] at hs
    simp only [Option.some.injEq] at hs
    subst hs
    refine ⟨⟨List.chain'_singleton _, ?vis⟩, ?keys, ?last⟩
    case vis =>
      intro p hp hpos
      rw [List.mem_singleton] at hp
      subst hp
      show visFlag B.ViewportTop B.ViewportBottom
        (change.OldLineNum + B.BaseLineOffset - 1) = iv
      rw [← hbl hpos]
      exact hiv hpos
    case keys =>
      intro p hp
      rw [List.mem_singleton] at hp
      subst hp
      exact hln
    case last =>
      intro q hq hpos
      simp only [List.getLast?_singleton, Option.some.injEq] at hq
      subst hq
      exact hbl hpos

theorem extendCurrentStage_SBInv (B : IncrementalStageBuilder)
    (st : Stage) (lineNum bufferLine : Int) (change : LineChange)
    (hc : B.currentStage = some st)
    (hinv : SBInv B)
    (hfresh : ∀ p ∈ st.rawChanges, p.1 < lineNum)
    (hub : lineNum ≤ (B.diffBuilder.NewLines.length : Int))
    (hbl : 0 < change.OldLineNum →
      bufferLine = change.OldLineNum + B.BaseLineOffset - 1)
    (hiv : 0 < change.OldLineNum →
      visFlag B.ViewportTop B.ViewportBottom bufferLine =
        B.currentStageInViewport)
    (hgap : ∀ q, st.rawChanges.getLast? = some q →
      0 < q.2.OldLineNum → 0 < change.OldLineNum →
      change.OldLineNum - q.2.OldLineNum ≤ B.ProximityThreshold ∧
        q.2.OldLineNum - change.OldLineNum ≤ B.ProximityThreshold) :
    SBInv (IncrementalStageBuilder.extendCurrentStage B lineNum
      bufferLine change) := by
  have hset : amSet st.rawChanges lineNum change =
      st.rawChanges ++ [(lineNum, change)] :=
    amSet_fresh _ _ _ (fun p hp => by have := hfresh p hp; omega)
  obtain ⟨hfin, hcur⟩ := hinv
  obtain ⟨hok, hkeys, hlast⟩ := hcur st hc
  have hext : IncrementalStageBuilder.extendCurrentStage B lineNum
      bufferLine change =
      { B with
          currentStage := some { st with
            rawChanges := amSet st.rawChanges lineNum change
            endLine := if lineNum > st.endLine then lineNum
              else st.endLine }
          lastChangeBufferLine := bufferLine } := by
    simp only [IncrementalStageBuilder.extendCurrentStage, hc]
  rw [hext]
  constructor
  · intro s hs
    exact hfin s hs
  · intro s hs
    simp only [Option.some.injEq] at hs
    subst hs
    refine ⟨?ok, ?keys, ?last⟩
    case ok =>
      show StageChainOK _ _ _ _ (amSet st.rawChanges lineNum change) _
      rw [hset]
      exact chainOK_append _ _ _ _ _ _ _ _ hok hgap
        (fun hpos => by
          rw [← hbl hpos]
          exact hiv hpos)
    case keys =>
      intro p hp
      show p.1 ≤ (B.diffBuilder.NewLines.length : Int)
      have hp2 : p ∈ amSet st.rawChanges lineNum change := hp
      rw [hset] at hp2
      rcases List.mem_append.mp hp2 with h1 | h1
      · have h2 := hkeys p h1
        omega
      · rw [List.mem_singleton] at h1
        subst h1
        exact hub
    case last =>
      intro q hq hpos
      show bufferLine = q.2.OldLineNum + B.BaseLineOffset - 1
      have hq2 : (amSet st.rawChanges lineNum change).getLast? = some q
        := hq
      rw [hset, List.getLast?_concat, Option.some.injEq] at hq2
      subst hq2
      exact hbl hpos

theorem finalize_config (cat : GoStr → GoStr → ChangeType × Nat × Nat)
    (B : IncrementalStageBuilder) :
    (IncrementalStageBuilder.finalizeCurrentStage cat B).1.BaseLineOffset
      = B.BaseLineOffset ∧
    (IncrementalStageBuilder.finalizeCurrentStage cat
      B).1.ProximityThreshold = B.ProximityThreshold ∧
    (IncrementalStageBuilder.finalizeCurrentStage cat B).1.ViewportTop
      = B.ViewportTop ∧
    (IncrementalStageBuilder.finalizeCurrentStage cat B).1.ViewportBottom
      = B.ViewportBottom ∧
    (IncrementalStageBuilder.finalizeCurrentStage cat B).1.diffBuilder
      = B.diffBuilder := by
  rcases finalizeCurrentStage_cases cat B with he |
    ⟨st, hc, st', h2, h3, he⟩
  · rw [he]
    exact ⟨rfl, rfl, rfl, rfl, rfl⟩
  · rw [he]
    exact ⟨rfl, rfl, rfl, rfl, rfl⟩

theorem stageAddLine_cases (cat : GoStr → GoStr → ChangeType × Nat × Nat)
    (sim : GoStr → GoStr → ℚ) (eT sT : ℚ)
    (b : IncrementalStageBuilder) (line : GoStr)
    (rb : IncrementalDiffBuilder) (rc : Option LineChange)
    (hrb : rb = (IncrementalDiffBuilder.AddLine cat sim eT sT
      b.diffBuilder line).1)
    (hrc : rc = (IncrementalDiffBuilder.AddLine cat sim eT sT
      b.diffBuilder line).2)
    (b1 : IncrementalStageBuilder)
    (hb1 : b1 = { b with diffBuilder := rb })
    (lineNum : Int)
    (hln : lineNum = (b1.diffBuilder.NewLines.length : Int)) :
    (IncrementalStageBuilder.AddLine cat sim eT sT b line).1 = b1 ∨
    (IncrementalStageBuilder.AddLine cat sim eT sT b line).1 =
      (IncrementalStageBuilder.finalizeCurrentStage cat b1).1 ∨
    (∃ change, rc = some change ∧
      ∃ BL : Int, BL = GetBufferLineForChange change lineNum
        b1.BaseLineOffset (some b1.diffBuilder.mapping) ∧
      ∃ IV : Bool, IV = visFlag b1.ViewportTop b1.ViewportBottom BL ∧
      ((IncrementalStageBuilder.shouldStartNewStage b1 BL IV = true ∧
        (IncrementalStageBuilder.AddLine cat sim eT sT b line).1 =
          IncrementalStageBuilder.startNewStage
            (IncrementalStageBuilder.finalizeCurrentStage cat b1).1
            lineNum BL change IV) ∨
       (IncrementalStageBuilder.shouldStartNewStage b1 BL IV = false ∧
        b1.currentStage = none ∧
        (IncrementalStageBuilder.AddLine cat sim eT sT b line).1 =
          IncrementalStageBuilder.startNewStage b1 lineNum BL change IV)
        ∨
       (∃ st,
        IncrementalStageBuilder.shouldStartNewStage b1 BL IV = false ∧
        b1.currentStage = some st ∧
        (IncrementalStageBuilder.AddLine cat sim eT sT b line).1 =
          IncrementalStageBuilder.extendCurrentStage b1 lineNum BL
            change))) := by
  subst hln
  subst hb1
  simp only [IncrementalStageBuilder.AddLine]
  rw [← hrb, ← hrc]
  rcases rc with _ | change
  · simp only []
    rcases hcs : b.currentStage with _ | st
    · refine Or.inl ?_
      rfl
    · simp only [hcs]
      split_ifs with h1 h2
      · exact Or.inr (Or.inl rfl)
      · exact Or.inl rfl
      · exact Or.inl rfl
  · simp only []
    split_ifs with hss
    · refine Or.inr (Or.inr ⟨change, rfl, _, rfl, _, rfl, Or.inl
        ⟨?c1, ?c2⟩⟩)
      case c1 => exact hss
      case c2 => rfl
    · rcases hcs : b.currentStage with _ | st
      · refine Or.inr (Or.inr ⟨change, rfl, _, rfl, _, rfl, Or.inr
          (Or.inl ⟨?c1, ?c2, ?c3⟩)⟩)
        case c1 =>
          rw [hcs] at hss
          simpa using hss
        case c2 => rfl
        case c3 => rfl
      · refine Or.inr (Or.inr ⟨change, rfl, _, rfl, _, rfl, Or.inr
          (Or.inr ⟨st, ?c1, ?c2, ?c3⟩)⟩)
        case c1 =>
          rw [hcs] at hss
          simpa using hss
        case c2 => rfl
        case c3 => rfl

theorem extend_config (B : IncrementalStageBuilder)
    (lineNum bufferLine : Int) (change : LineChange) :
    (IncrementalStageBuilder.extendCurrentStage B lineNum bufferLine
      change).BaseLineOffset = B.BaseLineOffset ∧
    (IncrementalStageBuilder.extendCurrentStage B lineNum bufferLine
      change).ProximityThreshold = B.ProximityThreshold ∧
    (IncrementalStageBuilder.extendCurrentStage B lineNum bufferLine
      change).ViewportTop = B.ViewportTop ∧
    (IncrementalStageBuilder.extendCurrentStage B lineNum bufferLine
      change).ViewportBottom = B.ViewportBottom := by
  unfold IncrementalStageBuilder.extendCurrentStage
  split <;> exact ⟨rfl, rfl, rfl, rfl⟩

theorem stageAddLine_SBInv (cat : GoStr → GoStr → ChangeType × Nat × Nat)
    (sim : GoStr → GoStr → ℚ) (eT sT : ℚ)
    (b : IncrementalStageBuilder) (line : GoStr)
    (hbase : 1 ≤ b.BaseLineOffset) (hinv : SBInv b) :
    SBInv (IncrementalStageBuilder.AddLine cat sim eT sT b line).1 ∧
    (IncrementalStageBuilder.AddLine cat sim eT sT b
      line).1.BaseLineOffset = b.BaseLineOffset ∧
    (IncrementalStageBuilder.AddLine cat sim eT sT b
      line).1.ProximityThreshold = b.ProximityThreshold ∧
    (IncrementalStageBuilder.AddLine cat sim eT sT b
      line).1.ViewportTop = b.ViewportTop ∧
    (IncrementalStageBuilder.AddLine cat sim eT sT b
      line).1.ViewportBottom = b.ViewportBottom := by
  let B1 : IncrementalStageBuilder :=
    { b with diffBuilder :=
        (IncrementalDiffBuilder.AddLine cat sim eT sT b.diffBuilder
          line).1 }
  have hcases := stageAddLine_cases cat sim eT sT b line _ _ rfl rfl B1
    rfl ((B1.diffBuilder.NewLines.length : Int)) rfl
  have hlenN : (B1.diffBuilder.NewLines.length : Int) =
      (b.diffBuilder.NewLines.length : Int) + 1 := by
    show ((IncrementalDiffBuilder.AddLine cat sim eT sT b.diffBuilder
      line).1.NewLines.length : Int) = _
    rw [diffAddLine_newLines]
    push_cast
    simp
  have hinv1 : SBInv B1 := by
    obtain ⟨hfin, hcur⟩ := hinv
    constructor
    · intro s hs
      exact hfin s hs
    · intro s hs
      obtain ⟨h1, h2, h3⟩ := hcur s hs
      refine ⟨h1, ?keys, h3⟩
      intro p hp
      have h4 := h2 p hp
      omega
  rcases hcases with he | he | ⟨change, hrc, BL, hBL, IV, hIV, hbranch⟩
  · rw [he]
    exact ⟨hinv1, rfl, rfl, rfl, rfl⟩
  · rw [he]
    exact ⟨finalize_SBInv cat B1 hinv1, (finalize_config cat B1).1,
      (finalize_config cat B1).2.1, (finalize_config cat B1).2.2.1,
      (finalize_config cat B1).2.2.2.1⟩
  · have hBLa : 0 < change.OldLineNum →
        BL = change.OldLineNum + b.BaseLineOffset - 1 := by
      intro hpos
      rw [hBL]
      exact GetBufferLineForChange_anchored change _ _ _ hpos
    rcases hbranch with ⟨hss, he⟩ | ⟨hss, hcs, he⟩ | ⟨st, hss, hcs, he⟩
    · -- new stage after finalizing the previous one
      rw [he]
      constructor
      · apply startNewStage_SBInv
        · exact (finalize_SBInv cat B1 hinv1).1
        · rw [(finalize_config cat B1).2.2.2.2]
        · intro hpos
          rw [(finalize_config cat B1).1]
          exact hBLa hpos
        · intro hpos
          rw [(finalize_config cat B1).2.2.1,
            (finalize_config cat B1).2.2.2.1]
          exact hIV.symm
      · refine ⟨?f1, ?f2, ?f3, ?f4⟩
        case f1 =>
          show (IncrementalStageBuilder.finalizeCurrentStage cat
            B1).1.BaseLineOffset = b.BaseLineOffset
          exact (finalize_config cat B1).1
        case f2 =>
          show (IncrementalStageBuilder.finalizeCurrentStage cat
            B1).1.ProximityThreshold = b.ProximityThreshold
          exact (finalize_config cat B1).2.1
        case f3 =>
          show (IncrementalStageBuilder.finalizeCurrentStage cat
            B1).1.ViewportTop = b.ViewportTop
          exact (finalize_config cat B1).2.2.1
        case f4 =>
          show (IncrementalStageBuilder.finalizeCurrentStage cat
            B1).1.ViewportBottom = b.ViewportBottom
          exact (finalize_config cat B1).2.2.2.1
    · -- first stage of the stream
      rw [he]
      constructor
      · apply startNewStage_SBInv
        · exact hinv1.1
        · exact le_refl _
        · intro hpos
          exact hBLa hpos
        · intro hpos
          exact hIV.symm
      · exact ⟨rfl, rfl, rfl, rfl⟩
    · -- extend the current stage
      rw [he]
      have hssf := shouldStartNewStage_false B1 st BL IV hcs hss
      obtain ⟨hok1, hkeys1, hlast1⟩ := hinv1.2 st hcs
      constructor
      · apply extendCurrentStage_SBInv B1 st _ BL change hcs hinv1
        · intro p hp
          have h4 := (hinv.2 st hcs).2.1 p hp
          omega
        · exact le_refl _
        · intro hpos
          exact hBLa hpos
        · intro hpos
          rw [hssf.2]
          exact hIV.symm
        · intro q hq hqpos hcpos
          have hbb : B1.BaseLineOffset = b.BaseLineOffset := rfl
          have hb1base : (1 : Int) ≤ B1.BaseLineOffset := hbase
          have h5 := hlast1 q hq hqpos
          have h6 : B1.lastChangeBufferLine > 0 := by
            rw [h5]
            omega
          have h7 := hssf.1 h6
          have h8 := hBLa hcpos
          constructor
          · omega
          · omega
      · exact extend_config B1 _ BL change

theorem addStageLines_SBInv
    (cat : GoStr → GoStr → ChangeType × Nat × Nat)
    (sim : GoStr → GoStr → ℚ) (eT sT : ℚ) : ∀ (lines : List GoStr)
    (b : IncrementalStageBuilder), 1 ≤ b.BaseLineOffset → SBInv b →
    SBInv (addStageLines cat sim eT sT b lines) ∧
    (addStageLines cat sim eT sT b lines).BaseLineOffset =
      b.BaseLineOffset ∧
    (addStageLines cat sim eT sT b lines).ProximityThreshold =
      b.ProximityThreshold ∧
    (addStageLines cat sim eT sT b lines).ViewportTop = b.ViewportTop ∧
    (addStageLines cat sim eT sT b lines).ViewportBottom =
      b.ViewportBottom := by
  intro lines
  induction lines with
  | nil =>
    intro b h1 h2
    exact ⟨h2, rfl, rfl, rfl, rfl⟩
  | cons l ls ih =>
    intro b h1 h2
    simp only [addStageLines]
    have hstep := stageAddLine_SBInv cat sim eT sT b l h1 h2
    have hrec := ih (IncrementalStageBuilder.AddLine cat sim eT sT b
        l).1 (by rw [hstep.2.1]; exact h1) hstep.1
    refine ⟨hrec.1, ?e1, ?e2, ?e3, ?e4⟩
    case e1 => rw [hrec.2.1, hstep.2.1]
    case e2 => rw [hrec.2.2.1, hstep.2.2.1]
    case e3 => rw [hrec.2.2.2.1, hstep.2.2.2.1]
    case e4 => rw [hrec.2.2.2.2, hstep.2.2.2.2]

/-- C2 (amended): the streaming stage builder groups the streamed
changes by buffer-line proximity and viewport visibility — after any
stream, every stage it has built (finalized or still open) has its
anchored raw changes in arrival order with adjacent buffer-line gaps at
most the proximity threshold (the gap of two anchored changes is the gap
of their old line numbers), and all anchored changes of one stage share
one viewport-visibility flag.  The full stage-set equality claimed by
the spec fails: the builder also closes stages at viewport flips and
long equal runs as the lines arrive
(`incremental_finalize_not_batch_stages`). -/
theorem incremental_stage_proximity
    (cat : GoStr → GoStr → ChangeType × Nat × Nat)
    (sim : GoStr → GoStr → ℚ) (eT sT : ℚ) (oldLines : List GoStr)
    (base T maxvis VT VB cr cc : Int) (path : GoStr)
    (lines : List GoStr) (hbase : 1 ≤ base) :
    (∀ s ∈ (addStageLines cat sim eT sT
        (NewIncrementalStageBuilder oldLines base T maxvis VT VB cr cc
          path) lines).finalizedStages, ∃ v,
      StageChainOK T base VT VB s.rawChanges v) ∧
    (∀ s, (addStageLines cat sim eT sT
        (NewIncrementalStageBuilder oldLines base T maxvis VT VB cr cc
          path) lines).currentStage = some s →
      ∃ v, StageChainOK T base VT VB s.rawChanges v) := by
  have h0 : SBInv (NewIncrementalStageBuilder oldLines base T maxvis VT
      VB cr cc path) := by
    constructor
    · intro s hs
      simp [NewIncrementalStageBuilder] at hs
    · intro s hs
      simp [NewIncrementalStageBuilder] at hs
  have h := addStageLines_SBInv cat sim eT sT lines
    (NewIncrementalStageBuilder oldLines base T maxvis VT VB cr cc path)
    hbase h0
  obtain ⟨⟨hfin, hcur⟩, hbase2, hT2, hVT2, hVB2⟩ := h
  rw [show (NewIncrementalStageBuilder oldLines base T maxvis VT VB cr
    cc path).BaseLineOffset = base from rfl] at hbase2
  rw [show (NewIncrementalStageBuilder oldLines base T maxvis VT VB cr
    cc path).ProximityThreshold = T from rfl] at hT2
  rw [show (NewIncrementalStageBuilder oldLines base T maxvis VT VB cr
    cc path).ViewportTop = VT from rfl] at hVT2
  rw [show (NewIncrementalStageBuilder oldLines base T maxvis VT VB cr
    cc path).ViewportBottom = VB from rfl] at hVB2
  constructor
  · intro s hs
    have := hfin s hs
    rw [hbase2, hT2, hVT2, hVB2] at this
    exact this
  · intro s hs
    have := (hcur s hs).1
    rw [hbase2, hT2, hVT2, hVB2] at this
    exact ⟨_, this⟩

/-- Witness for the amended C2 theorem at the counterexample's stream. -/
theorem incremental_stage_proximity_witness :
    (∀ s ∈ (addStageLines c2cat c2sim 1 1
        (NewIncrementalStageBuilder c2old 1 6 0 3 7 1 0 "f".data)
        c2new).finalizedStages, ∃ v,
      StageChainOK 6 1 3 7 s.rawChanges v) ∧
    (∀ s, (addStageLines c2cat c2sim 1 1
        (NewIncrementalStageBuilder c2old 1 6 0 3 7 1 0 "f".data)
        c2new).currentStage = some s →
      ∃ v, StageChainOK 6 1 3 7 s.rawChanges v) :=
  incremental_stage_proximity c2cat c2sim 1 1 c2old 1 6 0 3 7 1 0
    "f".data c2new (by norm_num)
